import Mathlib

/-!
# Ring evaluator of the relay (package `miner`)

A shallow embedding of `miner/evaluator.go`.  Arbitrary-precision values of
`math/big` are exact: `*big.Int` is `ℤ`, `*big.Rat` is `ℚ`.  A computation that
can end in a Go run-time panic (division by zero, nil dereference, index out of
range) returns `Option`, with `none` for the panic; a returned Go `error` is
data.  The floating-point calls of the evaluator are not interpreted: they are
fields of the environment `Env`, read as the exact rational value of the
`float64` they produce.
-/

namespace Relay

/-! ## Arithmetic of `math/big` -/

/-- Quotient `big.Rat.Quo(x, y)`; `none` is its panic on a zero divisor. -/
def ratQuo (x y : ℚ) : Option ℚ :=
  if y = 0 then none else some (x / y)

/-- Inverse `big.Rat.Inv(x)`; `none` is its panic on zero. -/
def ratInv (x : ℚ) : Option ℚ :=
  if x = 0 then none else some x⁻¹

/-- Quotient `big.Int.Div(x, y)`, Euclidean division (the remainder is never
negative); `none` is its panic on a zero divisor. -/
def intDiv (x y : ℤ) : Option ℤ :=
  if y = 0 then none else some (Int.ediv x y)

/-- Integer read back by `big.Int.SetString(x.FloatString(0), 10)`:
`FloatString(0)` divides `|a|` by `b`, adds one when twice the remainder
reaches `b` (halves go away from zero) and prints the sign of `a`. -/
def floatString0 (x : ℚ) : ℤ :=
  let q := x.num.natAbs / x.den
  let r := x.num.natAbs % x.den
  let q1 := if x.den ≤ 2 * r then q + 1 else q
  if x.num < 0 then -(q1 : ℤ) else (q1 : ℤ)

/-- Conversion `big.Int.Int64()`: the low 64 bits of `|x|` read as a signed
word, negated (in 64-bit arithmetic) when `x` is negative. -/
def Int64 (x : ℤ) : ℤ :=
  let low : ℤ := ((x.natAbs % 2 ^ 64 : ℕ) : ℤ)
  let v : ℤ := if low < 2 ^ 63 then low else low - 2 ^ 64
  if x < 0 then (if v = -(2 ^ 63) then v else -v) else v

/-! ## Data model (package `types`) -/

/-- Token or account address, `common.Address`, kept as its numeric value. -/
abbrev Address := ℕ

/-- Modelled from the spec: `types.OrderStatus` with its seven named values;
`other` stands for any further value of the underlying integer. -/
inductive OrderStatus where
  | ORDER_NEW
  | ORDER_PARTIAL
  | ORDER_FINISHED
  | ORDER_CANCEL
  | ORDER_CUTOFF
  | ORDER_EXPIRE
  | ORDER_PENDING
  | other (code : ℕ)
deriving DecidableEq, Repr

/-- Modelled from the spec: `types.RawOrder` (its declaration is in package
`types`), with the fields the evaluator reads. -/
structure RawOrder where
  Protocol : Address := 0
  TokenS : Address := 0
  TokenB : Address := 0
  AmountS : ℤ
  AmountB : ℤ
  LrcFee : ℤ := 0
  BuyNoMoreThanAmountB : Bool := false
  MarginSplitPercentage : ℕ := 0
deriving DecidableEq, Repr

/-- Modelled from the spec: `types.OrderState`, the live projection of a raw
order, with the fields read here: the evaluator reads only the raw order, the
wallet service also the stored status. -/
structure OrderState where
  RawOrder : RawOrder
  Status : OrderStatus := OrderStatus.ORDER_NEW
deriving DecidableEq, Repr

/-- Modelled from the spec: `types.FilledOrder`, the per-evaluation wrapper of
an order.  The three `Available*` fields are inputs; the others are written by
`ComputeRing`. -/
structure FilledOrder where
  OrderState : OrderState
  AvailableAmountS : ℚ
  AvailableAmountB : ℚ := 0
  AvailableLrcBalance : ℚ := 0
  SPrice : ℚ := 0
  BPrice : ℚ := 0
  RateAmountS : ℚ := 0
  FillAmountS : ℚ := 0
  FillAmountB : ℚ := 0
  FeeS : ℚ := 0
  LrcFee : ℚ := 0
  LegalFeeS : ℚ := 0
  LegalLrcFee : ℚ := 0
deriving DecidableEq, Repr

/-- Modelled from the spec: `types.Ring`, the ordered legs and the reduced
rate. -/
structure Ring where
  Orders : List FilledOrder
  ReducedRate : ℚ := 0
deriving DecidableEq, Repr

/-- Errors `ComputeRing` returns. -/
inductive MinerError where
  /-- "Miner,rateAmountS must less than amountS" -/
  | rateAmountSExceedsAmountS
  /-- "Miner,cvs must less than RateRatioCVSThreshold" -/
  | cvsExceedsThreshold
deriving DecidableEq, Repr

/-- Error of the market-cap provider: "not found tokenCap:" and the address. -/
inductive CapError where
  | notFoundTokenCap (token : Address)
deriving DecidableEq, Repr

/-- Interface `marketcap.MarketCapProvider`, the two methods the evaluator
calls.  A call panics (`none`) or returns a `*big.Rat`, which may be nil
(inner `none`), and an error. -/
structure MarketCapProvider where
  LegalCurrencyValue : Address → ℚ → Option (Option ℚ × Option CapError)
  LegalCurrencyValueOfEth : ℚ → Option (Option ℚ × Option CapError)

/-- What the evaluator reads from outside its package.

* `rootOfRing P n` is lines 63-65: the `float64` nearest to `P`, raised by
  `math.Pow` to `1/float64(n)`, converted back by `big.Rat.SetFloat64`; `none`
  when that float is not finite (`SetFloat64` returns nil).
* `rootOfRing_one`: `math.Pow(1, y)` is `1` for every `y`.
* `rootOfRing_nonneg`: the float nearest to a positive `P` is not negative, and
  `math.Pow` of a non-negative base is never negative.
* `subFloat64 x y` is the `float64` difference `x - y`.
* `ProtocolAddresses` is `ethaccessor.ProtocolAddresses()`, giving the LRC
  token address of a protocol.
* `EstimateGasPrice` is `ethaccessor.EstimateGasPrice()`. -/
structure Env where
  rootOfRing : ℚ → ℕ → Option ℚ
  rootOfRing_one : ∀ n, rootOfRing 1 n = some 1
  rootOfRing_nonneg : ∀ P n rate, 0 < P → rootOfRing P n = some rate → 0 ≤ rate
  subFloat64 : ℚ → ℚ → ℚ
  ProtocolAddresses : Address → Option Address
  EstimateGasPrice : ℤ

/-- The rational `q` is a finite `float64`: an integer of magnitude below
`2^53` times a power of two with exponent between -1074 and 971. -/
def IsFloat64 (q : ℚ) : Prop :=
  ∃ (m : ℤ) (k : ℕ), |m| < 2 ^ 53 ∧
    ((k ≤ 971 ∧ q = (m : ℚ) * 2 ^ k) ∨ (k ≤ 1074 ∧ q = (m : ℚ) / 2 ^ k))

/-- The `float64` subtraction of the environment is that of IEEE 754 with
rounding to nearest: the difference of two `float64` is exact when it is a
`float64` itself, and its relative error is at most `2^-53`; the second law is
stated for differences of magnitude up to 2, far from overflow. -/
def Env.SubRoundsToNearest (env : Env) : Prop :=
  (∀ x y, IsFloat64 x → IsFloat64 y → IsFloat64 (x - y) → env.subFloat64 x y = x - y) ∧
  (∀ x y, IsFloat64 x → IsFloat64 y → |x - y| ≤ 2 →
    |env.subFloat64 x y - (x - y)| ≤ |x - y| / 2 ^ 53)

/-- Evaluator of package `miner`. -/
structure Evaluator where
  marketCapProvider : MarketCapProvider
  rateRatioCVSThreshold : ℤ
  gasUsedWithLength : ℕ → Option ℤ
  realCostRate : ℚ
  walletSplit : ℚ

/-! ## `ComputeRing`: prices, reduced rate and volumes (lines 42-148) -/

/-- Price loop of `ComputeRing` (lines 46-58), started with the two running
products: sets `SPrice` and `BPrice` of every leg and returns the products. -/
def priceLoop : ℚ → ℚ → List FilledOrder → Option (List FilledOrder × ℚ × ℚ)
  | productAmountS, productAmountB, [] => some ([], productAmountS, productAmountB)
  | productAmountS, productAmountB, order :: rest =>
    (ratQuo order.OrderState.RawOrder.AmountS order.OrderState.RawOrder.AmountB).bind fun sPrice =>
    (ratQuo order.OrderState.RawOrder.AmountB order.OrderState.RawOrder.AmountS).bind fun bPrice =>
    (priceLoop (productAmountS * order.OrderState.RawOrder.AmountS)
      (productAmountB * order.OrderState.RawOrder.AmountB) rest).bind fun res =>
    some ({ order with SPrice := sPrice, BPrice := bPrice } :: res.1, res.2)

/-- One leg of the forward pass (lines 77-116): `lastOrder` is the leg before
it as already updated, `none` at index 0.  Returns the updated leg and the new
`minVolumeIdx`. -/
def forwardLeg (reducedRate : ℚ) (lastOrder : Option FilledOrder) (idx minVolumeIdx : ℕ)
    (filledOrder : FilledOrder) : Option (FilledOrder × ℕ) :=
  let sPrice := filledOrder.SPrice * reducedRate
  (ratInv sPrice).bind fun bPrice =>
  let rateAmountS := (filledOrder.OrderState.RawOrder.AmountS : ℚ) * reducedRate
  let sel : ℚ × ℕ :=
    match lastOrder with
    | some last =>
      if filledOrder.AvailableAmountS ≤ last.FillAmountB then
        (filledOrder.AvailableAmountS, idx)
      else (last.FillAmountB, minVolumeIdx)
    | none => (filledOrder.AvailableAmountS, minVolumeIdx)
  some ({ filledOrder with
            SPrice := sPrice, BPrice := bPrice, RateAmountS := rateAmountS,
            FillAmountS := sel.1, FillAmountB := sel.1 * bPrice }, sel.2)

/-- Forward pass of `ComputeRing` (lines 76-117) over the legs from index `idx`
on. -/
def forwardPass (reducedRate : ℚ) :
    Option FilledOrder → ℕ → ℕ → List FilledOrder → Option (List FilledOrder × ℕ)
  | _, _, minVolumeIdx, [] => some ([], minVolumeIdx)
  | lastOrder, idx, minVolumeIdx, filledOrder :: rest =>
    (forwardLeg reducedRate lastOrder idx minVolumeIdx filledOrder).bind fun leg =>
    (forwardPass reducedRate (some leg.1) (idx + 1) leg.2 rest).bind fun res =>
    some (leg.1 :: res.1, res.2)

/-- Body of the backward loop (lines 135-139) at index `i`; `none` is an index
out of range. -/
def backwardStep (orders : List FilledOrder) (i : ℕ) : Option (List FilledOrder) :=
  match orders[i]?, orders[i + 1]? with
  | some order, some nextOrder =>
    some (orders.set i { order with
      FillAmountB := nextOrder.FillAmountS,
      FillAmountS := nextOrder.FillAmountS * order.SPrice })
  | _, _ => none

/-- Backward loop `for i := k - 1; i >= 0; i--` (lines 133-140). -/
def backwardLoop (orders : List FilledOrder) : ℕ → Option (List FilledOrder)
  | 0 => some orders
  | k + 1 => (backwardStep orders k).bind fun orders1 => backwardLoop orders1 k

/-- Body of the completing loop (lines 143-147) at index `i`; `none` is an
index out of range. -/
def completionStep (orders : List FilledOrder) (i : ℕ) : Option (List FilledOrder) :=
  match orders[i]?, orders[i - 1]? with
  | some order, some lastOrder =>
    if i = 0 then none else
    some (orders.set i { order with
      FillAmountS := lastOrder.FillAmountB,
      FillAmountB := lastOrder.FillAmountB * order.BPrice })
  | _, _ => none

/-- Completing loop `for i := i0; i < len; i++` (lines 142-148), with `count`
the number of iterations left, `len - i0`. -/
def completionLoop (orders : List FilledOrder) : ℕ → ℕ → Option (List FilledOrder)
  | _, 0 => some orders
  | i, count + 1 => (completionStep orders i).bind fun orders1 => completionLoop orders1 (i + 1) count

/-- Lines 42-117 of `ComputeRing`: prices, reduced rate and forward pass.
Returns the legs after the forward pass, `minVolumeIdx` and the reduced
rate. -/
def forwardOfRing (env : Env) (ringState : Ring) : Option (List FilledOrder × ℕ × ℚ) :=
  (priceLoop 1 1 ringState.Orders).bind fun priced =>
  (ratQuo priced.2.1 priced.2.2).bind fun productPrice =>
  (env.rootOfRing productPrice ringState.Orders.length).bind fun rate =>
  (ratInv rate).bind fun reducedRate =>
  (forwardPass reducedRate none 0 0 priced.1).bind fun fwd =>
  some (fwd.1, fwd.2, reducedRate)

/-- Lines 42-148 of `ComputeRing`: prices, reduced rate, and the three volume
loops. -/
def computeVolume (env : Env) (ringState : Ring) : Option Ring :=
  (forwardOfRing env ringState).bind fun fwd =>
  (backwardLoop fwd.1 fwd.2.1).bind fun orders3 =>
  (completionLoop orders3 (fwd.2.1 + 1) (orders3.length - (fwd.2.1 + 1))).bind fun orders4 =>
  some { ringState with Orders := orders4, ReducedRate := fwd.2.2 }

/-! ## Fees (lines 166-212) -/

/-- Method `getLegalCurrency`: the provider's value with its error dropped; the
inner `none` is a nil `*big.Rat`. -/
def Evaluator.getLegalCurrency (e : Evaluator) (tokenAddress : Address) (amount : ℚ) :
    Option (Option ℚ) :=
  (e.marketCapProvider.LegalCurrencyValue tokenAddress amount).map Prod.fst

/-- Lines 169-172: the LRC token address of the protocol's implementation, the
zero address when the protocol is not registered. -/
def Env.lrcAddress (env : Env) (protocol : Address) : Address :=
  match env.ProtocolAddresses protocol with
  | some lrcTokenAddress => lrcTokenAddress
  | none => 0

/-- Margin-split saving of a leg (lines 176-192): the saving and the token it
is valued in; `none` is the panic of `Quo` on a zero `AmountB`. -/
def savingOfOrder (reducedRate : ℚ) (filledOrder : FilledOrder) : Option (ℚ × Address) :=
  if filledOrder.OrderState.RawOrder.BuyNoMoreThanAmountB then
    (ratQuo filledOrder.OrderState.RawOrder.AmountS filledOrder.OrderState.RawOrder.AmountB).bind
      fun sPrice =>
      some (filledOrder.FillAmountB * sPrice - filledOrder.FillAmountS,
        filledOrder.OrderState.RawOrder.TokenS)
  else
    some (filledOrder.FillAmountB - filledOrder.FillAmountB * reducedRate,
      filledOrder.OrderState.RawOrder.TokenB)

/-- LRC fee of a leg (lines 195-201): the raw fee scaled by the filled share,
replaced by the available LRC balance when that is not larger. -/
def lrcFeeOfOrder (filledOrder : FilledOrder) : Option ℚ :=
  (ratQuo filledOrder.FillAmountS filledOrder.OrderState.RawOrder.AmountS).bind fun rate =>
  let lrcFee := (filledOrder.OrderState.RawOrder.LrcFee : ℚ) * rate
  some (if filledOrder.AvailableLrcBalance ≤ lrcFee then filledOrder.AvailableLrcBalance
    else lrcFee)

/-- Loop body of `computeFeeOfRingAndOrder` (lines 169-209) for one leg.  A nil
legal value panics at line 204 (`String` on it) or line 208 (`Mul` on it). -/
def Evaluator.computeFeeOfOrder (e : Evaluator) (env : Env) (reducedRate : ℚ)
    (filledOrder : FilledOrder) : Option FilledOrder :=
  let lrcAddress := env.lrcAddress filledOrder.OrderState.RawOrder.Protocol
  (savingOfOrder reducedRate filledOrder).bind fun saving =>
  (e.getLegalCurrency saving.2 saving.1).bind fun legalAmountOfSaving =>
  (lrcFeeOfOrder filledOrder).bind fun lrcFee =>
  (e.getLegalCurrency lrcAddress lrcFee).bind fun legalAmountOfLrc =>
  legalAmountOfLrc.bind fun legalLrc =>
  legalAmountOfSaving.bind fun legalSaving =>
  some { filledOrder with
    FeeS := saving.1, LrcFee := lrcFee, LegalLrcFee := legalLrc,
    LegalFeeS := legalSaving * (filledOrder.OrderState.RawOrder.MarginSplitPercentage : ℚ) }

/-- Loop of `computeFeeOfRingAndOrder` (line 168) over the legs. -/
def Evaluator.feeLoop (e : Evaluator) (env : Env) (reducedRate : ℚ) :
    List FilledOrder → Option (List FilledOrder)
  | [] => some []
  | filledOrder :: rest =>
    (e.computeFeeOfOrder env reducedRate filledOrder).bind fun order1 =>
    (e.feeLoop env reducedRate rest).bind fun rest1 =>
    some (order1 :: rest1)

/-- Method `computeFeeOfRingAndOrder` (lines 166-212). -/
def Evaluator.computeFeeOfRingAndOrder (e : Evaluator) (env : Env) (ringState : Ring) :
    Option Ring :=
  (e.feeLoop env ringState.ReducedRate ringState.Orders).bind fun orders =>
  some { ringState with Orders := orders }

/-! ## Rate-ratio test (lines 214-260) -/

/-- Function `PriceValid` (lines 215-219). -/
def PriceValid (a2BOrder b2AOrder : OrderState) : Bool :=
  decide (a2BOrder.RawOrder.AmountB * b2AOrder.RawOrder.AmountB ≤
    a2BOrder.RawOrder.AmountS * b2AOrder.RawOrder.AmountS)

/-- Function `CVSquare` (lines 241-260); every `Div` panics on a zero
divisor. -/
def CVSquare (rateRatios : List ℤ) (scale : ℤ) : Option ℤ :=
  let length : ℤ := (rateRatios.length : ℤ)
  let length1 : ℤ := (rateRatios.length : ℤ) - 1
  (intDiv rateRatios.sum length).bind fun avg =>
  let cvs := (rateRatios.map fun ratio => (ratio - avg) * (ratio - avg)).sum
  (intDiv (cvs * scale) avg).bind fun c1 =>
  (intDiv (c1 * scale) avg).bind fun c2 =>
  intDiv c2 length1

/-- Loop of `PriceRateCVSquare` (lines 224-237): the rate ratios of the legs,
or the error of the first leg whose rounded `RateAmountS` exceeds `AmountS`. -/
def rateRatios (scale : ℤ) : List FilledOrder → Option (Except MinerError (List ℤ))
  | [] => some (.ok [])
  | filledOrder :: rest =>
    let s1b0 := floatString0 filledOrder.RateAmountS
    let s0b1 : ℤ := (filledOrder.OrderState.RawOrder.AmountS.natAbs : ℤ)
    if s0b1 < s1b0 then some (.error .rateAmountSExceedsAmountS)
    else
      (intDiv (scale * s1b0) s0b1).bind fun ratio =>
      (rateRatios scale rest).bind fun res =>
      match res with
      | .error err => some (.error err)
      | .ok ratios => some (.ok (ratio :: ratios))

/-- Function `PriceRateCVSquare` (lines 221-239). -/
def PriceRateCVSquare (ringState : Ring) : Option (Except MinerError ℤ) :=
  (rateRatios 10000 ringState.Orders).bind fun res =>
  match res with
  | .error err => some (.error err)
  | .ok ratios => (CVSquare ratios 10000).bind fun cvs => some (.ok cvs)

/-- Method `ComputeRing` (lines 40-164): the ring as it leaves the call and the
returned error (`none` for nil). -/
def Evaluator.ComputeRing (e : Evaluator) (env : Env) (ringState : Ring) :
    Option (Ring × Option MinerError) :=
  (computeVolume env ringState).bind fun ring1 =>
  (e.computeFeeOfRingAndOrder env ring1).bind fun ring2 =>
  (PriceRateCVSquare ring2).bind fun res =>
  match res with
  | .error err => some (ring2, some err)
  | .ok cvs =>
    if Int64 cvs ≤ e.rateRatioCVSThreshold then some (ring2, none)
    else some (ring2, some .cvsExceedsThreshold)

/-! ## Received estimate (lines 267-302) -/

/-- Fee loop of `EvaluateReceived` (lines 276-282): per leg the larger of the
two legal fee values. -/
def legalFeeOfOrders (orders : List FilledOrder) : ℚ :=
  orders.foldl (fun legalFee order =>
    if order.LegalLrcFee < order.LegalFeeS then legalFee + order.LegalFeeS
    else legalFee + order.LegalLrcFee) 0

/-- Method `EvaluateReceived` (lines 267-288), returning `gas`, `gasPrice`,
`costLegal` and `received`.  A missing gas entry or a nil legal value panics in
`Mul`. -/
def Evaluator.EvaluateReceived (e : Evaluator) (env : Env) (ringState : Ring) :
    Option (ℤ × ℤ × ℚ × ℚ) :=
  let gasPrice := env.EstimateGasPrice
  (e.gasUsedWithLength ringState.Orders.length).bind fun gas =>
  let protocolCost := gas * gasPrice
  (e.marketCapProvider.LegalCurrencyValueOfEth (protocolCost : ℚ)).bind fun res =>
  let legalFee := legalFeeOfOrders ringState.Orders
  res.1.bind fun costLegal0 =>
  let costLegal := costLegal0 * e.realCostRate
  some (gas, gasPrice, costLegal, (legalFee - costLegal) * e.walletSplit)

/-- Constructor `NewEvaluator` (lines 290-302); `subsidy` and `walletSplit`
are the values of its `float64` arguments. -/
def NewEvaluator (env : Env) (marketCapProvider : MarketCapProvider)
    (rateRatioCVSThreshold : ℤ) (subsidy walletSplit : ℚ) : Evaluator :=
  { marketCapProvider := marketCapProvider
    rateRatioCVSThreshold := rateRatioCVSThreshold
    gasUsedWithLength := fun n =>
      if n = 2 then some 400000 else if n = 3 then some 400000
      else if n = 4 then some 400000 else none
    realCostRate := env.subFloat64 1 subsidy
    walletSplit := walletSplit }

/-! ## Vocabulary of the statements -/

/-- Price product `P` of the legs: the product of the `AmountS` over the
product of the `AmountB`. -/
def productPrice (orders : List FilledOrder) : ℚ :=
  (orders.map fun o => (o.OrderState.RawOrder.AmountS : ℚ)).prod /
    (orders.map fun o => (o.OrderState.RawOrder.AmountB : ℚ)).prod

/-- Leg `o` as the price loop leaves it. -/
def FilledOrder.priced (o : FilledOrder) : FilledOrder :=
  { o with
    SPrice := (o.OrderState.RawOrder.AmountS : ℚ) / (o.OrderState.RawOrder.AmountB : ℚ),
    BPrice := (o.OrderState.RawOrder.AmountB : ℚ) / (o.OrderState.RawOrder.AmountS : ℚ) }

/-- Leg `o` as the forward pass leaves it when it fills `f`: the prices are
reduced by `rr`, the buy fill is `f` at the reduced buy price. -/
def FilledOrder.reduced (o : FilledOrder) (rr f : ℚ) : FilledOrder :=
  { o with
    SPrice := o.SPrice * rr, BPrice := (o.SPrice * rr)⁻¹,
    RateAmountS := (o.OrderState.RawOrder.AmountS : ℚ) * rr,
    FillAmountS := f, FillAmountB := f * (o.SPrice * rr)⁻¹ }

/-- The provider values every amount of `token`: the call returns a non-nil
rational. -/
def Evaluator.Knows (e : Evaluator) (token : Address) : Prop :=
  ∀ amount : ℚ, ∃ v err, e.marketCapProvider.LegalCurrencyValue token amount = some (some v, err)

/-- Known tokens: the provider values the sell token, the buy token and the LRC
token of every leg. -/
def Evaluator.KnownTokens (e : Evaluator) (env : Env) (orders : List FilledOrder) : Prop :=
  ∀ o ∈ orders, e.Knows o.OrderState.RawOrder.TokenS ∧ e.Knows o.OrderState.RawOrder.TokenB ∧
    e.Knows (env.lrcAddress o.OrderState.RawOrder.Protocol)

/-- Token whose legal value prices the saving of a leg: the sell token when
`BuyNoMoreThanAmountB`, the buy token otherwise (lines 185, 191). -/
def FilledOrder.savingToken (o : FilledOrder) : Address :=
  if o.OrderState.RawOrder.BuyNoMoreThanAmountB then o.OrderState.RawOrder.TokenS
  else o.OrderState.RawOrder.TokenB

/-- Chain of fills: the buy fill of every leg is the sell fill of the next. -/
def Chained (orders : List FilledOrder) : Prop :=
  ∀ (i : ℕ) (a b : FilledOrder), orders[i]? = some a → orders[i + 1]? = some b →
    a.FillAmountB = b.FillAmountS

/-- The inputs of a leg: its order and its three available amounts, with
`AvailableAmountB` passed through `β`; every field that `ComputeRing` writes is
reset to zero. -/
def FilledOrder.inputs (β : ℚ → ℚ) (o : FilledOrder) : FilledOrder :=
  { OrderState := o.OrderState
    AvailableAmountS := o.AvailableAmountS
    AvailableAmountB := β o.AvailableAmountB
    AvailableLrcBalance := o.AvailableLrcBalance }

/-- Leg `o` with `AvailableAmountB` passed through `β`. -/
def FilledOrder.withAvailableAmountB (β : ℚ → ℚ) (o : FilledOrder) : FilledOrder :=
  { o with AvailableAmountB := β o.AvailableAmountB }

/-- Leg `o` with `AvailableAmountB` passed through `β` and the fields reset
that are written after the price loop. -/
def FilledOrder.afterPrices (β : ℚ → ℚ) (o : FilledOrder) : FilledOrder :=
  { o.inputs β with SPrice := o.SPrice, BPrice := o.BPrice }

/-- Leg `o` with `AvailableAmountB` passed through `β` and the four fee fields
reset, which are written after the volume loops. -/
def FilledOrder.afterVolumes (β : ℚ → ℚ) (o : FilledOrder) : FilledOrder :=
  { o with
    AvailableAmountB := β o.AvailableAmountB
    FeeS := 0, LrcFee := 0, LegalFeeS := 0, LegalLrcFee := 0 }

/-! ## Example data -/

/-- Table of the float roots the examples use, with their IEEE-754 binary64
values.  `math.Pow(1, y)` is 1.  For two legs `math.Pow(x, 0.5)` is
`math.Sqrt(x)`: 10 at 100, 2 at 4, 10^5 at 10^10, `6369051672525773 / 2^53`
(hexadecimal `0x1.6a09e667f3bcdp-1`) at 1/2; and `10^18 / (10^18 + 1)` is nearer
to the float
1 than to any other, so its root is that of 1.  At every other argument the
table has no entry (`none`); the examples do not read it there. -/
def exampleRoot (P : ℚ) (n : ℕ) : Option ℚ :=
  if P = 1 then some 1
  else if n = 2 then
    if P = 100 then some 10
    else if P = 4 then some 2
    else if P = 1 / 2 then some (6369051672525773 / 9007199254740992)
    else if P = 1000000000000000000 / 1000000000000000001 then some 1
    else if P = 10000000000 then some 100000
    else none
  else none

/-- Environment of the examples.  `subFloat64 x y` is `x - y`, the `float64`
difference wherever `x - y` is a `float64`, as it is in the examples. -/
def exampleEnv : Env where
  rootOfRing := exampleRoot
  rootOfRing_one := fun _ => if_pos rfl
  rootOfRing_nonneg := by
    intro P n rate _ h
    unfold exampleRoot at h
    split_ifs at h <;> simp only [Option.some.injEq] at h <;> subst h <;> norm_num
  subFloat64 := fun x y => x - y
  ProtocolAddresses := fun _ => some 1
  EstimateGasPrice := 1000000000

/-- Environment of the examples with the `float64` difference `1.0 - 0.1`:
the `float64` of 0.1 is `3602879701896397 / 2^55`, its difference from 1 is
`32425917317067571 / 2^55`, which lies between the neighbouring `float64`
values `8106479329266892 / 2^53` and `8106479329266893 / 2^53` and is nearer to
the second.  Elsewhere `subFloat64 x y` is `x - y`, as in `exampleEnv`. -/
def floatEnv : Env where
  rootOfRing := exampleRoot
  rootOfRing_one := exampleEnv.rootOfRing_one
  rootOfRing_nonneg := exampleEnv.rootOfRing_nonneg
  subFloat64 := fun x y =>
    if x = 1 ∧ y = 3602879701896397 / 36028797018963968 then
      8106479329266893 / 9007199254740992
    else x - y
  ProtocolAddresses := fun _ => some 1
  EstimateGasPrice := 1000000000

/-- Provider of the examples: every token is known and an amount is worth
itself. -/
def exampleProvider : MarketCapProvider where
  LegalCurrencyValue := fun _ amount => some (some amount, none)
  LegalCurrencyValueOfEth := fun amount => some (some amount, none)

/-- Evaluator of the examples: threshold 0, subsidy 1/2, wallet split 1/2. -/
def exampleEvaluator : Evaluator :=
  NewEvaluator exampleEnv exampleProvider 0 (1 / 2) (1 / 2)

/-- Leg selling `amountS` for `amountB` with `available` of the sell token at
hand. -/
def leg (amountS amountB : ℤ) (available : ℚ) : FilledOrder :=
  { OrderState := { RawOrder := { AmountS := amountS, AmountB := amountB } }
    AvailableAmountS := available }

/-- Two-leg ring A: 1000 S for 500 B, B: 500 S for 10 B, each leg with its whole
`AmountS` available. -/
def skewedRing : Ring :=
  { Orders := [leg 1000 500 1000, leg 500 10 500] }

/-- Two-leg ring A: 1 S for 1 B, B: 1 S for 2 B, one unit available on each
leg; its price product is 1/2. -/
def underUnitRing : Ring :=
  { Orders := [leg 1 1 1, leg 1 2 1] }

/-- Two-leg self-closing ring: A sells 10^18 for 10^17, B sells 10^17 for
10^18, each leg with its whole `AmountS` available. -/
def selfClosingRing : Ring :=
  { Orders := [leg 1000000000000000000 100000000000000000 1000000000000000000,
               leg 100000000000000000 1000000000000000000 100000000000000000] }

/-- Leg with its fill in place that buys no more than `AmountB`: sells 4 for
2, raw LRC fee 20, fills 4 and 4, LRC balance 5, percentage 0. -/
def feeLeg0 : FilledOrder :=
  { OrderState := { RawOrder :=
      { AmountS := 4, AmountB := 2, LrcFee := 20, BuyNoMoreThanAmountB := true } }
    AvailableAmountS := 4
    AvailableLrcBalance := 5
    FillAmountS := 4
    FillAmountB := 4 }

/-- Leg with its fill in place that may buy more than `AmountB`: sells 4 for 2,
raw LRC fee 20, fills 4 and 4, LRC balance 5, percentage 100. -/
def feeLeg1 : FilledOrder :=
  { OrderState := { RawOrder :=
      { AmountS := 4, AmountB := 2, LrcFee := 20, MarginSplitPercentage := 100 } }
    AvailableAmountS := 4
    AvailableLrcBalance := 5
    FillAmountS := 4
    FillAmountB := 4 }

/-- Ring of the two fee legs, for the fee pass, with reduced rate 1/2. -/
def feeRing : Ring :=
  { Orders := [feeLeg0, feeLeg1], ReducedRate := 1 / 2 }

/-- Ring state of the two fee legs with their fees in place, as the fee pass
leaves them under the example provider: legal LRC fee 5 on both legs, legal
margin-split fee 0 on the first and 200 on the second. -/
def paidRing : Ring :=
  { Orders := [{ feeLeg0 with FeeS := 4, LrcFee := 5, LegalLrcFee := 5, LegalFeeS := 0 },
               { feeLeg1 with FeeS := 2, LrcFee := 5, LegalLrcFee := 5, LegalFeeS := 200 }]
    ReducedRate := 1 / 2 }

/-- Two-leg ring A: 10^18 S for 10^18 + 1 B, B: 10^18 S for 10^18 B, each leg
with its whole `AmountS` available; its price product is `10^18 / (10^18 + 1)`,
below 1 by less than half the spacing of the floats under 1. -/
def nearUnitRing : Ring :=
  { Orders := [leg 1000000000000000000 1000000000000000001 1000000000000000000,
               leg 1000000000000000000 1000000000000000000 1000000000000000000] }

/-- Two-leg ring A: 2 S for 1 B, B: 2 S for 1 B, two units available on each
leg; its price product is 4. -/
def twoForOneRing : Ring :=
  { Orders := [leg 2 1 2, leg 2 1 2] }

/-- Two-leg ring A: 10^10 S for 1 B, B: 1 S for 1 B, each leg with its whole
`AmountS` available and one unit of the buy token and of LRC; its price
product is 10^10. -/
def deepRing : Ring :=
  { Orders := [{ leg 10000000000 1 10000000000 with
                  AvailableAmountB := 1, AvailableLrcBalance := 1 },
               { leg 1 1 1 with AvailableAmountB := 1, AvailableLrcBalance := 1 }] }

/-- Two-leg ring A: 3 S for 1 B, B: 4 S for 3 B, each leg with its whole
`AmountS` available; its price product is 4. -/
def roundingRing : Ring :=
  { Orders := [leg 3 1 3, leg 4 3 4] }

/-- Two-leg ring at price 1, A: 1000 S for 1000 B, B: 1000 S for 1000 B, each
with 1000 of its sell token available; A can absorb 1000 on its buy side, B
only 100. -/
def cappedRing : Ring :=
  { Orders := [{ leg 1000 1000 1000 with AvailableAmountB := 1000 },
               { leg 1000 1000 1000 with AvailableAmountB := 100 }] }

/-- Two-leg ring at price 1, A: 1000 S for 1000 B with 1000 available, B:
1000 S for 1000 B with only 100 of its sell token available. -/
def shortRing : Ring :=
  { Orders := [leg 1000 1000 1000, leg 1000 1000 100] }

/-- The ring A: 1000/500, B: 500/10 with values left in the fields that
`ComputeRing` writes. -/
def usedRing : Ring :=
  { Orders := [{ leg 1000 500 1000 with
                  SPrice := 7, BPrice := 3, RateAmountS := 5, FillAmountS := 9,
                  FillAmountB := 11, FeeS := 13, LrcFee := 2, LegalFeeS := 4,
                  LegalLrcFee := 6 },
               { leg 500 10 500 with FillAmountS := 1, LegalFeeS := 8 }]
    ReducedRate := 5 }

/-- Ring state of two legs with `AmountS = 10` whose `RateAmountS` are 9 and
7. -/
def spreadRing : Ring :=
  { Orders := [{ leg 10 1 10 with RateAmountS := 9 }, { leg 10 1 10 with RateAmountS := 7 }] }

/-! ## The CVS as the specification words it -/

/-- Rate ratio of a leg as lines 226-233 of `PriceRateCVSquare` compute it: the
integer quotient of `scale` times the rounded `RateAmountS` by the magnitude of
`AmountS`. -/
def rateRatio (scale : ℤ) (filledOrder : FilledOrder) : ℤ :=
  Int.ediv (scale * floatString0 filledOrder.RateAmountS)
    (filledOrder.OrderState.RawOrder.AmountS.natAbs : ℤ)

/-- Rate ratio of the specification: `scale * rateAmountS / amountS` in exact
rationals. -/
def rateRatioSpec (scale : ℤ) (filledOrder : FilledOrder) : ℚ :=
  (scale : ℚ) * filledOrder.RateAmountS / (filledOrder.OrderState.RawOrder.AmountS : ℚ)

/-- CVS of the specification in exact rationals: with `mu` the mean of the
ratios, the sum of `(ratio - mu)^2` times `scale^2` over `mu^2 * (n - 1)`. -/
def CVSquareSpec (ratios : List ℚ) (scale : ℤ) : ℚ :=
  let n : ℚ := (ratios.length : ℚ)
  let mu : ℚ := ratios.sum / n
  (ratios.map fun ratio => (ratio - mu) ^ 2).sum * (scale : ℚ) ^ 2 / (mu ^ 2 * (n - 1))

/-! ## Market-cap provider (package `marketcap`, `capprovider.go`) -/

/-- Type `LegalCurrency` (lines 37, 53-58). -/
inductive LegalCurrency where
  | CNY
  | USD
  | EUR
  | BTC
deriving DecidableEq, Repr

/-- Function `StringToLegalCurrency` (lines 39-51); `toUpper` is
`strings.ToUpper`. -/
def StringToLegalCurrency (toUpper : String → String) (currency : String) : LegalCurrency :=
  let currency := toUpper currency
  if currency = "CNY" then LegalCurrency.CNY
  else if currency = "USD" then LegalCurrency.USD
  else if currency = "BTC" then LegalCurrency.BTC
  else LegalCurrency.CNY

/-- Modelled from the spec: `types.CurrencyMarketCap` (its declaration is in
package `types`), with the fields `capprovider.go` reads and writes.  The
prices and volumes are `*big.Rat`, nil (`none`) until a quote sets them. -/
structure CurrencyMarketCap where
  Id : String
  Name : String
  Symbol : String
  Decimals : ℤ
  PriceUsd : Option ℚ
  PriceBtc : Option ℚ
  PriceCny : Option ℚ
  Volume24HCNY : Option ℚ
  Volume24HUSD : Option ℚ
  LastUpdated : ℤ
  Address : Address
deriving DecidableEq, Repr

/-- Type `CapProvider_CoinMarketCap` (lines 72-79), its two maps as partial
functions; the stop channel is left out. -/
structure CapProvider_CoinMarketCap where
  baseUrl : String
  tokenMarketCaps : Address → Option CurrencyMarketCap
  idToAddress : String → Option Address
  currency : String
  duration : ℤ

/-- Switch of `GetMarketCapByCurrency` (lines 113-121): the stored price of an
entry in a currency; `EUR` has no case and leaves the nil of `var v`. -/
def CurrencyMarketCap.price (c : CurrencyMarketCap) : LegalCurrency → Option ℚ
  | LegalCurrency.CNY => c.PriceCny
  | LegalCurrency.USD => c.PriceUsd
  | LegalCurrency.BTC => c.PriceBtc
  | LegalCurrency.EUR => none

/-- Method `GetMarketCapByCurrency` (lines 110-131): the price and the error;
`none` is the panic of `Set` on a nil price. -/
def CapProvider_CoinMarketCap.GetMarketCapByCurrency (p : CapProvider_CoinMarketCap)
    (toUpper : String → String) (tokenAddress : Address) (currencyStr : String) :
    Option (ℚ × Option CapError) :=
  let currency := StringToLegalCurrency toUpper currencyStr
  match p.tokenMarketCaps tokenAddress with
  | some c => (c.price currency).bind fun v => some (v, none)
  | none => some (1, some (CapError.notFoundTokenCap tokenAddress))

/-- Method `LegalCurrencyValueByCurrency` (lines 90-100): the value, nil
(`none`) for a token without entry, and the error; the outer `none` is a panic
(`Quo` by zero decimals, or the price query's). -/
def CapProvider_CoinMarketCap.LegalCurrencyValueByCurrency (p : CapProvider_CoinMarketCap)
    (toUpper : String → String) (tokenAddress : Address) (amount : ℚ) (currencyStr : String) :
    Option (Option ℚ × Option CapError) :=
  match p.tokenMarketCaps tokenAddress with
  | none => some (none, some (CapError.notFoundTokenCap tokenAddress))
  | some c =>
    (ratQuo amount c.Decimals).bind fun v =>
    (p.GetMarketCapByCurrency toUpper tokenAddress currencyStr).bind fun price =>
    some (some (price.1 * v), none)

/-- Method `LegalCurrencyValue` (lines 81-83). -/
def CapProvider_CoinMarketCap.LegalCurrencyValue (p : CapProvider_CoinMarketCap)
    (toUpper : String → String) (tokenAddress : Address) (amount : ℚ) :
    Option (Option ℚ × Option CapError) :=
  p.LegalCurrencyValueByCurrency toUpper tokenAddress amount p.currency

/-- Method `LegalCurrencyValueOfEth` (lines 85-88); `weth` is the address
`util.AllTokens["WETH"].Protocol`. -/
def CapProvider_CoinMarketCap.LegalCurrencyValueOfEth (p : CapProvider_CoinMarketCap)
    (toUpper : String → String) (weth : Address) (amount : ℚ) :
    Option (Option ℚ × Option CapError) :=
  p.LegalCurrencyValueByCurrency toUpper weth amount p.currency

/-- The provider as the interface `MarketCapProvider` the evaluator holds. -/
def CapProvider_CoinMarketCap.asProvider (p : CapProvider_CoinMarketCap)
    (toUpper : String → String) (weth : Address) : MarketCapProvider where
  LegalCurrencyValue := p.LegalCurrencyValue toUpper
  LegalCurrencyValueOfEth := p.LegalCurrencyValueOfEth toUpper weth

/-- What `syncMarketCap` gets from the network (lines 156-172): the error of
`http.Get`, of `ioutil.ReadAll` or of `json.Unmarshal`, or the decoded slice of
quote pointers, nil (`none`) where the JSON array has `null`. -/
inductive Fetched where
  | getFailed (err : String)
  | readFailed (err : String)
  | unmarshalFailed (err : String)
  | decoded (caps : List (Option CurrencyMarketCap))

/-- Entry `c` after lines 178-183 copy the prices, volumes and update time of
the quote `tokenCap` into it. -/
def CurrencyMarketCap.synced (c tokenCap : CurrencyMarketCap) : CurrencyMarketCap :=
  { c with
    PriceUsd := tokenCap.PriceUsd, PriceBtc := tokenCap.PriceBtc,
    PriceCny := tokenCap.PriceCny, Volume24HCNY := tokenCap.Volume24HCNY,
    Volume24HUSD := tokenCap.Volume24HUSD, LastUpdated := tokenCap.LastUpdated }

/-- Body of the quote loop of `syncMarketCap` (lines 177-185); `none` is a nil
dereference: of a nil quote, or of the entry when the id index names an address
without one. -/
def syncStep (toUpper : String → String) (p : CapProvider_CoinMarketCap) :
    Option CurrencyMarketCap → Option CapProvider_CoinMarketCap
  | none => none
  | some tokenCap =>
    match p.idToAddress (toUpper tokenCap.Id) with
    | some tokenAddress =>
      match p.tokenMarketCaps tokenAddress with
      | some c =>
        some { p with tokenMarketCaps := fun a =>
          if a = tokenAddress then some (c.synced tokenCap) else p.tokenMarketCaps a }
      | none => none
    | none => some p

/-- Quote loop of `syncMarketCap` (lines 176-186). -/
def syncLoop (toUpper : String → String) :
    CapProvider_CoinMarketCap → List (Option CurrencyMarketCap) →
      Option CapProvider_CoinMarketCap
  | p, [] => some p
  | p, tokenCap :: rest => (syncStep toUpper p tokenCap).bind fun p1 => syncLoop toUpper p1 rest

/-- Method `syncMarketCap` (lines 155-196): the provider after the call and the
returned error.  The second loop (lines 187-192) only logs. -/
def CapProvider_CoinMarketCap.syncMarketCap (p : CapProvider_CoinMarketCap)
    (toUpper : String → String) (fetched : Fetched) :
    Option (CapProvider_CoinMarketCap × Option String) :=
  match fetched with
  | Fetched.getFailed err => some (p, some err)
  | Fetched.readFailed err => some (p, some err)
  | Fetched.unmarshalFailed err => some (p, some err)
  | Fetched.decoded caps => (syncLoop toUpper p caps).bind fun p1 => some (p1, none)

/-- Stand-in of `strings.ToUpper` for the examples, right on the strings they
use: "eth" gives "ETH", "usd" gives "USD" and a string without lower-case
letter is unchanged. -/
def exampleUpper (s : String) : String :=
  if s = "eth" then "ETH" else if s = "usd" then "USD" else s

/-- Entry of the example provider for the token of address 1, of id "ETH" and
decimals 1000, with prices at hand. -/
def exampleCap : CurrencyMarketCap :=
  { Id := "ETH", Name := "WETH", Symbol := "WETH", Decimals := 1000
    PriceUsd := some 300, PriceBtc := some (1 / 20), PriceCny := some 2000
    Volume24HCNY := some 5, Volume24HUSD := some 6, LastUpdated := 10
    Address := 1 }

/-- Provider of one token, of address 1, in currency "CNY". -/
def exampleCapProvider : CapProvider_CoinMarketCap :=
  { baseUrl := "url"
    tokenMarketCaps := fun a => if a = 1 then some exampleCap else none
    idToAddress := fun id => if id = "ETH" then some 1 else none
    currency := "CNY"
    duration := 5 }

/-- Entry of address 2 and id "LRC", with prices at hand. -/
def lrcCap : CurrencyMarketCap :=
  { Id := "LRC", Name := "LRC", Symbol := "LRC", Decimals := 1000
    PriceUsd := some 2, PriceBtc := some (1 / 5000), PriceCny := some 13
    Volume24HCNY := some 3, Volume24HUSD := some 4, LastUpdated := 10
    Address := 2 }

/-- Provider of two tokens of distinct ids, "ETH" at address 1 and "LRC" at
address 2, in currency "CNY". -/
def pairCapProvider : CapProvider_CoinMarketCap :=
  { baseUrl := "url"
    tokenMarketCaps := fun a =>
      if a = 1 then some exampleCap else if a = 2 then some lrcCap else none
    idToAddress := fun id =>
      if id = "ETH" then some 1 else if id = "LRC" then some 2 else none
    currency := "CNY"
    duration := 5 }

/-- Entry as `NewMarketCapProvider` creates it (lines 210-216): address, id,
name, symbol and decimals of the token; prices and volumes nil. -/
def freshCap (address : Address) (id symbol : String) (decimals : ℤ) : CurrencyMarketCap :=
  { Id := id, Name := symbol, Symbol := symbol, Decimals := decimals
    PriceUsd := none, PriceBtc := none, PriceCny := none
    Volume24HCNY := none, Volume24HUSD := none, LastUpdated := 0
    Address := address }

/-- Modelled from the spec: a token of the registry `util.AllTokens` (package
`util`), with the fields `NewMarketCapProvider` reads: the token address, the
symbol, the external id of the price feed and the decimals. -/
structure Token where
  Protocol : Address
  Symbol : String
  Source : String
  Decimals : ℤ
deriving DecidableEq, Repr

/-- Loop of `NewMarketCapProvider` over the tokens (lines 209-218), in the
order the map iteration yields them: each token gets an entry without prices
and the index key of its upper-cased id is written. -/
def tokenLoop (toUpper : String → String) :
    CapProvider_CoinMarketCap → List Token → CapProvider_CoinMarketCap
  | provider, [] => provider
  | provider, v :: rest =>
    let c := freshCap v.Protocol v.Source v.Symbol v.Decimals
    tokenLoop toUpper
      { provider with
        tokenMarketCaps := fun a => if a = c.Address then some c else provider.tokenMarketCaps a
        idToAddress := fun id =>
          if id = toUpper c.Id then some c.Address else provider.idToAddress id }
      rest

/-- Constructor `NewMarketCapProvider` (lines 198-225): the provider after the
token loop and the first refresh.  `Except.error` is the exit of `log.Fatalf`
on a failed refresh, `none` a panic of the refresh. -/
def NewMarketCapProvider (toUpper : String → String) (baseUrl currency : String)
    (duration : ℤ) (allTokens : List Token) (fetched : Fetched) :
    Option (Except String CapProvider_CoinMarketCap) :=
  let provider := tokenLoop toUpper
    { baseUrl := baseUrl
      tokenMarketCaps := fun _ => none
      idToAddress := fun _ => none
      currency := currency
      duration := if duration ≤ 0 then 5 else duration }
    allTokens
  (provider.syncMarketCap toUpper fetched).bind fun res =>
  match res.2 with
  | some err => some (Except.error err)
  | none => some (Except.ok res.1)

/-- Registry of the examples: WETH at address 1 with feed id "ETH", LRC at
address 2 with feed id "LRC", both with decimals 1000. -/
def exampleTokens : List Token :=
  [{ Protocol := 1, Symbol := "WETH", Source := "ETH", Decimals := 1000 },
   { Protocol := 2, Symbol := "LRC", Source := "LRC", Decimals := 1000 }]

/-- Quote of id "eth" with new prices. -/
def exampleQuote : CurrencyMarketCap :=
  { Id := "eth", Name := "Ethereum", Symbol := "ETH", Decimals := 0
    PriceUsd := some 310, PriceBtc := some (1 / 21), PriceCny := some 2100
    Volume24HCNY := some 7, Volume24HUSD := some 8, LastUpdated := 11
    Address := 0 }

/-- Evaluator over the example provider of one token, with WETH at address
1. -/
def capEvaluator : Evaluator :=
  NewEvaluator exampleEnv (exampleCapProvider.asProvider exampleUpper 1) 0 (1 / 2) (1 / 2)

/-- Leg with its fill in place that sells the token of address 1 for the
token of address 7: sells 4 for 2, raw LRC fee 20, fills 4 and 4, LRC balance
5. -/
def strangerLeg : FilledOrder :=
  { OrderState := { RawOrder :=
      { TokenS := 1, TokenB := 7, AmountS := 4, AmountB := 2, LrcFee := 20 } }
    AvailableAmountS := 4
    AvailableLrcBalance := 5
    FillAmountS := 4
    FillAmountB := 4 }

/-- Ring state of the one leg buying the token of address 7, for the fee
pass. -/
def strangerRing : Ring :=
  { Orders := [strangerLeg], ReducedRate := 1 / 2 }

/-! ## Wallet service (package `gateway`, `wallet_service.go`) -/

/-- Method `SubmitOrder` (lines 437-444): the result string and the error.
`ToOrder` is `types.ToOrder` and `HandleOrder` the order handler of the
package, neither among the sources: both are parameters. -/
def SubmitOrder {Request Order Err : Type} (ToOrder : Request → Order)
    (HandleOrder : Order → Option Err) (order : Request) : String × Option Err :=
  let err := HandleOrder (ToOrder order)
  ("SUBMIT_SUCCESS", err)

/-- Method `UnlockWallet` (lines 399-410), the sibling of `SubmitOrder`: the
result string and the error.  `ownerEmpty` is `len(owner.Owner) == 0` and
`unlockRst` the error of `UnlockedWallet`. -/
def UnlockWallet {Err : Type} (ownerEmpty : Bool) (nullOwner : Err) (unlockRst : Option Err) :
    String × Option Err :=
  if ownerEmpty then ("", some nullOwner)
  else
    match unlockRst with
    | some err => ("", some err)
    | none => ("unlock_notice_success", none)

/-- Modelled from the spec: `dao.PageResult` (its declaration is in package
`dao`), with the two fields `GetRingMinedDetail` reads. -/
structure PageResult (Item : Type) where
  Data : List Item
  Total : ℤ

/-- Method `GetRingMinedDetail` (lines 560-581): the detail, `none` for the
zero value, and the error; the outer `none` is a panic.  `RingHash` reads
`query.RingHash`; `RingMinedPageQuery` is the call of the order manager on the
map of the query with its error, `FindFillsByRingHash` its call on the hash,
`asRingMinedEvent` the type assertion of line 580 and `fillDetail` the
function of that name, none of them among the sources.  Line 568 calls
`err.Error()`, which panics on a nil `err`; line 580 panics on an empty `Data`
or a failed assertion. -/
def GetRingMinedDetail {Query Item Event Fill Detail : Type}
    (RingHash : Query → String)
    (RingMinedPageQuery : Query → PageResult Item × Option String)
    (FindFillsByRingHash : String → List Fill × Option String)
    (asRingMinedEvent : Item → Option Event)
    (fillDetail : Event → List Fill → Option Detail × Option String)
    (query : Query) : Option (Option Detail × Option String) :=
  if (RingHash query).length = 0 then some (none, some ("ring hash can't be null"))
  else
    let rings := (RingMinedPageQuery query).1
    let err := (RingMinedPageQuery query).2
    if err ≠ none ∨ rings.Total > 1 then
      match err with
      | none => none
      | some _ => some (none, some ("query ring error occurs"))
    else if rings.Total = 0 then some (none, some ("no ring found by hash"))
    else
      match (FindFillsByRingHash (RingHash query)).2 with
      | some err1 => some (none, some err1)
      | none =>
        match rings.Data with
        | [] => none
        | item :: _ =>
          (asRingMinedEvent item).bind fun event =>
          some (fillDetail event (FindFillsByRingHash (RingHash query)).1)

/-- Function `convertStatus` (lines 779-797). -/
def convertStatus (s : String) : List OrderStatus :=
  if s = "ORDER_OPENED" then [OrderStatus.ORDER_NEW, OrderStatus.ORDER_PARTIAL]
  else if s = "ORDER_NEW" then [OrderStatus.ORDER_NEW]
  else if s = "ORDER_PARTIAL" then [OrderStatus.ORDER_PARTIAL]
  else if s = "ORDER_FINISHED" then [OrderStatus.ORDER_FINISHED]
  else if s = "ORDER_CANCELLED" then [OrderStatus.ORDER_CANCEL, OrderStatus.ORDER_CUTOFF]
  else if s = "ORDER_CUTOFF" then [OrderStatus.ORDER_CUTOFF]
  else if s = "ORDER_EXPIRE" then [OrderStatus.ORDER_EXPIRE]
  else []

/-- Function `getStringStatus` (lines 799-827) of an order passed by value.
`expired` and `expiredAgain` are what the two calls of `order.IsExpired()`
return (lines 802 and 806), a method of package `types` that compares with the
wall clock. -/
def getStringStatus (order : OrderState) (expired expiredAgain : Bool) : String :=
  let s := order.Status
  if expired then "ORDER_EXPIRE"
  else if expiredAgain then "ORDER_PENDING"
  else
    match s with
    | OrderStatus.ORDER_NEW => "ORDER_OPENED"
    | OrderStatus.ORDER_PARTIAL => "ORDER_OPENED"
    | OrderStatus.ORDER_FINISHED => "ORDER_FINISHED"
    | OrderStatus.ORDER_CANCEL => "ORDER_CANCELLED"
    | OrderStatus.ORDER_CUTOFF => "ORDER_CUTOFF"
    | OrderStatus.ORDER_PENDING => "ORDER_PENDING"
    | OrderStatus.ORDER_EXPIRE => "ORDER_EXPIRE"
    | OrderStatus.other _ => "ORDER_UNKNOWN"

/-- Line 985 of `orderStateToJson` (lines 980-1007): the `Status` of the JSON
result is the label of the order; the order `src`, passed by value, is only
read. -/
def orderStateToJson_Status (src : OrderState) (expired expiredAgain : Bool) : String :=
  getStringStatus src expired expiredAgain

/-! ## The volume loops -/

theorem backwardStep_eq {os os1 : List FilledOrder} {i : ℕ} (h : backwardStep os i = some os1) :
    ∃ o nx, os[i]? = some o ∧ os[i + 1]? = some nx ∧
      os1 = os.set i { o with FillAmountB := nx.FillAmountS,
                              FillAmountS := nx.FillAmountS * o.SPrice } := by
  unfold backwardStep at h
  split at h
  · rename_i o nx ho hnx
    exact ⟨o, nx, ho, hnx, by simpa using h.symm⟩
  · simp at h

theorem backwardStep_isSome {os : List FilledOrder} {i : ℕ} (h : i + 1 < os.length) :
    ∃ os1, backwardStep os i = some os1 := by
  have h0 : i < os.length := by omega
  unfold backwardStep
  rw [List.getElem?_eq_getElem h0, List.getElem?_eq_getElem h]
  exact ⟨_, rfl⟩

theorem backwardLoop_spec : ∀ (k : ℕ) (os os' : List FilledOrder),
    backwardLoop os k = some os' →
    os'.length = os.length ∧
    (∀ j, k ≤ j → os'[j]? = os[j]?) ∧
    (∀ j, j < k → ∃ o nx, os[j]? = some o ∧ os'[j + 1]? = some nx ∧
      os'[j]? = some { o with FillAmountB := nx.FillAmountS,
                              FillAmountS := nx.FillAmountS * o.SPrice })
  | 0, os, os', h => by
    simp only [backwardLoop, Option.some.injEq] at h
    subst h
    exact ⟨rfl, fun _ _ => rfl, fun j hj => absurd hj (Nat.not_lt_zero j)⟩
  | k + 1, os, os', h => by
    simp only [backwardLoop, Option.bind_eq_some] at h
    obtain ⟨os1, h1, h2⟩ := h
    obtain ⟨o, nx, ho, hnx, rfl⟩ := backwardStep_eq h1
    obtain ⟨hlen, hge, hlt⟩ := backwardLoop_spec k _ os' h2
    have hk : k < os.length := (List.getElem?_eq_some.1 ho).1
    refine ⟨by simpa using hlen, ?_, ?_⟩
    · intro j hj
      rw [hge j (by omega), List.getElem?_set_ne (by omega)]
    · intro j hj
      rcases Nat.lt_succ_iff_lt_or_eq.1 hj with hjk | rfl
      · obtain ⟨o', nx', ho', hnx', hres⟩ := hlt j hjk
        rw [List.getElem?_set_ne (by omega)] at ho'
        exact ⟨o', nx', ho', hnx', hres⟩
      · refine ⟨o, nx, ho, ?_, ?_⟩
        · rw [hge (j + 1) (by omega), List.getElem?_set_ne (by omega)]
          exact hnx
        · rw [hge j (le_refl j), List.getElem?_set_self hk]

theorem backwardLoop_isSome : ∀ (k : ℕ) (os : List FilledOrder), k < os.length →
    ∃ os', backwardLoop os k = some os'
  | 0, os, _ => ⟨os, rfl⟩
  | k + 1, os, h => by
    obtain ⟨os1, h1⟩ := backwardStep_isSome h
    obtain ⟨o, nx, _, _, rfl⟩ := backwardStep_eq h1
    obtain ⟨os', h2⟩ := backwardLoop_isSome k
      (os.set k { o with FillAmountB := nx.FillAmountS,
                         FillAmountS := nx.FillAmountS * o.SPrice })
      (by simp; omega)
    exact ⟨os', by simp [backwardLoop, h1, h2]⟩

theorem completionStep_eq {os os1 : List FilledOrder} {i : ℕ}
    (h : completionStep os i = some os1) :
    0 < i ∧ ∃ o la, os[i]? = some o ∧ os[i - 1]? = some la ∧
      os1 = os.set i { o with FillAmountS := la.FillAmountB,
                              FillAmountB := la.FillAmountB * o.BPrice } := by
  unfold completionStep at h
  split at h
  · rename_i o la ho hla
    by_cases hi : i = 0
    · simp [hi] at h
    · rw [if_neg hi] at h
      exact ⟨Nat.pos_of_ne_zero hi, o, la, ho, hla, by simpa using h.symm⟩
  · simp at h

theorem completionStep_isSome {os : List FilledOrder} {i : ℕ} (h0 : 0 < i)
    (h : i < os.length) : ∃ os1, completionStep os i = some os1 := by
  have h1 : i - 1 < os.length := by omega
  unfold completionStep
  rw [List.getElem?_eq_getElem h, List.getElem?_eq_getElem h1]
  have hi : i ≠ 0 := by omega
  simp [hi]

theorem completionLoop_spec : ∀ (count i : ℕ) (os os' : List FilledOrder),
    completionLoop os i count = some os' →
    os'.length = os.length ∧
    (∀ j, j < i → os'[j]? = os[j]?) ∧
    (∀ j, i ≤ j → j < i + count → ∃ o la, os[j]? = some o ∧ os'[j - 1]? = some la ∧
      os'[j]? = some { o with FillAmountS := la.FillAmountB,
                              FillAmountB := la.FillAmountB * o.BPrice })
  | 0, i, os, os', h => by
    simp only [completionLoop, Option.some.injEq] at h
    subst h
    exact ⟨rfl, fun _ _ => rfl, fun j h1 h2 => by omega⟩
  | count + 1, i, os, os', h => by
    simp only [completionLoop, Option.bind_eq_some] at h
    obtain ⟨os1, h1, h2⟩ := h
    obtain ⟨hi, o, la, ho, hla, rfl⟩ := completionStep_eq h1
    obtain ⟨hlen, hlt, hge⟩ := completionLoop_spec count (i + 1) _ os' h2
    have hk : i < os.length := (List.getElem?_eq_some.1 ho).1
    refine ⟨by simpa using hlen, ?_, ?_⟩
    · intro j hj
      rw [hlt j (by omega), List.getElem?_set_ne (by omega)]
    · intro j hj1 hj2
      rcases Nat.eq_or_lt_of_le hj1 with rfl | hij
      · refine ⟨o, la, ho, ?_, ?_⟩
        · rw [hlt (i - 1) (by omega), List.getElem?_set_ne (by omega)]
          exact hla
        · rw [hlt i (by omega), List.getElem?_set_self hk]
      · obtain ⟨o', la', ho', hla', hres⟩ := hge j (by omega) (by omega)
        rw [List.getElem?_set_ne (by omega)] at ho'
        exact ⟨o', la', ho', hla', hres⟩

theorem completionLoop_isSome : ∀ (count i : ℕ) (os : List FilledOrder), 0 < i →
    i + count ≤ os.length → ∃ os', completionLoop os i count = some os'
  | 0, _, os, _, _ => ⟨os, rfl⟩
  | count + 1, i, os, h0, h => by
    obtain ⟨os1, h1⟩ := completionStep_isSome h0 (show i < os.length by omega)
    obtain ⟨_, o, la, _, _, rfl⟩ := completionStep_eq h1
    obtain ⟨os', h2⟩ := completionLoop_isSome count (i + 1)
      (os.set i { o with FillAmountS := la.FillAmountB,
                         FillAmountB := la.FillAmountB * o.BPrice })
      (by omega) (by simp; omega)
    exact ⟨os', by simp [completionLoop, h1, h2]⟩

theorem forwardLeg_eq {rr : ℚ} {last : Option FilledOrder} {idx m m1 : ℕ}
    {o o' : FilledOrder} (h : forwardLeg rr last idx m o = some (o', m1)) :
    o.SPrice * rr ≠ 0 ∧ ∃ f, o' = o.reduced rr f ∧
      ((last = none ∧ f = o.AvailableAmountS ∧ m1 = m) ∨
       (∃ l, last = some l ∧ o.AvailableAmountS ≤ l.FillAmountB ∧
          f = o.AvailableAmountS ∧ m1 = idx) ∨
       (∃ l, last = some l ∧ l.FillAmountB < o.AvailableAmountS ∧
          f = l.FillAmountB ∧ m1 = m)) := by
  unfold forwardLeg ratInv at h
  by_cases hz : o.SPrice * rr = 0
  · simp [hz] at h
  · refine ⟨hz, ?_⟩
    simp only [hz, if_false, Option.some_bind, Option.some.injEq, Prod.mk.injEq] at h
    obtain ⟨h1, h2⟩ := h
    cases last with
    | none =>
      refine ⟨o.AvailableAmountS, ?_, Or.inl ⟨rfl, rfl, ?_⟩⟩
      · rw [← h1]; rfl
      · rw [← h2]
    | some l =>
      by_cases hc : o.AvailableAmountS ≤ l.FillAmountB
      · refine ⟨o.AvailableAmountS, ?_, Or.inr (Or.inl ⟨l, rfl, hc, rfl, ?_⟩)⟩
        · rw [← h1]; simp [FilledOrder.reduced, hc]
        · rw [← h2]; simp [hc]
      · refine ⟨l.FillAmountB, ?_, Or.inr (Or.inr ⟨l, rfl, lt_of_not_le hc, rfl, ?_⟩)⟩
        · rw [← h1]; simp [FilledOrder.reduced, hc]
        · rw [← h2]; simp [hc]

theorem forwardLeg_isSome {rr : ℚ} (last : Option FilledOrder) (idx m : ℕ)
    {o : FilledOrder} (h : o.SPrice * rr ≠ 0) :
    ∃ r, forwardLeg rr last idx m o = some r := by
  unfold forwardLeg ratInv
  simp [h]

theorem forwardPass_spec (rr : ℚ) : ∀ (os : List FilledOrder) (last : Option FilledOrder)
    (idx m : ℕ) (os' : List FilledOrder) (m' : ℕ),
    forwardPass rr last idx m os = some (os', m') →
    (m < idx ∨ (last = none ∧ m = idx)) →
    os'.length = os.length ∧
    (m' = m ∨ (idx ≤ m' ∧ m' < idx + os.length)) ∧
    (∀ (j : ℕ) (o : FilledOrder), os[j]? = some o → o.SPrice * rr ≠ 0 ∧
      ∃ f, os'[j]? = some (o.reduced rr f) ∧ f ≤ o.AvailableAmountS) ∧
    (∀ (j : ℕ) (a b : FilledOrder), os'[j]? = some a → os'[j + 1]? = some b →
      b.FillAmountS ≤ a.FillAmountB ∧
      (m' < idx + j + 1 → b.FillAmountS = a.FillAmountB)) ∧
    (∀ (l b : FilledOrder), last = some l → os'[0]? = some b →
      b.FillAmountS ≤ l.FillAmountB ∧ (m' < idx → b.FillAmountS = l.FillAmountB)) ∧
    (idx ≤ m' → os ≠ [] →
      ∃ b, os'[m' - idx]? = some b ∧ b.FillAmountS = b.AvailableAmountS)
  | [], last, idx, m, os', m', h, _ => by
    simp only [forwardPass, Option.some.injEq, Prod.mk.injEq] at h
    obtain ⟨rfl, rfl⟩ := h
    refine ⟨rfl, Or.inl rfl, ?_, ?_, ?_, ?_⟩
    · intro j o hj; simp at hj
    · intro j a b hj; simp at hj
    · intro l b _ hb; simp at hb
    · intro _ hne; exact absurd rfl hne
  | o :: rest, last, idx, m, os', m', h, hm => by
    simp only [forwardPass, Option.bind_eq_some, Option.some.injEq, Prod.mk.injEq,
      Prod.exists] at h
    obtain ⟨o', m1, hleg, rest', m2, hrest, rfl, rfl⟩ := h
    obtain ⟨hz, f, rfl, hsel⟩ := forwardLeg_eq hleg
    have hm1 : m1 < idx + 1 ∨ ((some (o.reduced rr f) : Option FilledOrder) = none ∧ m1 = idx + 1) := by
      left
      rcases hsel with ⟨_, _, rfl⟩ | ⟨l, _, _, _, rfl⟩ | ⟨l, hl, _, _, rfl⟩
      · rcases hm with hm | ⟨_, hm⟩ <;> omega
      · omega
      · rcases hm with hm | ⟨hn, _⟩
        · omega
        · rw [hl] at hn; cases hn
    obtain ⟨hlen, hrange, hshape, hpair, hhead, hmin⟩ :=
      forwardPass_spec rr rest (some (o.reduced rr f)) (idx + 1) m1 rest' m2 hrest hm1
    have hm1' : m1 = m ∨ m1 = idx := by
      rcases hsel with ⟨_, _, h⟩ | ⟨l, _, _, _, h⟩ | ⟨l, _, _, _, h⟩
      · exact Or.inl h
      · exact Or.inr h
      · exact Or.inl h
    have hfa : f ≤ o.AvailableAmountS := by
      rcases hsel with ⟨_, h, _⟩ | ⟨l, _, _, h, _⟩ | ⟨l, _, hlt, h, _⟩
      · exact le_of_eq h
      · exact le_of_eq h
      · rw [h]; exact le_of_lt hlt
    refine ⟨by simp [hlen], ?_, ?_, ?_, ?_, ?_⟩
    · simp only [List.length_cons]
      rcases hrange with h | ⟨h1, h2⟩
      · rcases hm1' with h' | h'
        · left; omega
        · right; omega
      · right; omega
    · intro j o1 hj
      cases j with
      | zero =>
        simp only [List.getElem?_cons_zero, Option.some.injEq] at hj
        subst hj
        exact ⟨hz, f, by simp, hfa⟩
      | succ j =>
        simp only [List.getElem?_cons_succ] at hj ⊢
        exact hshape j o1 hj
    · intro j a b ha hb
      cases j with
      | zero =>
        simp only [List.getElem?_cons_zero, Option.some.injEq, zero_add,
          List.getElem?_cons_succ] at ha hb
        subst ha
        have := hhead _ b rfl hb
        exact ⟨this.1, fun h => this.2 (by omega)⟩
      | succ j =>
        simp only [List.getElem?_cons_succ] at ha hb
        have := hpair j a b ha hb
        exact ⟨this.1, fun h => this.2 (by omega)⟩
    · intro l b hl hb
      simp only [List.getElem?_cons_zero, Option.some.injEq] at hb
      subst hb
      rcases hsel with ⟨hn, _, _⟩ | ⟨l', hl', hle, hf, rfl⟩ | ⟨l', hl', hlt, hf, _⟩
      · rw [hl] at hn; cases hn
      · rw [hl] at hl'; cases hl'
        refine ⟨by simpa [FilledOrder.reduced, hf] using hle, fun h => ?_⟩
        rcases hrange with h' | ⟨h', _⟩ <;> omega
      · rw [hl] at hl'; cases hl'
        exact ⟨by simp [FilledOrder.reduced, hf], fun _ => by simp [FilledOrder.reduced, hf]⟩
    · intro hidx _
      rcases Nat.eq_or_lt_of_le hidx with heq | hlt
      · have hm2 : m2 = m1 := by
          rcases hrange with h | ⟨h, _⟩
          · exact h
          · omega
        have hf : f = o.AvailableAmountS := by
          rcases hsel with ⟨_, h, _⟩ | ⟨l, _, _, h, _⟩ | ⟨l, hl, _, _, h⟩
          · exact h
          · exact h
          · rcases hm with hm | ⟨hn, _⟩
            · omega
            · rw [hl] at hn; cases hn
        refine ⟨o.reduced rr f, by simp [← heq], by simp [FilledOrder.reduced, hf]⟩
      · have hne : rest ≠ [] := by
          rintro rfl
          rcases hrange with h | ⟨h1, h2⟩
          · rcases hm1' with h' | h'
            · rcases hm with hm | ⟨_, hm⟩ <;> omega
            · omega
          · simp at h2; omega
        obtain ⟨b, hb, hbf⟩ := hmin (by omega) hne
        refine ⟨b, ?_, hbf⟩
        have : m2 - idx = (m2 - (idx + 1)) + 1 := by omega
        rw [this, List.getElem?_cons_succ]
        exact hb

theorem forwardPass_isSome (rr : ℚ) : ∀ (os : List FilledOrder) (last : Option FilledOrder)
    (idx m : ℕ), (∀ o ∈ os, o.SPrice * rr ≠ 0) →
    ∃ r, forwardPass rr last idx m os = some r
  | [], _, _, m, _ => ⟨([], m), rfl⟩
  | o :: rest, last, idx, m, h => by
    obtain ⟨leg, hleg⟩ := forwardLeg_isSome last idx m (h o (List.mem_cons_self _ _))
    obtain ⟨r, hr⟩ := forwardPass_isSome rr rest (some leg.1) (idx + 1) leg.2
      (fun o' ho' => h o' (List.mem_cons_of_mem _ ho'))
    exact ⟨(leg.1 :: r.1, r.2), by simp [forwardPass, hleg, hr]⟩

theorem priceLoop_spec : ∀ (os : List FilledOrder) (pS pB : ℚ)
    (res : List FilledOrder × ℚ × ℚ), priceLoop pS pB os = some res →
    res.1 = os.map FilledOrder.priced ∧
    (∀ o ∈ os, o.OrderState.RawOrder.AmountS ≠ 0 ∧ o.OrderState.RawOrder.AmountB ≠ 0) ∧
    res.2.1 = pS * (os.map fun o => (o.OrderState.RawOrder.AmountS : ℚ)).prod ∧
    res.2.2 = pB * (os.map fun o => (o.OrderState.RawOrder.AmountB : ℚ)).prod
  | [], pS, pB, res, h => by
    simp only [priceLoop, Option.some.injEq] at h
    subst h
    simp
  | o :: rest, pS, pB, res, h => by
    simp only [priceLoop, ratQuo, Option.bind_eq_some] at h
    obtain ⟨sPrice, hs, bPrice, hb, res1, hres, h⟩ := h
    simp only [Option.some.injEq] at h
    subst h
    obtain ⟨h1, h2, h3, h4⟩ := priceLoop_spec rest _ _ res1 hres
    have hB : (o.OrderState.RawOrder.AmountB : ℚ) ≠ 0 := by
      intro h0; simp [h0] at hs
    have hS : (o.OrderState.RawOrder.AmountS : ℚ) ≠ 0 := by
      intro h0; simp [h0] at hb
    simp only [hB, hS, if_false, Option.some.injEq] at hs hb
    refine ⟨?_, ?_, ?_, ?_⟩
    · simp [h1, FilledOrder.priced, hs, hb]
    · intro o' ho'
      rcases List.mem_cons.1 ho' with rfl | ho'
      · exact ⟨by exact_mod_cast hS, by exact_mod_cast hB⟩
      · exact h2 o' ho'
    · simp [h3, mul_assoc]
    · simp [h4, mul_assoc]

theorem priceLoop_isSome : ∀ (os : List FilledOrder) (pS pB : ℚ),
    (∀ o ∈ os, o.OrderState.RawOrder.AmountS ≠ 0 ∧ o.OrderState.RawOrder.AmountB ≠ 0) →
    ∃ res, priceLoop pS pB os = some res
  | [], pS, pB, _ => ⟨_, rfl⟩
  | o :: rest, pS, pB, h => by
    obtain ⟨hS, hB⟩ := h o (List.mem_cons_self _ _)
    obtain ⟨res, hres⟩ := priceLoop_isSome rest
      (pS * o.OrderState.RawOrder.AmountS) (pB * o.OrderState.RawOrder.AmountB)
      (fun o' ho' => h o' (List.mem_cons_of_mem _ ho'))
    have hS' : (o.OrderState.RawOrder.AmountS : ℚ) ≠ 0 := by exact_mod_cast hS
    have hB' : (o.OrderState.RawOrder.AmountB : ℚ) ≠ 0 := by exact_mod_cast hB
    simp [priceLoop, ratQuo, hS', hB', hres]

theorem reduced_backward (o : FilledOrder) (rr f2 x : ℚ) (h : o.SPrice * rr ≠ 0) :
    ({ o.reduced rr f2 with
        FillAmountB := x, FillAmountS := x * (o.reduced rr f2).SPrice } : FilledOrder) =
      o.reduced rr (x * (o.SPrice * rr)) := by
  simp only [FilledOrder.reduced, FilledOrder.mk.injEq, true_and, and_true]
  field_simp

theorem reduced_completion (o : FilledOrder) (rr f2 y : ℚ) :
    ({ o.reduced rr f2 with
        FillAmountS := y, FillAmountB := y * (o.reduced rr f2).BPrice } : FilledOrder) =
      o.reduced rr y := by
  simp [FilledOrder.reduced]

/-- What the three volume loops leave, in terms of the legs `os1` the price
loop produced: every leg is in reduced form, the fills chain, the leg at
`minVolumeIdx` sells all it has available, and with positive reduced prices no
leg sells more than it has available. -/
theorem volumeLoops_spec {rr : ℚ} {os1 os2 os3 os4 : List FilledOrder} {m : ℕ}
    (hf : forwardPass rr none 0 0 os1 = some (os2, m))
    (hb : backwardLoop os2 m = some os3)
    (hc : completionLoop os3 (m + 1) (os3.length - (m + 1)) = some os4) :
    os4.length = os1.length ∧
    (os1 ≠ [] → m < os1.length) ∧
    (∀ (j : ℕ) (o : FilledOrder), os1[j]? = some o → o.SPrice * rr ≠ 0 ∧
      ∃ f, os4[j]? = some (o.reduced rr f)) ∧
    Chained os4 ∧
    (os1 ≠ [] → ∃ a, os4[m]? = some a ∧ a.FillAmountS = a.AvailableAmountS) ∧
    ((∀ o ∈ os1, 0 < o.SPrice * rr) →
      ∀ (j : ℕ) (a : FilledOrder), os4[j]? = some a →
        a.FillAmountS ≤ a.AvailableAmountS) := by
  obtain ⟨hlen2, hrange, hshape, hpair, -, hmin⟩ :=
    forwardPass_spec rr os1 none 0 0 os2 m hf (Or.inr ⟨rfl, rfl⟩)
  obtain ⟨hlen3, hge3, hlt3⟩ := backwardLoop_spec m os2 os3 hb
  obtain ⟨hlen4, hlt4, hge4⟩ := completionLoop_spec _ _ os3 os4 hc
  have hmn : os1 ≠ [] → m < os1.length := by
    intro hne
    rcases hrange with h | ⟨_, h⟩
    · rw [h]; exact List.length_pos.2 hne
    · simpa using h
  -- shape of every leg of the result
  have hS : ∀ (j : ℕ) (o : FilledOrder), os1[j]? = some o → o.SPrice * rr ≠ 0 ∧
      ∃ f, os4[j]? = some (o.reduced rr f) := by
    intro j o ho
    obtain ⟨hz, f2, ho2, -⟩ := hshape j o ho
    refine ⟨hz, ?_⟩
    have hjn : j < os1.length := (List.getElem?_eq_some.1 ho).1
    rcases Nat.lt_trichotomy j m with hjm | hjm | hjm
    · obtain ⟨o2, nx, ho2', -, ho3⟩ := hlt3 j hjm
      rw [ho2] at ho2'
      cases ho2'
      rw [reduced_backward o rr f2 _ hz] at ho3
      exact ⟨_, by rw [hlt4 j (by omega), ho3]⟩
    · exact ⟨f2, by rw [hlt4 j (by omega), hge3 j (by omega), ho2]⟩
    · obtain ⟨o3, la, ho3, -, ho4⟩ := hge4 j (by omega) (by omega)
      rw [hge3 j (by omega), ho2] at ho3
      cases ho3
      rw [reduced_completion] at ho4
      exact ⟨_, ho4⟩
  have hChain : Chained os4 := by
    intro j a b ha hb'
    by_cases hjm : j < m
    · obtain ⟨o2, nx, -, hnx, ho3⟩ := hlt3 j hjm
      rw [hlt4 j (by omega), ho3] at ha
      rw [hlt4 (j + 1) (by omega), hnx] at hb'
      cases ha; cases hb'
      rfl
    · have hj1 : j + 1 < os4.length := (List.getElem?_eq_some.1 hb').1
      obtain ⟨o3, la, -, hla, ho4⟩ := hge4 (j + 1) (by omega) (by omega)
      simp only [Nat.add_sub_cancel] at hla
      rw [ha] at hla
      rw [hb'] at ho4
      cases hla; cases ho4
      rfl
  refine ⟨by omega, hmn, hS, hChain, ?_, ?_⟩
  · intro hne
    obtain ⟨b, hb2, hbf⟩ := hmin (Nat.zero_le _) hne
    exact ⟨b, by rw [hlt4 m (by omega), hge3 m (le_refl m)]; simpa using hb2, hbf⟩
  · intro hpos
    -- legs from `minVolumeIdx` on are as the forward pass left them
    have hQ : ∀ (d j : ℕ), j = m + d → j < os1.length → os4[j]? = os2[j]? := by
      intro d
      induction d with
      | zero =>
        intro j hj _
        rw [hlt4 j (by omega), hge3 j (by omega)]
      | succ d ih =>
        intro j hj hjn
        obtain ⟨o3, la, ho3, hla, ho4⟩ := hge4 j (by omega) (by omega)
        rw [hge3 j (by omega)] at ho3
        rw [ih (j - 1) (by omega) (by omega)] at hla
        have hj1 : j - 1 + 1 = j := by omega
        have hp := hpair (j - 1) la o3 hla (by rw [hj1]; exact ho3)
        have hfb : o3.FillAmountS = la.FillAmountB := hp.2 (by omega)
        obtain ⟨o1, ho1⟩ : ∃ o1, os1[j]? = some o1 :=
          ⟨_, List.getElem?_eq_getElem hjn⟩
        obtain ⟨-, f2, ho2, -⟩ := hshape j o1 ho1
        rw [ho2] at ho3
        cases ho3
        rw [ho4, ho2, reduced_completion, ← hfb]
        rfl
    -- legs up to `minVolumeIdx` sell no more than after the forward pass
    have hR : ∀ (d j : ℕ), j + d = m → ∀ (a3 a2 : FilledOrder), os3[j]? = some a3 →
        os2[j]? = some a2 → a3.FillAmountS ≤ a2.FillAmountS := by
      intro d
      induction d with
      | zero =>
        intro j hj a3 a2 h3 h2
        rw [hge3 j (by omega), h2] at h3
        cases h3
        exact le_refl _
      | succ d ih =>
        intro j hj a3 a2 h3 h2
        obtain ⟨o2, nx, ho2, hnx, ho3⟩ := hlt3 j (by omega)
        rw [h2] at ho2
        cases ho2
        rw [h3] at ho3
        cases ho3
        have hj1 : j + 1 < os2.length := by
          have := (List.getElem?_eq_some.1 hnx).1
          omega
        have h2' : os2[j + 1]? = some os2[j + 1] := List.getElem?_eq_getElem hj1
        have h1 := ih (j + 1) (by omega) nx _ hnx h2'
        have hp := (hpair j a2 _ h2 h2').1
        have hjn : j < os1.length := by omega
        have ho1 : os1[j]? = some os1[j] := List.getElem?_eq_getElem hjn
        obtain ⟨hz, f2, ho2, -⟩ := hshape j _ ho1
        rw [h2] at ho2
        cases ho2
        have hsp : 0 < os1[j].SPrice * rr := hpos _ (List.getElem_mem _)
        have h3 : nx.FillAmountS ≤ f2 * (os1[j].SPrice * rr)⁻¹ :=
          le_trans h1 hp
        have h4 := mul_le_mul_of_nonneg_right h3 (le_of_lt hsp)
        have h5 : f2 * (os1[j].SPrice * rr)⁻¹ * (os1[j].SPrice * rr) = f2 := by
          field_simp
        rw [h5] at h4
        exact h4
    intro j a ha
    have hjn : j < os1.length := by
      have := (List.getElem?_eq_some.1 ha).1
      omega
    have ho1 : os1[j]? = some os1[j] := List.getElem?_eq_getElem hjn
    obtain ⟨-, f2, ho2, hf2⟩ := hshape j _ ho1
    obtain ⟨-, f, ho4⟩ := hS j _ ho1
    rw [ha] at ho4
    cases ho4
    show f ≤ os1[j].AvailableAmountS
    by_cases hjm : j ≤ m
    · have h3 : os3[j]? = some (os1[j].reduced rr f) := by
        rw [← hlt4 j (by omega)]; exact ha
      have := hR (m - j) j (by omega) _ _ h3 ho2
      exact le_trans this hf2
    · have := hQ (j - m) j (by omega) hjn
      rw [ha, ho2] at this
      cases this
      exact hf2

/-! ## `computeVolume` -/

theorem forwardOfRing_spec {env : Env} {ring : Ring} {os2 : List FilledOrder} {m : ℕ}
    {rr : ℚ} (h : forwardOfRing env ring = some (os2, m, rr)) :
    (∀ o ∈ ring.Orders, o.OrderState.RawOrder.AmountS ≠ 0 ∧
      o.OrderState.RawOrder.AmountB ≠ 0) ∧
    ∃ rate, env.rootOfRing (productPrice ring.Orders) ring.Orders.length = some rate ∧
      rate ≠ 0 ∧ rr = rate⁻¹ ∧
      forwardPass rr none 0 0 (ring.Orders.map FilledOrder.priced) = some (os2, m) := by
  simp only [forwardOfRing, Option.bind_eq_some, Option.some.injEq, Prod.mk.injEq] at h
  obtain ⟨priced, hp, pp, hpp, rate, hrate, rr', hrr, fwd, hfwd, rfl, rfl, rfl⟩ := h
  obtain ⟨h1, h2, h3, h4⟩ := priceLoop_spec _ _ _ _ hp
  refine ⟨h2, rate, ?_, ?_, ?_, ?_⟩
  · have : pp = productPrice ring.Orders := by
      unfold ratQuo at hpp
      split at hpp
      · cases hpp
      · simp only [Option.some.injEq] at hpp
        rw [← hpp, h3, h4, one_mul, one_mul]
        rfl
    rw [← this]; exact hrate
  · intro h0; simp [ratInv, h0] at hrr
  · unfold ratInv at hrr
    split at hrr
    · cases hrr
    · simpa using hrr.symm
  · rw [← h1]; exact hfwd

theorem prod_amountB_ne_zero : ∀ (os : List FilledOrder),
    (∀ o ∈ os, o.OrderState.RawOrder.AmountS ≠ 0 ∧ o.OrderState.RawOrder.AmountB ≠ 0) →
    (os.map fun o => (o.OrderState.RawOrder.AmountB : ℚ)).prod ≠ 0
  | [], _ => by simp
  | o :: rest, h => by
    have h1 := (h o (List.mem_cons_self _ _)).2
    have h2 := prod_amountB_ne_zero rest (fun o' ho' => h o' (List.mem_cons_of_mem _ ho'))
    simp only [List.map_cons, List.prod_cons]
    exact mul_ne_zero (by exact_mod_cast h1) h2

theorem priced_reduced_ne_zero {o : FilledOrder} {rate : ℚ}
    (h : o.OrderState.RawOrder.AmountS ≠ 0 ∧ o.OrderState.RawOrder.AmountB ≠ 0)
    (hr : rate ≠ 0) : o.priced.SPrice * rate⁻¹ ≠ 0 := by
  have hS : (o.OrderState.RawOrder.AmountS : ℚ) ≠ 0 := by exact_mod_cast h.1
  have hB : (o.OrderState.RawOrder.AmountB : ℚ) ≠ 0 := by exact_mod_cast h.2
  simp only [FilledOrder.priced]
  exact mul_ne_zero (div_ne_zero hS hB) (inv_ne_zero hr)

theorem forwardOfRing_isSome {env : Env} {ring : Ring} {rate : ℚ}
    (hne : ∀ o ∈ ring.Orders, o.OrderState.RawOrder.AmountS ≠ 0 ∧
      o.OrderState.RawOrder.AmountB ≠ 0)
    (hrate : env.rootOfRing (productPrice ring.Orders) ring.Orders.length = some rate)
    (hr : rate ≠ 0) :
    ∃ os2 m, forwardOfRing env ring = some (os2, m, rate⁻¹) := by
  obtain ⟨priced, hp⟩ := priceLoop_isSome ring.Orders 1 1 hne
  obtain ⟨h1, -, h3, h4⟩ := priceLoop_spec _ _ _ _ hp
  have hB := prod_amountB_ne_zero ring.Orders hne
  have hpp : ratQuo priced.2.1 priced.2.2 = some (productPrice ring.Orders) := by
    rw [h3, h4, one_mul, one_mul]
    simp [ratQuo, hB, productPrice]
  obtain ⟨fwd, hfwd⟩ := forwardPass_isSome rate⁻¹ priced.1 none 0 0 (by
    intro o ho
    rw [h1] at ho
    obtain ⟨o0, ho0, rfl⟩ := List.mem_map.1 ho
    exact priced_reduced_ne_zero (hne o0 ho0) hr)
  refine ⟨fwd.1, fwd.2, ?_⟩
  simp [forwardOfRing, hp, hpp, hrate, ratInv, hr, hfwd]

/-- Everything the claims use about lines 42-148 of `ComputeRing`. -/
theorem computeVolume_spec {env : Env} {ring r1 : Ring} (h : computeVolume env ring = some r1) :
    (∀ o ∈ ring.Orders, o.OrderState.RawOrder.AmountS ≠ 0 ∧
      o.OrderState.RawOrder.AmountB ≠ 0) ∧
    ∃ (rate : ℚ) (os2 : List FilledOrder) (m : ℕ),
      env.rootOfRing (productPrice ring.Orders) ring.Orders.length = some rate ∧
      rate ≠ 0 ∧ r1.ReducedRate = rate⁻¹ ∧
      forwardOfRing env ring = some (os2, m, rate⁻¹) ∧
      r1.Orders.length = ring.Orders.length ∧
      (ring.Orders ≠ [] → m < ring.Orders.length) ∧
      (∀ (j : ℕ) (o : FilledOrder), ring.Orders[j]? = some o →
        ∃ f, r1.Orders[j]? = some (o.priced.reduced rate⁻¹ f)) ∧
      Chained r1.Orders ∧
      (ring.Orders ≠ [] →
        ∃ a, r1.Orders[m]? = some a ∧ a.FillAmountS = a.AvailableAmountS) ∧
      ((∀ o ∈ ring.Orders, 0 < o.priced.SPrice * rate⁻¹) →
        ∀ (j : ℕ) (a : FilledOrder), r1.Orders[j]? = some a →
          a.FillAmountS ≤ a.AvailableAmountS) := by
  simp only [computeVolume, Option.bind_eq_some, Option.some.injEq] at h
  obtain ⟨⟨os2, m, rr⟩, hfwd, os3, hb, os4, hc, rfl⟩ := h
  obtain ⟨hne, rate, hrate, hr, rfl, hf⟩ := forwardOfRing_spec hfwd
  obtain ⟨hlen, hmn, hS, hChain, hMin, hLe⟩ := volumeLoops_spec hf hb hc
  refine ⟨hne, rate, os2, m, hrate, hr, rfl, hfwd, by simpa using hlen, ?_, ?_, hChain, ?_, ?_⟩
  · intro h0
    simpa using hmn (by simpa using h0)
  · intro j o ho
    exact (hS j o.priced (by simp [ho])).2
  · intro h0
    exact hMin (by simpa using h0)
  · intro hpos
    exact hLe (by
      intro o ho
      obtain ⟨o0, ho0, rfl⟩ := List.mem_map.1 ho
      exact hpos o0 ho0)

theorem computeVolume_isSome {env : Env} {ring : Ring} {rate : ℚ}
    (hne : ∀ o ∈ ring.Orders, o.OrderState.RawOrder.AmountS ≠ 0 ∧
      o.OrderState.RawOrder.AmountB ≠ 0)
    (hrate : env.rootOfRing (productPrice ring.Orders) ring.Orders.length = some rate)
    (hr : rate ≠ 0) :
    ∃ r1, computeVolume env ring = some r1 := by
  obtain ⟨os2, m, hfwd⟩ := forwardOfRing_isSome hne hrate hr
  obtain ⟨-, rate', -, -, -, hf⟩ := forwardOfRing_spec hfwd
  obtain ⟨hlen2, hrange, -⟩ :=
    forwardPass_spec _ _ none 0 0 os2 m hf (Or.inr ⟨rfl, rfl⟩)
  by_cases hnil : os2 = []
  · subst hnil
    have hm : m = 0 := by
      rcases hrange with h | ⟨_, h⟩
      · exact h
      · simp at hlen2; simp [← hlen2] at h
    subst hm
    simp [computeVolume, hfwd, backwardLoop, completionLoop]
  · have hm : m < os2.length := by
      rcases hrange with h | ⟨_, h⟩
      · rw [h]; exact List.length_pos.2 hnil
      · rw [hlen2]; simpa using h
    obtain ⟨os3, hb⟩ := backwardLoop_isSome m os2 hm
    have hlen3 := (backwardLoop_spec m os2 os3 hb).1
    obtain ⟨os4, hc⟩ := completionLoop_isSome (os3.length - (m + 1)) (m + 1) os3
      (by omega) (by omega)
    simp [computeVolume, hfwd, hb, hc]

/-! ## Fees -/

theorem savingOfOrder_snd {rr : ℚ} {o : FilledOrder} {s : ℚ × Address}
    (h : savingOfOrder rr o = some s) : s.2 = o.savingToken := by
  unfold savingOfOrder at h
  unfold FilledOrder.savingToken
  split at h
  · simp only [Option.bind_eq_some, Option.some.injEq] at h
    obtain ⟨_, _, rfl⟩ := h
    simp [*]
  · simp only [Option.some.injEq] at h
    subst h
    simp [*]

theorem computeFeeOfOrder_spec {e : Evaluator} {env : Env} {rr : ℚ} {o o' : FilledOrder}
    (h : e.computeFeeOfOrder env rr o = some o') :
    ∃ saving legalSaving lrcFee legalLrc,
      savingOfOrder rr o = some (saving, o.savingToken) ∧
      e.getLegalCurrency o.savingToken saving = some (some legalSaving) ∧
      lrcFeeOfOrder o = some lrcFee ∧
      e.getLegalCurrency (env.lrcAddress o.OrderState.RawOrder.Protocol) lrcFee =
        some (some legalLrc) ∧
      o' = { o with
        FeeS := saving, LrcFee := lrcFee, LegalLrcFee := legalLrc,
        LegalFeeS := legalSaving * (o.OrderState.RawOrder.MarginSplitPercentage : ℚ) } := by
  simp only [Evaluator.computeFeeOfOrder, Option.bind_eq_some, Option.some.injEq] at h
  obtain ⟨s, hs, ls, hls, lrcFee, hlrc, ll, hll, legalLrc, rfl, legalSaving, rfl, rfl⟩ := h
  have htok := savingOfOrder_snd hs
  refine ⟨s.1, legalSaving, lrcFee, legalLrc, ?_, ?_, hlrc, hll, rfl⟩
  · rw [hs, ← htok]
  · rw [← htok]; exact hls

theorem computeFeeOfOrder_isSome {e : Evaluator} {env : Env} (rr : ℚ) {o : FilledOrder}
    (hS : o.OrderState.RawOrder.AmountS ≠ 0) (hB : o.OrderState.RawOrder.AmountB ≠ 0)
    (hk : e.Knows o.OrderState.RawOrder.TokenS ∧ e.Knows o.OrderState.RawOrder.TokenB ∧
      e.Knows (env.lrcAddress o.OrderState.RawOrder.Protocol)) :
    ∃ o', e.computeFeeOfOrder env rr o = some o' := by
  have hS' : (o.OrderState.RawOrder.AmountS : ℚ) ≠ 0 := by exact_mod_cast hS
  have hB' : (o.OrderState.RawOrder.AmountB : ℚ) ≠ 0 := by exact_mod_cast hB
  obtain ⟨s, hs⟩ : ∃ s, savingOfOrder rr o = some s := by
    unfold savingOfOrder ratQuo
    split <;> simp [hB']
  have htok := savingOfOrder_snd hs
  have hkt : e.Knows s.2 := by
    rw [htok]
    unfold FilledOrder.savingToken
    split
    · exact hk.1
    · exact hk.2.1
  obtain ⟨v1, err1, hv1⟩ := hkt s.1
  obtain ⟨lrcFee, hlrc⟩ : ∃ f, lrcFeeOfOrder o = some f := by
    unfold lrcFeeOfOrder ratQuo
    simp [hS']
  obtain ⟨v2, err2, hv2⟩ := hk.2.2 lrcFee
  simp [Evaluator.computeFeeOfOrder, hs, Evaluator.getLegalCurrency, hv1, hlrc, hv2]

theorem feeLoop_spec (e : Evaluator) (env : Env) (rr : ℚ) :
    ∀ (os os' : List FilledOrder), e.feeLoop env rr os = some os' →
    os'.length = os.length ∧
    ∀ (j : ℕ) (o : FilledOrder), os[j]? = some o →
      ∃ o', os'[j]? = some o' ∧ e.computeFeeOfOrder env rr o = some o'
  | [], os', h => by
    simp only [Evaluator.feeLoop, Option.some.injEq] at h
    subst h
    exact ⟨rfl, fun j o hj => by simp at hj⟩
  | o :: rest, os', h => by
    simp only [Evaluator.feeLoop, Option.bind_eq_some, Option.some.injEq] at h
    obtain ⟨o1, ho1, rest1, hrest, rfl⟩ := h
    obtain ⟨hlen, hget⟩ := feeLoop_spec e env rr rest rest1 hrest
    refine ⟨by simp [hlen], ?_⟩
    intro j o2 hj
    cases j with
    | zero =>
      simp only [List.getElem?_cons_zero, Option.some.injEq] at hj
      subst hj
      exact ⟨o1, by simp, ho1⟩
    | succ j =>
      simp only [List.getElem?_cons_succ] at hj ⊢
      exact hget j o2 hj

theorem feeLoop_isSome (e : Evaluator) (env : Env) (rr : ℚ) :
    ∀ (os : List FilledOrder), (∀ o ∈ os, ∃ o', e.computeFeeOfOrder env rr o = some o') →
    ∃ os', e.feeLoop env rr os = some os'
  | [], _ => ⟨[], rfl⟩
  | o :: rest, h => by
    obtain ⟨o1, ho1⟩ := h o (List.mem_cons_self _ _)
    obtain ⟨rest1, hrest⟩ := feeLoop_isSome e env rr rest
      (fun o' ho' => h o' (List.mem_cons_of_mem _ ho'))
    simp [Evaluator.feeLoop, ho1, hrest]

/-- The fee pass writes only the four fee fields of each leg. -/
theorem computeFee_frame {e : Evaluator} {env : Env} {r1 r : Ring}
    (h : e.computeFeeOfRingAndOrder env r1 = some r) :
    r.ReducedRate = r1.ReducedRate ∧ r.Orders.length = r1.Orders.length ∧
    (∀ (j : ℕ) (a1 : FilledOrder), r1.Orders[j]? = some a1 →
      ∃ a, r.Orders[j]? = some a ∧ e.computeFeeOfOrder env r1.ReducedRate a1 = some a ∧
        ∃ x1 x2 x3 x4, a = { a1 with FeeS := x1, LrcFee := x2, LegalLrcFee := x3,
                                      LegalFeeS := x4 }) ∧
    (∀ (j : ℕ) (a : FilledOrder), r.Orders[j]? = some a →
      ∃ a1, r1.Orders[j]? = some a1 ∧ e.computeFeeOfOrder env r1.ReducedRate a1 = some a ∧
        ∃ x1 x2 x3 x4, a = { a1 with FeeS := x1, LrcFee := x2, LegalLrcFee := x3,
                                      LegalFeeS := x4 }) := by
  simp only [Evaluator.computeFeeOfRingAndOrder, Option.bind_eq_some, Option.some.injEq] at h
  obtain ⟨os, hos, rfl⟩ := h
  obtain ⟨hlen, hget⟩ := feeLoop_spec e env _ _ _ hos
  have hfwd : ∀ (j : ℕ) (a1 : FilledOrder), r1.Orders[j]? = some a1 →
      ∃ a, os[j]? = some a ∧ e.computeFeeOfOrder env r1.ReducedRate a1 = some a ∧
        ∃ x1 x2 x3 x4, a = { a1 with FeeS := x1, LrcFee := x2, LegalLrcFee := x3,
                                      LegalFeeS := x4 } := by
    intro j a1 ha1
    obtain ⟨a, ha, hfee⟩ := hget j a1 ha1
    obtain ⟨x1, x4, x2, x3, -, -, -, -, rfl⟩ := computeFeeOfOrder_spec hfee
    exact ⟨_, ha, hfee, x1, x2, x3, _, rfl⟩
  refine ⟨rfl, hlen, hfwd, ?_⟩
  intro j a ha
  have hj : j < r1.Orders.length := by
    have := (List.getElem?_eq_some.1 ha).1
    simp only at this
    omega
  obtain ⟨a', ha', hfee, hx⟩ := hfwd j _ (List.getElem?_eq_getElem hj)
  simp only at ha
  rw [ha] at ha'
  cases ha'
  exact ⟨_, List.getElem?_eq_getElem hj, hfee, hx⟩

theorem computeFee_isSome (e : Evaluator) (env : Env) (r1 : Ring)
    (hne : ∀ o ∈ r1.Orders, o.OrderState.RawOrder.AmountS ≠ 0 ∧
      o.OrderState.RawOrder.AmountB ≠ 0)
    (hk : e.KnownTokens env r1.Orders) :
    ∃ r, e.computeFeeOfRingAndOrder env r1 = some r := by
  obtain ⟨os, hos⟩ := feeLoop_isSome e env r1.ReducedRate r1.Orders
    (fun o ho => computeFeeOfOrder_isSome _ (hne o ho).1 (hne o ho).2 (hk o ho))
  simp [Evaluator.computeFeeOfRingAndOrder, hos]

/-! ## `ComputeRing` as its three phases -/

theorem ComputeRing_spec {e : Evaluator} {env : Env} {ring r : Ring} {err : Option MinerError}
    (h : e.ComputeRing env ring = some (r, err)) :
    ∃ r1 res, computeVolume env ring = some r1 ∧
      e.computeFeeOfRingAndOrder env r1 = some r ∧
      PriceRateCVSquare r = some res ∧
      err = (match res with
        | .error er => some er
        | .ok cvs =>
          if Int64 cvs ≤ e.rateRatioCVSThreshold then none
          else some MinerError.cvsExceedsThreshold) := by
  simp only [Evaluator.ComputeRing, Option.bind_eq_some] at h
  obtain ⟨r1, h1, r2, h2, res, h3, h4⟩ := h
  cases res with
  | error er =>
    simp only [Option.some.injEq, Prod.mk.injEq] at h4
    obtain ⟨rfl, rfl⟩ := h4
    exact ⟨r1, _, h1, h2, h3, rfl⟩
  | ok cvs =>
    simp only at h4
    split at h4
    · simp only [Option.some.injEq, Prod.mk.injEq] at h4
      obtain ⟨rfl, rfl⟩ := h4
      refine ⟨r1, _, h1, h2, h3, ?_⟩
      simp [*]
    · simp only [Option.some.injEq, Prod.mk.injEq] at h4
      obtain ⟨rfl, rfl⟩ := h4
      refine ⟨r1, _, h1, h2, h3, ?_⟩
      simp [*]

/-! ## Helpers of the claims -/

theorem amounts_ne_zero {os : List FilledOrder}
    (hpos : ∀ o ∈ os, 0 < o.OrderState.RawOrder.AmountS ∧ 0 < o.OrderState.RawOrder.AmountB) :
    ∀ o ∈ os, o.OrderState.RawOrder.AmountS ≠ 0 ∧ o.OrderState.RawOrder.AmountB ≠ 0 :=
  fun o ho => ⟨ne_of_gt (hpos o ho).1, ne_of_gt (hpos o ho).2⟩

theorem chained_of_fee {e : Evaluator} {env : Env} {r1 r : Ring}
    (h : e.computeFeeOfRingAndOrder env r1 = some r) (hc : Chained r1.Orders) :
    Chained r.Orders := by
  obtain ⟨-, -, -, hback⟩ := computeFee_frame h
  intro i a b ha hb
  obtain ⟨a1, ha1, -, _, _, _, _, rfl⟩ := hback i a ha
  obtain ⟨b1, hb1, -, _, _, _, _, rfl⟩ := hback (i + 1) b hb
  exact hc i a1 b1 ha1 hb1

theorem chained_index {os : List FilledOrder} (hc : Chained os) :
    ∀ i, 1 ≤ i → i < os.length →
      ∃ a b, os[i - 1]? = some a ∧ os[i]? = some b ∧ a.FillAmountB = b.FillAmountS := by
  intro i h1 h2
  have h3 : i - 1 < os.length := by omega
  refine ⟨os[i - 1], os[i], List.getElem?_eq_getElem h3, List.getElem?_eq_getElem h2, ?_⟩
  apply hc (i - 1) _ _ (List.getElem?_eq_getElem h3)
  have : i - 1 + 1 = i := by omega
  rw [this]
  exact List.getElem?_eq_getElem h2

theorem priced_reduced_pos {o : FilledOrder} {rate : ℚ}
    (h : 0 < o.OrderState.RawOrder.AmountS ∧ 0 < o.OrderState.RawOrder.AmountB)
    (hrr : 0 < rate⁻¹) : 0 < o.priced.SPrice * rate⁻¹ := by
  have hS : (0 : ℚ) < (o.OrderState.RawOrder.AmountS : ℚ) := by exact_mod_cast h.1
  have hB : (0 : ℚ) < (o.OrderState.RawOrder.AmountB : ℚ) := by exact_mod_cast h.2
  simp only [FilledOrder.priced]
  exact mul_pos (div_pos hS hB) hrr

theorem productPrice_pos {os : List FilledOrder}
    (hpos : ∀ o ∈ os, 0 < o.OrderState.RawOrder.AmountS ∧ 0 < o.OrderState.RawOrder.AmountB) :
    0 < productPrice os := by
  unfold productPrice
  apply div_pos
  · apply List.prod_pos
    intro x hx
    obtain ⟨o, ho, rfl⟩ := List.mem_map.1 hx
    exact_mod_cast (hpos o ho).1
  · apply List.prod_pos
    intro x hx
    obtain ⟨o, ho, rfl⟩ := List.mem_map.1 hx
    exact_mod_cast (hpos o ho).2

/-! ## Rounding of `FloatString(0)` -/

theorem roundNat_eq (a d : ℕ) (hd : 0 < d) :
    (if d ≤ 2 * (a % d) then a / d + 1 else a / d) = (2 * a + d) / (2 * d) := by
  have hmod : a % d < d := Nat.mod_lt a hd
  have hdiv : d * (a / d) + a % d = a := Nat.div_add_mod a d
  have h2d : 0 < 2 * d := by omega
  have hsplit : 2 * a + d = (2 * (a % d) + d) + 2 * d * (a / d) := by
    have : 2 * d * (a / d) = 2 * (d * (a / d)) := by ring
    omega
  rw [hsplit, Nat.add_mul_div_left _ _ h2d]
  by_cases hc : d ≤ 2 * (a % d)
  · rw [if_pos hc]
    have : (2 * (a % d) + d) / (2 * d) = 1 := by
      apply Nat.div_eq_of_lt_le <;> omega
    omega
  · rw [if_neg hc]
    have : (2 * (a % d) + d) / (2 * d) = 0 := Nat.div_eq_of_lt (by omega)
    omega

theorem floor_add_half (a d : ℕ) (hd : 0 < d) :
    ⌊((a : ℚ) / (d : ℚ)) + 1 / 2⌋ = (((2 * a + d) / (2 * d) : ℕ) : ℤ) := by
  have hd' : (d : ℚ) ≠ 0 := by exact_mod_cast (Nat.pos_iff_ne_zero.1 hd)
  have h : ((a : ℚ) / (d : ℚ)) + 1 / 2 = (((2 * a + d : ℕ) : ℤ) : ℚ) / ((2 * d : ℕ) : ℚ) := by
    push_cast
    field_simp
    ring
  rw [h, Rat.floor_intCast_div_natCast]
  norm_cast

theorem floatString0_of_nonneg {x : ℚ} (hx : 0 ≤ x) : floatString0 x = ⌊x + 1 / 2⌋ := by
  have hnum : 0 ≤ x.num := Rat.num_nonneg.2 hx
  have hxd : x = ((x.num.natAbs : ℕ) : ℚ) / (x.den : ℚ) := by
    have h2 : ((x.num.natAbs : ℕ) : ℚ) = (x.num : ℚ) := by
      rw [Nat.cast_natAbs, abs_of_nonneg hnum]
    rw [h2, Rat.num_div_den]
  have key := floor_add_half x.num.natAbs x.den x.den_pos
  rw [← hxd] at key
  rw [key]
  unfold floatString0
  simp only [not_lt.2 hnum, if_false]
  exact_mod_cast roundNat_eq x.num.natAbs x.den x.den_pos

theorem floatString0_of_neg {x : ℚ} (hx : x < 0) : floatString0 x = -⌊-x + 1 / 2⌋ := by
  have hnum : x.num < 0 := Rat.num_neg.2 hx
  have hxd : -x = ((x.num.natAbs : ℕ) : ℚ) / (x.den : ℚ) := by
    have h2 : ((x.num.natAbs : ℕ) : ℚ) = -(x.num : ℚ) := by
      rw [Nat.cast_natAbs, abs_of_neg hnum, Int.cast_neg]
    rw [h2, neg_div, Rat.num_div_den]
  have key := floor_add_half x.num.natAbs x.den x.den_pos
  rw [← hxd] at key
  rw [key]
  unfold floatString0
  simp only [hnum, if_true]
  congr 1
  exact_mod_cast roundNat_eq x.num.natAbs x.den x.den_pos

theorem floatString0_intCast (n : ℤ) : floatString0 (n : ℚ) = n := by
  rcases le_or_lt 0 n with h | h
  · rw [floatString0_of_nonneg (by exact_mod_cast h)]
    rw [Int.floor_eq_iff]
    constructor <;> norm_num
  · rw [floatString0_of_neg (by exact_mod_cast h)]
    have : ⌊-(n : ℚ) + 1 / 2⌋ = -n := by
      rw [Int.floor_eq_iff]
      constructor <;> push_cast <;> norm_num
    rw [this, neg_neg]

theorem floatString0_nonneg {x : ℚ} (hx : 0 ≤ x) : 0 ≤ floatString0 x := by
  rw [floatString0_of_nonneg hx]
  exact Int.floor_nonneg.2 (by positivity)

/-! ## Rate ratios and `CVSquare` -/

theorem Int64_of_nonneg_lt {x : ℤ} (h0 : 0 ≤ x) (h1 : x < 2 ^ 63) : Int64 x = x := by
  unfold Int64
  have hx : ((x.natAbs : ℕ) : ℤ) = x := Int.natAbs_of_nonneg h0
  have hlt : x.natAbs < 2 ^ 64 := by
    have : ((x.natAbs : ℕ) : ℤ) < 2 ^ 64 := by rw [hx]; omega
    exact_mod_cast this
  have hmod : x.natAbs % 2 ^ 64 = x.natAbs := Nat.mod_eq_of_lt hlt
  simp only [hmod, hx, h1, if_true, not_lt.2 h0, if_false]

theorem rateRatios_bounds (scale : ℤ) (hs : 0 ≤ scale) :
    ∀ (os : List FilledOrder) (rs : List ℤ), rateRatios scale os = some (.ok rs) →
    (∀ o ∈ os, 0 ≤ o.RateAmountS) →
    rs.length = os.length ∧ ∀ r ∈ rs, 0 ≤ r ∧ r ≤ scale
  | [], rs, h, _ => by
    simp only [rateRatios, Option.some.injEq, Except.ok.injEq] at h
    subst h
    simp
  | o :: rest, rs, h, hpos => by
    unfold rateRatios at h
    simp only at h
    split at h
    · simp at h
    · rename_i hle
      simp only [Option.bind_eq_some] at h
      obtain ⟨ratio, hratio, res, hres, h⟩ := h
      cases res with
      | error er => simp at h
      | ok ratios =>
        simp only [Option.some.injEq, Except.ok.injEq] at h
        subst h
        obtain ⟨hlen, hb⟩ := rateRatios_bounds scale hs rest ratios hres
          (fun o' ho' => hpos o' (List.mem_cons_of_mem _ ho'))
        refine ⟨by simp [hlen], ?_⟩
        intro r hr
        rcases List.mem_cons.1 hr with rfl | hr
        · unfold intDiv at hratio
          split at hratio
          · cases hratio
          · rename_i hne
            simp only [Option.some.injEq] at hratio
            subst hratio
            have h0 : 0 ≤ floatString0 o.RateAmountS :=
              floatString0_nonneg (hpos o (List.mem_cons_self _ _))
            have hle' : floatString0 o.RateAmountS ≤
                ((o.OrderState.RawOrder.AmountS.natAbs : ℕ) : ℤ) := not_lt.1 hle
            have hd : (0 : ℤ) < ((o.OrderState.RawOrder.AmountS.natAbs : ℕ) : ℤ) :=
              lt_of_le_of_ne (Int.natCast_nonneg _) (Ne.symm hne)
            constructor
            · exact Int.ediv_nonneg (mul_nonneg hs h0) (le_of_lt hd)
            · exact Int.ediv_le_of_le_mul hd (mul_le_mul_of_nonneg_left hle' hs)
        · exact hb r hr

theorem sum_bounds (scale : ℤ) : ∀ (rs : List ℤ), (∀ r ∈ rs, 0 ≤ r ∧ r ≤ scale) →
    0 ≤ rs.sum ∧ rs.sum ≤ (rs.length : ℤ) * scale
  | [], _ => by simp
  | r :: rest, h => by
    have h1 := h r (List.mem_cons_self _ _)
    have h2 := sum_bounds scale rest (fun r' hr' => h r' (List.mem_cons_of_mem _ hr'))
    simp only [List.sum_cons, List.length_cons]
    push_cast
    constructor
    · linarith
    · linarith

theorem sumsq_bounds (scale avg : ℤ) (ha : 0 ≤ avg ∧ avg ≤ scale) :
    ∀ (rs : List ℤ), (∀ r ∈ rs, 0 ≤ r ∧ r ≤ scale) →
    0 ≤ (rs.map fun ratio => (ratio - avg) * (ratio - avg)).sum ∧
    (rs.map fun ratio => (ratio - avg) * (ratio - avg)).sum ≤
      (rs.length : ℤ) * (scale * scale)
  | [], _ => by simp
  | r :: rest, h => by
    have h1 := h r (List.mem_cons_self _ _)
    have h2 := sumsq_bounds scale avg ha rest
      (fun r' hr' => h r' (List.mem_cons_of_mem _ hr'))
    simp only [List.map_cons, List.sum_cons, List.length_cons]
    push_cast
    have h3 : 0 ≤ (r - avg) * (r - avg) := mul_self_nonneg _
    have h4 : (r - avg) * (r - avg) ≤ scale * scale := by
      have hab : |r - avg| ≤ scale := by
        rw [abs_le]; constructor <;> linarith [h1.1, h1.2, ha.1, ha.2]
      have := mul_self_le_mul_self (abs_nonneg (r - avg)) hab
      rwa [abs_mul_abs_self] at this
    constructor
    · linarith [h2.1]
    · linarith [h2.2]

/-- With every ratio between 0 and `scale`, a returned `CVSquare` lies between 0
and `2 * scale ^ 4`. -/
theorem CVSquare_bounds {rs : List ℤ} {scale c : ℤ} (hs : 0 ≤ scale)
    (hr : ∀ r ∈ rs, 0 ≤ r ∧ r ≤ scale) (h : CVSquare rs scale = some c) :
    0 ≤ c ∧ c ≤ 2 * (scale * scale * (scale * scale)) := by
  simp only [CVSquare, intDiv, Option.bind_eq_some] at h
  obtain ⟨avg, havg, c1, hc1, c2, hc2, hc⟩ := h
  split at havg
  · cases havg
  rename_i hn
  simp only [Option.some.injEq] at havg
  split at hc1
  · cases hc1
  rename_i hav
  simp only [Option.some.injEq] at hc1
  split at hc2
  · cases hc2
  simp only [Option.some.injEq] at hc2
  split at hc
  · cases hc
  rename_i hn1
  simp only [Option.some.injEq] at hc
  have hnpos : (0 : ℤ) < (rs.length : ℤ) :=
    lt_of_le_of_ne (Int.natCast_nonneg _) (Ne.symm hn)
  obtain ⟨hsum0, hsum1⟩ := sum_bounds scale rs hr
  have havg0 : 0 ≤ avg := by
    rw [← havg]; exact Int.ediv_nonneg hsum0 (le_of_lt hnpos)
  have havg1 : avg ≤ scale := by
    rw [← havg]
    exact Int.ediv_le_of_le_mul hnpos (by linarith [mul_comm (rs.length : ℤ) scale])
  have havgpos : 0 < avg := lt_of_le_of_ne havg0 (Ne.symm hav)
  obtain ⟨hq0, hq1⟩ := sumsq_bounds scale avg ⟨havg0, havg1⟩ rs hr
  have hn1pos : (0 : ℤ) < (rs.length : ℤ) - 1 := by
    have : (1 : ℤ) ≤ (rs.length : ℤ) := by omega
    exact lt_of_le_of_ne (by omega) (Ne.symm hn1)
  have hc1a : 0 ≤ c1 := by
    rw [← hc1]; exact Int.ediv_nonneg (mul_nonneg hq0 hs) havg0
  have hc1b : c1 ≤ (rs.length : ℤ) * (scale * scale) * scale := by
    rw [← hc1]
    refine le_trans (Int.ediv_le_self _ (mul_nonneg hq0 hs)) ?_
    exact mul_le_mul_of_nonneg_right hq1 hs
  have hc2a : 0 ≤ c2 := by
    rw [← hc2]; exact Int.ediv_nonneg (mul_nonneg hc1a hs) havg0
  have hc2b : c2 ≤ (rs.length : ℤ) * (scale * scale) * scale * scale := by
    rw [← hc2]
    refine le_trans (Int.ediv_le_self _ (mul_nonneg hc1a hs)) ?_
    exact mul_le_mul_of_nonneg_right hc1b hs
  constructor
  · rw [← hc]; exact Int.ediv_nonneg hc2a (le_of_lt hn1pos)
  · rw [← hc]
    apply Int.ediv_le_of_le_mul hn1pos
    have hss : 0 ≤ scale * scale * (scale * scale) := by positivity
    have hn2 : (rs.length : ℤ) ≤ 2 * ((rs.length : ℤ) - 1) := by omega
    calc c2 ≤ (rs.length : ℤ) * (scale * scale) * scale * scale := hc2b
      _ = (rs.length : ℤ) * (scale * scale * (scale * scale)) := by ring
      _ ≤ 2 * ((rs.length : ℤ) - 1) * (scale * scale * (scale * scale)) :=
          mul_le_mul_of_nonneg_right hn2 hss
      _ = 2 * (scale * scale * (scale * scale)) * ((rs.length : ℤ) - 1) := by ring

/-- With non-negative `RateAmountS` on every leg, a CVS that
`PriceRateCVSquare` returns fits an `int64`. -/
theorem PriceRateCVSquare_Int64 {r : Ring} {cvs : ℤ}
    (hpos : ∀ o ∈ r.Orders, 0 ≤ o.RateAmountS)
    (h : PriceRateCVSquare r = some (.ok cvs)) : 0 ≤ cvs ∧ Int64 cvs = cvs := by
  simp only [PriceRateCVSquare, Option.bind_eq_some] at h
  obtain ⟨res, hres, h⟩ := h
  cases res with
  | error er => simp at h
  | ok rs =>
    simp only [Option.bind_eq_some, Option.some.injEq, Except.ok.injEq] at h
    obtain ⟨c, hc, rfl⟩ := h
    obtain ⟨-, hb⟩ := rateRatios_bounds 10000 (by norm_num) _ _ hres hpos
    obtain ⟨h0, h1⟩ := CVSquare_bounds (by norm_num) hb hc
    exact ⟨h0, Int64_of_nonneg_lt h0 (lt_of_le_of_lt h1 (by norm_num))⟩

/-! ## The ring between the phases -/

theorem computeVolume_mem {env : Env} {ring r1 : Ring} (h : computeVolume env ring = some r1) :
    ∀ a ∈ r1.Orders, ∃ o ∈ ring.Orders, ∃ f, a = o.priced.reduced r1.ReducedRate f := by
  obtain ⟨-, rate, os2, m, -, -, hrr, -, hlen, -, hS, -, -, -⟩ := computeVolume_spec h
  intro a ha
  obtain ⟨j, hj⟩ := List.mem_iff_getElem?.1 ha
  have hjn : j < ring.Orders.length := by
    have := (List.getElem?_eq_some.1 hj).1
    omega
  obtain ⟨f, hf⟩ := hS j _ (List.getElem?_eq_getElem hjn)
  rw [hj] at hf
  cases hf
  exact ⟨_, List.getElem_mem hjn, f, by rw [hrr]⟩

theorem computeFee_mem {e : Evaluator} {env : Env} {r1 r : Ring}
    (h : e.computeFeeOfRingAndOrder env r1 = some r) :
    ∀ a ∈ r.Orders, ∃ a1 ∈ r1.Orders, ∃ x1 x2 x3 x4,
      a = { a1 with FeeS := x1, LrcFee := x2, LegalLrcFee := x3, LegalFeeS := x4 } := by
  obtain ⟨-, -, -, hback⟩ := computeFee_frame h
  intro a ha
  obtain ⟨j, hj⟩ := List.mem_iff_getElem?.1 ha
  obtain ⟨a1, ha1, -, hx⟩ := hback j a hj
  exact ⟨a1, List.mem_iff_getElem?.2 ⟨j, ha1⟩, hx⟩

/-- With non-zero amounts, a non-zero float root and known tokens the volume
and fee phases of `ComputeRing` complete. -/
theorem phases_isSome {e : Evaluator} {env : Env} {ring : Ring} {rate : ℚ}
    (hne : ∀ o ∈ ring.Orders, o.OrderState.RawOrder.AmountS ≠ 0 ∧
      o.OrderState.RawOrder.AmountB ≠ 0)
    (hrate : env.rootOfRing (productPrice ring.Orders) ring.Orders.length = some rate)
    (hr : rate ≠ 0) (hk : e.KnownTokens env ring.Orders) :
    ∃ r1 r2, computeVolume env ring = some r1 ∧ r1.ReducedRate = rate⁻¹ ∧
      e.computeFeeOfRingAndOrder env r1 = some r2 := by
  obtain ⟨r1, hr1⟩ := computeVolume_isSome hne hrate hr
  have hmem := computeVolume_mem hr1
  obtain ⟨-, rate', _, _, hrate', -, hrr, -⟩ := computeVolume_spec hr1
  rw [hrate] at hrate'
  cases hrate'
  obtain ⟨r2, hr2⟩ := computeFee_isSome e env r1
    (by
      intro a ha
      obtain ⟨o, ho, f, rfl⟩ := hmem a ha
      exact hne o ho)
    (by
      intro a ha
      obtain ⟨o, ho, f, rfl⟩ := hmem a ha
      exact hk o ho)
  exact ⟨r1, r2, hr1, hrr, hr2⟩

theorem phases_rateAmountS {e : Evaluator} {env : Env} {ring r1 r2 : Ring}
    (h1 : computeVolume env ring = some r1)
    (h2 : e.computeFeeOfRingAndOrder env r1 = some r2) :
    ∀ a ∈ r2.Orders, ∃ o ∈ ring.Orders, a.OrderState = o.OrderState ∧
      a.RateAmountS = (o.OrderState.RawOrder.AmountS : ℚ) * r1.ReducedRate := by
  intro a ha
  obtain ⟨a1, ha1, _, _, _, _, rfl⟩ := computeFee_mem h2 a ha
  obtain ⟨o, ho, f, rfl⟩ := computeVolume_mem h1 a1 ha1
  exact ⟨o, ho, rfl, rfl⟩

theorem ComputeRing_of_phases {e : Evaluator} {env : Env} {ring r1 r2 : Ring}
    {res : Except MinerError ℤ}
    (h1 : computeVolume env ring = some r1)
    (h2 : e.computeFeeOfRingAndOrder env r1 = some r2)
    (h3 : PriceRateCVSquare r2 = some res) :
    e.ComputeRing env ring = some (r2,
      match res with
      | .error er => some er
      | .ok cvs =>
        if Int64 cvs ≤ e.rateRatioCVSThreshold then none
        else some MinerError.cvsExceedsThreshold) := by
  simp only [Evaluator.ComputeRing, h1, h2, h3, Option.some_bind]
  cases res with
  | error er => rfl
  | ok cvs =>
    simp only
    split <;> rfl

/-! ## Rings whose legs all have the same rate ratio -/

theorem rateRatios_uniform (scale c : ℤ) : ∀ (os : List FilledOrder),
    (∀ o ∈ os, o.OrderState.RawOrder.AmountS ≠ 0 ∧
      floatString0 o.RateAmountS ≤ ((o.OrderState.RawOrder.AmountS.natAbs : ℕ) : ℤ) ∧
      Int.ediv (scale * floatString0 o.RateAmountS)
        ((o.OrderState.RawOrder.AmountS.natAbs : ℕ) : ℤ) = c) →
    rateRatios scale os = some (.ok (List.replicate os.length c))
  | [], _ => rfl
  | o :: rest, h => by
    obtain ⟨h1, h2, h3⟩ := h o (List.mem_cons_self _ _)
    have ih := rateRatios_uniform scale c rest
      (fun o' ho' => h o' (List.mem_cons_of_mem _ ho'))
    have hne : ((o.OrderState.RawOrder.AmountS.natAbs : ℕ) : ℤ) ≠ 0 := by
      simpa using h1
    unfold rateRatios
    simp only [not_lt.2 h2, if_false, intDiv, hne, Option.some_bind, h3, ih,
      List.length_cons, List.replicate_succ]

theorem sum_replicate_int (n : ℕ) (c : ℤ) : (List.replicate n c).sum = (n : ℤ) * c := by
  induction n with
  | zero => simp
  | succ n ih => simp [List.replicate_succ, ih]; ring

theorem sumsq_replicate (n : ℕ) (c : ℤ) :
    ((List.replicate n c).map fun ratio => (ratio - c) * (ratio - c)).sum = 0 := by
  induction n with
  | zero => simp
  | succ n ih => simp [List.replicate_succ]

/-- Equal ratios have no variation: `CVSquare` of `n ≥ 2` copies of a non-zero
ratio is 0. -/
theorem CVSquare_replicate (n : ℕ) (c scale : ℤ) (hn : 2 ≤ n) (hc : c ≠ 0) :
    CVSquare (List.replicate n c) scale = some 0 := by
  have hn0 : (n : ℤ) ≠ 0 := by
    have : (2 : ℤ) ≤ (n : ℤ) := by exact_mod_cast hn
    omega
  have hn1 : (n : ℤ) - 1 ≠ 0 := by
    have : (2 : ℤ) ≤ (n : ℤ) := by exact_mod_cast hn
    omega
  have havg : Int.ediv ((n : ℤ) * c) (n : ℤ) = c := Int.mul_ediv_cancel_left c hn0
  have h0 : ∀ y : ℤ, Int.ediv 0 y = 0 := fun y => Int.zero_ediv y
  simp only [CVSquare, intDiv, List.length_replicate, sum_replicate_int, hn0, if_false,
    Option.some_bind, havg, sumsq_replicate, hc, zero_mul, hn1, h0]

theorem PriceRateCVSquare_uniform {r : Ring} (c : ℤ) (hn : 2 ≤ r.Orders.length) (hc : c ≠ 0)
    (h : ∀ o ∈ r.Orders, o.OrderState.RawOrder.AmountS ≠ 0 ∧
      floatString0 o.RateAmountS ≤ ((o.OrderState.RawOrder.AmountS.natAbs : ℕ) : ℤ) ∧
      Int.ediv (10000 * floatString0 o.RateAmountS)
        ((o.OrderState.RawOrder.AmountS.natAbs : ℕ) : ℤ) = c) :
    PriceRateCVSquare r = some (.ok 0) := by
  simp only [PriceRateCVSquare, rateRatios_uniform 10000 c r.Orders h, Option.some_bind,
    CVSquare_replicate _ c 10000 hn hc]

theorem phases_frame {e : Evaluator} {env : Env} {ring r1 r2 : Ring}
    (h1 : computeVolume env ring = some r1)
    (h2 : e.computeFeeOfRingAndOrder env r1 = some r2) :
    r2.ReducedRate = r1.ReducedRate ∧ r2.Orders.length = ring.Orders.length := by
  obtain ⟨-, _, _, _, -, -, -, -, hlen, -⟩ := computeVolume_spec h1
  obtain ⟨hrr, hlen', -, -⟩ := computeFee_frame h2
  exact ⟨hrr, by omega⟩

/-- A ring of at least two legs with positive amounts, known tokens and a
non-negative threshold, in which every leg gets the same non-zero rate ratio
`c`, is admitted with CVS 0. -/
theorem admitted_of_uniform (e : Evaluator) (env : Env) (ring : Ring) {rate : ℚ} (c : ℤ)
    (hpos : ∀ o ∈ ring.Orders,
      0 < o.OrderState.RawOrder.AmountS ∧ 0 < o.OrderState.RawOrder.AmountB)
    (hrate : env.rootOfRing (productPrice ring.Orders) ring.Orders.length = some rate)
    (hrr : 0 < rate⁻¹) (hk : e.KnownTokens env ring.Orders)
    (hn : 2 ≤ ring.Orders.length) (hc : c ≠ 0) (hthr : 0 ≤ e.rateRatioCVSThreshold)
    (hleg : ∀ o ∈ ring.Orders,
      floatString0 ((o.OrderState.RawOrder.AmountS : ℚ) * rate⁻¹) ≤
        o.OrderState.RawOrder.AmountS ∧
      Int.ediv (10000 * floatString0 ((o.OrderState.RawOrder.AmountS : ℚ) * rate⁻¹))
        o.OrderState.RawOrder.AmountS = c) :
    ∃ r, e.ComputeRing env ring = some (r, none) ∧ r.ReducedRate = rate⁻¹ ∧
      r.Orders.length = ring.Orders.length ∧
      rateRatios 10000 r.Orders = some (.ok (List.replicate r.Orders.length c)) ∧
      PriceRateCVSquare r = some (.ok 0) := by
  have hr0 : rate ≠ 0 := by
    intro h0; simp [h0] at hrr
  obtain ⟨r1, r2, h1, hrr1, h2⟩ := phases_isSome (amounts_ne_zero hpos) hrate hr0 hk
  obtain ⟨hrr2, hlen⟩ := phases_frame h1 h2
  have hlegs : ∀ a ∈ r2.Orders, a.OrderState.RawOrder.AmountS ≠ 0 ∧
      floatString0 a.RateAmountS ≤ ((a.OrderState.RawOrder.AmountS.natAbs : ℕ) : ℤ) ∧
      Int.ediv (10000 * floatString0 a.RateAmountS)
        ((a.OrderState.RawOrder.AmountS.natAbs : ℕ) : ℤ) = c := by
    intro a ha
    obtain ⟨o, ho, hos, hra⟩ := phases_rateAmountS h1 h2 a ha
    have hS := (hpos o ho).1
    have habs : ((o.OrderState.RawOrder.AmountS.natAbs : ℕ) : ℤ) =
        o.OrderState.RawOrder.AmountS := Int.natAbs_of_nonneg (le_of_lt hS)
    rw [hra, hrr1, hos, habs]
    exact ⟨ne_of_gt hS, hleg o ho⟩
  have hcvs := PriceRateCVSquare_uniform c (by omega) hc hlegs
  refine ⟨r2, ?_, by rw [hrr2, hrr1], hlen, rateRatios_uniform 10000 c _ hlegs, hcvs⟩
  rw [ComputeRing_of_phases h1 h2 hcvs]
  have : Int64 0 = 0 := by decide
  simp [this, hthr]

/-- A ring of at least two legs with positive amounts whose float root is 1, with
known tokens and a non-negative threshold, is admitted with reduced rate 1 and
CVS 0: every `RateAmountS` is the integer `AmountS`, every rate ratio 10000. -/
theorem admitted_of_root_one (e : Evaluator) (env : Env) (ring : Ring)
    (hpos : ∀ o ∈ ring.Orders,
      0 < o.OrderState.RawOrder.AmountS ∧ 0 < o.OrderState.RawOrder.AmountB)
    (hrate : env.rootOfRing (productPrice ring.Orders) ring.Orders.length = some 1)
    (hk : e.KnownTokens env ring.Orders)
    (hn : 2 ≤ ring.Orders.length) (hthr : 0 ≤ e.rateRatioCVSThreshold) :
    ∃ r, e.ComputeRing env ring = some (r, none) ∧ r.ReducedRate = 1 ∧
      PriceRateCVSquare r = some (.ok 0) := by
  obtain ⟨r, hr, hrr, -, -, hcvs⟩ := admitted_of_uniform e env ring
    10000 hpos hrate (by norm_num) hk hn (by norm_num) hthr
    (by
      intro o ho
      have hS := (hpos o ho).1
      have h1 : ((o.OrderState.RawOrder.AmountS : ℚ) * (1 : ℚ)⁻¹) =
          ((o.OrderState.RawOrder.AmountS : ℤ) : ℚ) := by simp
      rw [h1, floatString0_intCast]
      exact ⟨le_refl _, Int.mul_ediv_cancel _ (ne_of_gt hS)⟩)
  exact ⟨r, hr, by simpa using hrr, hcvs⟩

/-- The fee pass leg by leg: with non-zero amounts and known tokens it
completes, and leg `i` of the result is leg `i` of the ring with its four fee
fields set from `savingOfOrder`, `lrcFeeOfOrder` and the provider. -/
theorem computeFee_legs {e : Evaluator} {env : Env} {ring : Ring}
    (hne : ∀ o ∈ ring.Orders, o.OrderState.RawOrder.AmountS ≠ 0 ∧
      o.OrderState.RawOrder.AmountB ≠ 0)
    (hk : e.KnownTokens env ring.Orders) :
    ∃ r, e.computeFeeOfRingAndOrder env ring = some r ∧
      r.Orders.length = ring.Orders.length ∧
      ∀ (i : ℕ) (o : FilledOrder), ring.Orders[i]? = some o →
        ∃ saving legalSaving lrcFee legalLrc,
          savingOfOrder ring.ReducedRate o = some (saving, o.savingToken) ∧
          e.getLegalCurrency o.savingToken saving = some (some legalSaving) ∧
          lrcFeeOfOrder o = some lrcFee ∧
          e.getLegalCurrency (env.lrcAddress o.OrderState.RawOrder.Protocol) lrcFee =
            some (some legalLrc) ∧
          r.Orders[i]? = some { o with
            FeeS := saving, LrcFee := lrcFee, LegalLrcFee := legalLrc,
            LegalFeeS := legalSaving * (o.OrderState.RawOrder.MarginSplitPercentage : ℚ) } := by
  obtain ⟨r, hr⟩ := computeFee_isSome e env ring hne hk
  obtain ⟨-, hlen, hfwd, -⟩ := computeFee_frame hr
  refine ⟨r, hr, hlen, ?_⟩
  intro i o ho
  obtain ⟨a, ha, hfee, -⟩ := hfwd i o ho
  obtain ⟨saving, legalSaving, lrcFee, legalLrc, h1, h2, h3, h4, rfl⟩ :=
    computeFeeOfOrder_spec hfee
  exact ⟨saving, legalSaving, lrcFee, legalLrc, h1, h2, h3, h4, ha⟩

theorem feeRing_ne_zero : ∀ o ∈ feeRing.Orders, o.OrderState.RawOrder.AmountS ≠ 0 ∧
    o.OrderState.RawOrder.AmountB ≠ 0 := by
  simp [feeRing, feeLeg0, feeLeg1]

theorem legalFeeOfOrders_foldl : ∀ (os : List FilledOrder) (init : ℚ),
    os.foldl (fun legalFee order =>
      if order.LegalLrcFee < order.LegalFeeS then legalFee + order.LegalFeeS
      else legalFee + order.LegalLrcFee) init =
    init + (os.map fun o => max o.LegalLrcFee o.LegalFeeS).sum
  | [], init => by simp
  | o :: rest, init => by
    simp only [List.foldl_cons, List.map_cons, List.sum_cons]
    rw [legalFeeOfOrders_foldl rest]
    by_cases h : o.LegalLrcFee < o.LegalFeeS
    · rw [if_pos h, max_eq_right (le_of_lt h)]; ring
    · rw [if_neg h, max_eq_left (not_lt.1 h)]; ring

theorem legalFeeOfOrders_eq (os : List FilledOrder) :
    legalFeeOfOrders os = (os.map fun o => max o.LegalLrcFee o.LegalFeeS).sum := by
  unfold legalFeeOfOrders
  rw [legalFeeOfOrders_foldl, zero_add]

/-! ## Facts on the example data -/

theorem skewedRing_rate :
    exampleEnv.rootOfRing (productPrice skewedRing.Orders) skewedRing.Orders.length =
      some 10 := by
  have h : productPrice skewedRing.Orders = 100 := by
    simp [productPrice, skewedRing, leg]
    norm_num
  rw [h]
  simp [exampleEnv, exampleRoot, skewedRing]

/-- The volumes of the ring A: 1000/500, B: 500/10 under reduced rate 1/10: leg B
is the minimum-volume leg and sells its 500, leg A is cut back to sell 100 and
buy those 500. -/
theorem skewedRing_volume :
    (computeVolume exampleEnv skewedRing).map
        (fun r => r.Orders.map fun o => (o.FillAmountS, o.FillAmountB)) =
      some [(100, 500), (500, 100)] := by
  norm_num [computeVolume, forwardOfRing, priceLoop, ratQuo, ratInv, forwardPass, forwardLeg,
    backwardLoop, backwardStep, completionLoop, completionStep, skewedRing, leg, exampleEnv,
    exampleRoot]

theorem skewedRing_pos : ∀ o ∈ skewedRing.Orders,
    0 < o.OrderState.RawOrder.AmountS ∧ 0 < o.OrderState.RawOrder.AmountB := by
  simp [skewedRing, leg]

theorem exampleEvaluator_knows (env : Env) (os : List FilledOrder) :
    exampleEvaluator.KnownTokens env os := by
  intro o _
  refine ⟨?_, ?_, ?_⟩ <;> exact fun amount => ⟨amount, none, rfl⟩

/-- The tabulated root at 1/2 is the binary64 number nearest to the square root
of 1/2: it is `m / 2^53` with `2^52 ≤ m < 2^53`, and 1/2 lies strictly between
the squares of its two half-ulp neighbours. -/
theorem exampleEnv_root_half :
    exampleEnv.rootOfRing (1 / 2) 2 = some ((6369051672525773 : ℚ) / 2 ^ 53) ∧
    (2 : ℚ) ^ 52 ≤ 6369051672525773 ∧ (6369051672525773 : ℚ) < 2 ^ 53 ∧
    ((6369051672525773 : ℚ) / 2 ^ 53 - 1 / 2 ^ 54) ^ 2 < 1 / 2 ∧
    (1 / 2 : ℚ) < ((6369051672525773 : ℚ) / 2 ^ 53 + 1 / 2 ^ 54) ^ 2 := by
  refine ⟨?_, by norm_num, by norm_num, by norm_num, by norm_num⟩
  simp [exampleEnv, exampleRoot]
  norm_num

theorem underUnitRing_rate :
    exampleEnv.rootOfRing (productPrice underUnitRing.Orders) underUnitRing.Orders.length =
      some (6369051672525773 / 9007199254740992) := by
  have h : productPrice underUnitRing.Orders = 1 / 2 := by
    simp [productPrice, underUnitRing, leg]
  rw [h]
  simp [exampleEnv, exampleRoot, underUnitRing]
  norm_num

/-- The ring A: 1000 S for 500 B, B: 500 S for 10 B under a float root of 10:
the reduced rate is 1/10, both legs get the rate ratio 1000, the CVS is 0 and
the ring is admitted under any non-negative threshold. -/
theorem skewed_admitted (e : Evaluator) (env : Env) (ring : Ring) {a b : FilledOrder}
    (hring : ring.Orders = [a, b])
    (ha : a.OrderState.RawOrder.AmountS = 1000 ∧ a.OrderState.RawOrder.AmountB = 500)
    (hb : b.OrderState.RawOrder.AmountS = 500 ∧ b.OrderState.RawOrder.AmountB = 10)
    (hroot : env.rootOfRing 100 2 = some 10)
    (hk : e.KnownTokens env ring.Orders) (hthr : 0 ≤ e.rateRatioCVSThreshold) :
    ∃ r, e.ComputeRing env ring = some (r, none) ∧ r.ReducedRate = 1 / 10 ∧
      rateRatios 10000 r.Orders = some (.ok [1000, 1000]) ∧
      PriceRateCVSquare r = some (.ok 0) := by
  have hpos : ∀ o ∈ ring.Orders,
      0 < o.OrderState.RawOrder.AmountS ∧ 0 < o.OrderState.RawOrder.AmountB := by
    intro o ho
    rw [hring] at ho
    simp only [List.mem_cons, List.mem_singleton, List.not_mem_nil, or_false] at ho
    rcases ho with rfl | rfl
    · rw [ha.1, ha.2]; exact ⟨by norm_num, by norm_num⟩
    · rw [hb.1, hb.2]; exact ⟨by norm_num, by norm_num⟩
  have hP : productPrice ring.Orders = 100 := by
    simp only [productPrice, hring, List.map_cons, List.map_nil, List.prod_cons,
      List.prod_nil, mul_one, ha.1, ha.2, hb.1, hb.2]
    norm_num
  have hrate : env.rootOfRing (productPrice ring.Orders) ring.Orders.length = some 10 := by
    rw [hP, hring]; exact hroot
  have hfa : floatString0 (((1000 : ℤ) : ℚ) * (10 : ℚ)⁻¹) = 100 := by
    have : (((1000 : ℤ) : ℚ) * (10 : ℚ)⁻¹) = ((100 : ℤ) : ℚ) := by norm_num
    rw [this, floatString0_intCast]
  have hfb : floatString0 (((500 : ℤ) : ℚ) * (10 : ℚ)⁻¹) = 50 := by
    have : (((500 : ℤ) : ℚ) * (10 : ℚ)⁻¹) = ((50 : ℤ) : ℚ) := by norm_num
    rw [this, floatString0_intCast]
  obtain ⟨r, hr, hrr, hlen, hrat, hcvs⟩ := admitted_of_uniform e env
    ring 1000 hpos hrate (by norm_num) hk (by simp [hring]) (by norm_num) hthr
    (by
      intro o ho
      rw [hring] at ho
      simp only [List.mem_cons, List.mem_singleton, List.not_mem_nil, or_false] at ho
      rcases ho with rfl | rfl
      · rw [ha.1, hfa]; exact ⟨by norm_num, by decide⟩
      · rw [hb.1, hfb]; exact ⟨by norm_num, by decide⟩)
  refine ⟨r, hr, by rw [hrr]; norm_num, ?_, hcvs⟩
  rw [hrat, hlen, hring]
  rfl

/-- The ring A: 1 S for 1 B, B: 1 S for 2 B has price
product 1/2, below 1; with the binary64 square root of 1/2 the reduced rate is
`2^53 / 6369051672525773`, about 1.414, and `ComputeRing` returns success: each
`RateAmountS` is about 1.414, which `FloatString(0)` rounds to 1, not above
`AmountS = 1`. -/
theorem underUnitRing_admitted :
    productPrice underUnitRing.Orders < 1 ∧
    ∃ r, exampleEvaluator.ComputeRing exampleEnv underUnitRing = some (r, none) ∧
      r.ReducedRate = 9007199254740992 / 6369051672525773 ∧ 1 < r.ReducedRate := by
  constructor
  · simp [productPrice, underUnitRing, leg]
    norm_num
  · have hfs : floatString0 ((1 : ℚ) * (6369051672525773 / 9007199254740992 : ℚ)⁻¹) = 1 := by
      rw [floatString0_of_nonneg (by norm_num), Int.floor_eq_iff]
      constructor <;> norm_num
    obtain ⟨r, hr, hrr, -, -, -⟩ := admitted_of_uniform exampleEvaluator
      exampleEnv underUnitRing 10000
      (by simp [underUnitRing, leg]) underUnitRing_rate (by norm_num)
      (exampleEvaluator_knows _ _) (by simp [underUnitRing]) (by norm_num)
      (by simp [exampleEvaluator, NewEvaluator])
      (by
        intro o ho
        simp only [underUnitRing, leg, List.mem_cons, List.mem_singleton,
          List.not_mem_nil, or_false] at ho
        rcases ho with rfl | rfl
        · simp only [Int.cast_one]
          rw [hfs]
          exact ⟨le_refl _, by decide⟩
        · simp only [Int.cast_one]
          rw [hfs]
          exact ⟨le_refl _, by decide⟩)
    refine ⟨r, hr, ?_, ?_⟩
    · rw [hrr]; norm_num
    · rw [hrr]; norm_num

theorem nearUnitRing_rate :
    exampleEnv.rootOfRing (productPrice nearUnitRing.Orders) nearUnitRing.Orders.length =
      some 1 := by
  have h : productPrice nearUnitRing.Orders =
      1000000000000000000 / 1000000000000000001 := by
    simp [productPrice, nearUnitRing, leg]
    norm_num
  rw [h]
  simp [exampleEnv, exampleRoot, nearUnitRing]
  norm_num

/-- The price product of the near-unit ring is below 1 by less than `2^-54`,
half the distance from 1 to the float under it: the float nearest to it is 1. -/
theorem nearUnitRing_rounds_to_one :
    productPrice nearUnitRing.Orders < 1 ∧
    1 - productPrice nearUnitRing.Orders < 1 / 2 ^ 54 := by
  have h : productPrice nearUnitRing.Orders =
      1000000000000000000 / 1000000000000000001 := by
    simp [productPrice, nearUnitRing, leg]
    norm_num
  rw [h]
  constructor <;> norm_num

/-- The near-unit ring, of price product below 1, is admitted with reduced rate
1: each `RateAmountS` is `AmountS` itself. -/
theorem nearUnitRing_admitted :
    productPrice nearUnitRing.Orders < 1 ∧
    ∃ r, exampleEvaluator.ComputeRing exampleEnv nearUnitRing = some (r, none) ∧
      r.ReducedRate = 1 := by
  refine ⟨nearUnitRing_rounds_to_one.1, ?_⟩
  obtain ⟨r, hr, hrr, -⟩ := admitted_of_root_one exampleEvaluator exampleEnv nearUnitRing
    (by simp [nearUnitRing, leg]) nearUnitRing_rate (exampleEvaluator_knows _ _)
    (by simp [nearUnitRing]) (by simp [exampleEvaluator, NewEvaluator])
  exact ⟨r, hr, hrr⟩

/-! ## Reduced prices of the legs after the volume and fee passes -/

/-- Leg by leg, the sell price the two passes leave is the order's price times
the reduced rate. -/
theorem phases_sPrice {e : Evaluator} {env : Env} {ring r1 r2 : Ring}
    (h1 : computeVolume env ring = some r1)
    (h2 : e.computeFeeOfRingAndOrder env r1 = some r2) :
    r2.Orders.map (fun a => a.SPrice) =
      ring.Orders.map (fun o => (o.OrderState.RawOrder.AmountS : ℚ) /
        (o.OrderState.RawOrder.AmountB : ℚ) * r1.ReducedRate) := by
  obtain ⟨-, rate, os2, m, -, -, hrr, -, hlen, -, hS, -, -, -⟩ := computeVolume_spec h1
  obtain ⟨-, hlen2, hfee, -⟩ := computeFee_frame h2
  apply List.ext_getElem?
  intro j
  simp only [List.getElem?_map]
  cases hj : ring.Orders[j]? with
  | none =>
    have hjn : ring.Orders.length ≤ j := List.getElem?_eq_none_iff.1 hj
    have : r2.Orders[j]? = none := List.getElem?_eq_none_iff.2 (by omega)
    simp [this]
  | some o =>
    obtain ⟨f, hf⟩ := hS j o hj
    obtain ⟨a, ha, -, x1, x2, x3, x4, rfl⟩ := hfee j _ hf
    simp [ha, hrr, FilledOrder.reduced, FilledOrder.priced]

theorem prod_price_mul (c : ℚ) : ∀ (os : List FilledOrder),
    (os.map (fun o => (o.OrderState.RawOrder.AmountS : ℚ) /
      (o.OrderState.RawOrder.AmountB : ℚ) * c)).prod = c ^ os.length * productPrice os
  | [] => by simp [productPrice]
  | o :: rest => by
    have ih := prod_price_mul c rest
    simp only [productPrice] at ih ⊢
    simp only [List.map_cons, List.prod_cons, List.length_cons, ih, pow_succ]
    rw [mul_div_mul_comm]
    ring

/-- After the two passes the product of the reduced sell prices is
`reducedRate ^ n * P`. -/
theorem phases_sPrice_prod {e : Evaluator} {env : Env} {ring r1 r2 : Ring}
    (h1 : computeVolume env ring = some r1)
    (h2 : e.computeFeeOfRingAndOrder env r1 = some r2) :
    (r2.Orders.map (fun a => a.SPrice)).prod =
      r1.ReducedRate ^ ring.Orders.length * productPrice ring.Orders := by
  rw [phases_sPrice h1 h2, prod_price_mul]

/-! ## The rate ratios and the CVS in closed form -/

/-- When no leg trips the guard of line 229 and every `AmountS` is non-zero,
the loop of `PriceRateCVSquare` returns the rate ratio of every leg. -/
theorem rateRatios_ok (scale : ℤ) : ∀ (os : List FilledOrder),
    (∀ o ∈ os, o.OrderState.RawOrder.AmountS ≠ 0 ∧
      floatString0 o.RateAmountS ≤ ((o.OrderState.RawOrder.AmountS.natAbs : ℕ) : ℤ)) →
    rateRatios scale os = some (.ok (os.map (rateRatio scale)))
  | [], _ => rfl
  | o :: rest, h => by
    obtain ⟨h1, h2⟩ := h o (List.mem_cons_self _ _)
    have ih := rateRatios_ok scale rest (fun o' ho' => h o' (List.mem_cons_of_mem _ ho'))
    have hne : ((o.OrderState.RawOrder.AmountS.natAbs : ℕ) : ℤ) ≠ 0 := by
      simpa using h1
    unfold rateRatios
    simp only [not_lt.2 h2, if_false, intDiv, hne, Option.some_bind, ih, List.map_cons,
      rateRatio]

/-- With at least two ratios and a non-zero floored mean `CVSquare` returns, and
its value is three nested integer quotients. -/
theorem CVSquare_eq (ratios : List ℤ) (scale : ℤ) (hn : 2 ≤ ratios.length)
    (havg : ratios.sum / (ratios.length : ℤ) ≠ 0) :
    CVSquare ratios scale =
      some ((ratios.map fun ratio =>
          (ratio - ratios.sum / (ratios.length : ℤ)) *
            (ratio - ratios.sum / (ratios.length : ℤ))).sum * scale /
        (ratios.sum / (ratios.length : ℤ)) * scale / (ratios.sum / (ratios.length : ℤ)) /
        ((ratios.length : ℤ) - 1)) := by
  have hn0 : (ratios.length : ℤ) ≠ 0 := by
    have : (2 : ℤ) ≤ (ratios.length : ℤ) := by exact_mod_cast hn
    omega
  have hn1 : (ratios.length : ℤ) - 1 ≠ 0 := by
    have : (2 : ℤ) ≤ (ratios.length : ℤ) := by exact_mod_cast hn
    omega
  have hdiv : ∀ x y : ℤ, Int.ediv x y = x / y := fun _ _ => rfl
  simp only [CVSquare, intDiv, hdiv, hn0, if_false, Option.some_bind, havg, hn1]

theorem sum_map_intCast (f : ℤ → ℤ) : ∀ (l : List ℤ),
    (((l.map f).sum : ℤ) : ℚ) = (l.map fun r => ((f r : ℤ) : ℚ)).sum
  | [] => by simp
  | r :: rest => by
    have ih := sum_map_intCast f rest
    simp only [List.map_cons, List.sum_cons, Int.cast_add, ih]

/-- When the mean is an integer and the three quotients of `CVSquare` are exact,
the value is the formula of the specification. -/
theorem CVSquare_exact (ratios : List ℤ) (scale : ℤ) (hn : 2 ≤ ratios.length)
    (havg : ratios.sum / (ratios.length : ℤ) ≠ 0)
    (hmean : (ratios.length : ℤ) ∣ ratios.sum)
    (h1 : ratios.sum / (ratios.length : ℤ) ∣
      (ratios.map fun ratio =>
          (ratio - ratios.sum / (ratios.length : ℤ)) *
            (ratio - ratios.sum / (ratios.length : ℤ))).sum * scale)
    (h2 : ratios.sum / (ratios.length : ℤ) ∣
      (ratios.map fun ratio =>
          (ratio - ratios.sum / (ratios.length : ℤ)) *
            (ratio - ratios.sum / (ratios.length : ℤ))).sum * scale /
        (ratios.sum / (ratios.length : ℤ)) * scale)
    (h3 : (ratios.length : ℤ) - 1 ∣
      (ratios.map fun ratio =>
          (ratio - ratios.sum / (ratios.length : ℤ)) *
            (ratio - ratios.sum / (ratios.length : ℤ))).sum * scale /
        (ratios.sum / (ratios.length : ℤ)) * scale / (ratios.sum / (ratios.length : ℤ))) :
    ((((ratios.map fun ratio =>
          (ratio - ratios.sum / (ratios.length : ℤ)) *
            (ratio - ratios.sum / (ratios.length : ℤ))).sum * scale /
        (ratios.sum / (ratios.length : ℤ)) * scale / (ratios.sum / (ratios.length : ℤ)) /
        ((ratios.length : ℤ) - 1) : ℤ)) : ℚ) =
      CVSquareSpec (ratios.map fun (ratio : ℤ) => (ratio : ℚ)) scale := by
  have hn0 : ((ratios.length : ℤ) : ℚ) ≠ 0 := by
    have : (2 : ℤ) ≤ (ratios.length : ℤ) := by exact_mod_cast hn
    have h : (ratios.length : ℤ) ≠ 0 := by omega
    exact_mod_cast h
  have hn1 : (((ratios.length : ℤ) - 1 : ℤ) : ℚ) ≠ 0 := by
    have : (2 : ℤ) ≤ (ratios.length : ℤ) := by exact_mod_cast hn
    have h : (ratios.length : ℤ) - 1 ≠ 0 := by omega
    exact_mod_cast h
  have ha0 : ((ratios.sum / (ratios.length : ℤ) : ℤ) : ℚ) ≠ 0 := by exact_mod_cast havg
  have hmu : (ratios.map fun (ratio : ℤ) => (ratio : ℚ)).sum / (ratios.length : ℚ) =
      ((ratios.sum / (ratios.length : ℤ) : ℤ) : ℚ) := by
    rw [Int.cast_div hmean hn0]
    have := sum_map_intCast (fun r => r) ratios
    simp only [List.map_id'] at this
    rw [this, Int.cast_natCast]
  rw [Int.cast_div h3 hn1, Int.cast_div h2 ha0, Int.cast_mul, Int.cast_div h1 ha0,
    Int.cast_mul, sum_map_intCast]
  simp only [CVSquareSpec, List.length_map, List.map_map, hmu]
  have hsum : (ratios.map fun r => (((r - ratios.sum / (ratios.length : ℤ)) *
        (r - ratios.sum / (ratios.length : ℤ)) : ℤ) : ℚ)) =
      ratios.map ((fun (ratio : ℚ) =>
        (ratio - ((ratios.sum / (ratios.length : ℤ) : ℤ) : ℚ)) ^ 2) ∘
          fun (ratio : ℤ) => (ratio : ℚ)) := by
    apply List.map_congr_left
    intro r _
    simp only [Function.comp, Int.cast_mul, Int.cast_sub]
    ring
  rw [hsum]
  generalize (ratios.map ((fun (ratio : ℚ) =>
        (ratio - ((ratios.sum / (ratios.length : ℤ) : ℤ) : ℚ)) ^ 2) ∘
          fun (ratio : ℤ) => (ratio : ℚ))).sum = X
  generalize hA : ((ratios.sum / (ratios.length : ℤ) : ℤ) : ℚ) = A at ha0
  have hn1q : (ratios.length : ℚ) - 1 ≠ 0 := by
    have := hn1
    push_cast at this
    exact this
  push_cast
  field_simp
  ring

/-- Leg by leg, `AmountS` and `RateAmountS` after the volume and fee passes. -/
theorem phases_legs {e : Evaluator} {env : Env} {ring r1 r2 : Ring}
    (h1 : computeVolume env ring = some r1)
    (h2 : e.computeFeeOfRingAndOrder env r1 = some r2) :
    r2.Orders.map (fun a => (a.OrderState.RawOrder.AmountS, a.RateAmountS)) =
      ring.Orders.map (fun o => (o.OrderState.RawOrder.AmountS,
        (o.OrderState.RawOrder.AmountS : ℚ) * r1.ReducedRate)) := by
  obtain ⟨-, rate, os2, m, -, -, hrr, -, hlen, -, hS, -, -, -⟩ := computeVolume_spec h1
  obtain ⟨-, hlen2, hfee, -⟩ := computeFee_frame h2
  apply List.ext_getElem?
  intro j
  simp only [List.getElem?_map]
  cases hj : ring.Orders[j]? with
  | none =>
    have hjn : ring.Orders.length ≤ j := List.getElem?_eq_none_iff.1 hj
    have : r2.Orders[j]? = none := List.getElem?_eq_none_iff.2 (by omega)
    simp [this]
  | some o =>
    obtain ⟨f, hf⟩ := hS j o hj
    obtain ⟨a, ha, -, x1, x2, x3, x4, rfl⟩ := hfee j _ hf
    simp [ha, hrr, FilledOrder.reduced, FilledOrder.priced]

theorem map_rateRatio (scale : ℤ) (os : List FilledOrder) :
    os.map (rateRatio scale) =
      (os.map (fun a => (a.OrderState.RawOrder.AmountS, a.RateAmountS))).map
        (fun p => Int.ediv (scale * floatString0 p.2) ((p.1.natAbs : ℕ) : ℤ)) := by
  simp [List.map_map, Function.comp, rateRatio]

theorem map_rateRatioSpec (scale : ℤ) (os : List FilledOrder) :
    os.map (rateRatioSpec scale) =
      (os.map (fun a => (a.OrderState.RawOrder.AmountS, a.RateAmountS))).map
        (fun p => (scale : ℚ) * p.2 / (p.1 : ℚ)) := by
  simp [List.map_map, Function.comp, rateRatioSpec]

/-- The ring A: 3 S for 1 B, B: 4 S for 3 B under the float root 2 of its price
product 4: `RateAmountS` is 3/2 and 2, rounded to 2 and 2, so the rate ratios
of the code are 6666 and 5000 where the exact ones are both 5000, the CVS of the
code is 4078832, and under threshold 0 the ring is rejected. -/
theorem roundingRing_rejected :
    ∃ r, exampleEvaluator.ComputeRing exampleEnv roundingRing =
        some (r, some MinerError.cvsExceedsThreshold) ∧
      rateRatios 10000 r.Orders = some (.ok [6666, 5000]) ∧
      r.Orders.map (rateRatioSpec 10000) = [5000, 5000] ∧
      PriceRateCVSquare r = some (.ok 4078832) := by
  have hP : productPrice roundingRing.Orders = 4 := by
    simp [productPrice, roundingRing, leg]
  have hrate : exampleEnv.rootOfRing (productPrice roundingRing.Orders)
      roundingRing.Orders.length = some 2 := by
    rw [hP]; simp [exampleEnv, exampleRoot, roundingRing]
  obtain ⟨r1, r2, h1, hrr1, h2⟩ := phases_isSome (e := exampleEvaluator)
    (by simp [roundingRing, leg]) hrate (by norm_num) (exampleEvaluator_knows _ _)
  have hlegs := phases_legs h1 h2
  rw [hrr1] at hlegs
  have hpairs : r2.Orders.map (fun a => (a.OrderState.RawOrder.AmountS, a.RateAmountS)) =
      [((3 : ℤ), (3 / 2 : ℚ)), ((4 : ℤ), (2 : ℚ))] := by
    rw [hlegs]
    simp [roundingRing, leg]
    norm_num
  have hf1 : floatString0 (3 / 2 : ℚ) = 2 := by
    rw [floatString0_of_nonneg (by norm_num), Int.floor_eq_iff]
    constructor <;> norm_num
  have hf2 : floatString0 (2 : ℚ) = 2 := by
    rw [floatString0_of_nonneg (by norm_num), Int.floor_eq_iff]
    constructor <;> norm_num
  have hguard : ∀ a ∈ r2.Orders, a.OrderState.RawOrder.AmountS ≠ 0 ∧
      floatString0 a.RateAmountS ≤ ((a.OrderState.RawOrder.AmountS.natAbs : ℕ) : ℤ) := by
    intro a ha
    have hm : (a.OrderState.RawOrder.AmountS, a.RateAmountS) ∈
        r2.Orders.map (fun a => (a.OrderState.RawOrder.AmountS, a.RateAmountS)) :=
      List.mem_map.2 ⟨a, ha, rfl⟩
    rw [hpairs] at hm
    simp only [List.mem_cons, Prod.mk.injEq, List.mem_singleton, List.not_mem_nil,
      or_false] at hm
    rcases hm with ⟨hS, hR⟩ | ⟨hS, hR⟩
    · rw [hS, hR, hf1]; decide
    · rw [hS, hR, hf2]; decide
  have hratios : r2.Orders.map (rateRatio 10000) = [6666, 5000] := by
    rw [map_rateRatio, hpairs]
    simp only [List.map_cons, List.map_nil, hf1, hf2]
    decide
  have hrr := rateRatios_ok 10000 r2.Orders hguard
  rw [hratios] at hrr
  have hcvs : PriceRateCVSquare r2 = some (.ok 4078832) := by
    have hc : CVSquare [6666, 5000] 10000 = some 4078832 := by decide
    simp only [PriceRateCVSquare, hrr, Option.some_bind, hc]
  refine ⟨r2, ?_, hrr, ?_, hcvs⟩
  · rw [ComputeRing_of_phases h1 h2 hcvs]
    have h64 : Int64 4078832 = 4078832 := by decide
    simp [h64, exampleEvaluator, NewEvaluator]
  · rw [map_rateRatioSpec, hpairs]
    simp only [List.map_cons, List.map_nil]
    norm_num

/-! ## The quote loop of `syncMarketCap` -/

/-- The `minVolumeIdx` that the forward pass returns: after it no leg has its
`AvailableAmountS` reached by the tentative `FillAmountB` of the leg before, and
when it is the index of a leg with a leg before, that leg has. -/
theorem forwardPass_minIdx (rr : ℚ) : ∀ (os : List FilledOrder) (last : Option FilledOrder)
    (idx m : ℕ) (os' : List FilledOrder) (m' : ℕ),
    forwardPass rr last idx m os = some (os', m') →
    (m < idx ∨ (last = none ∧ m = idx)) →
    (∀ (j : ℕ) (a b : FilledOrder), os'[j]? = some a → os'[j + 1]? = some b →
      m' < idx + j + 1 → a.FillAmountB < b.AvailableAmountS) ∧
    (∀ (l b : FilledOrder), last = some l → os'[0]? = some b → m' < idx →
      l.FillAmountB < b.AvailableAmountS) ∧
    (∀ j, m' = idx + j + 1 → ∃ a b, os'[j]? = some a ∧ os'[j + 1]? = some b ∧
      b.AvailableAmountS ≤ a.FillAmountB) ∧
    (∀ l : FilledOrder, last = some l → m' = idx →
      ∃ b, os'[0]? = some b ∧ b.AvailableAmountS ≤ l.FillAmountB)
  | [], last, idx, m, os', m', h, hm => by
    simp only [forwardPass, Option.some.injEq, Prod.mk.injEq] at h
    obtain ⟨rfl, rfl⟩ := h
    refine ⟨?_, ?_, ?_, ?_⟩
    · intro j a b hj; simp at hj
    · intro l b _ hb; simp at hb
    · intro j hj
      rcases hm with hm | ⟨_, hm⟩ <;> omega
    · intro l hl hidx
      rcases hm with hm | ⟨hn, _⟩
      · omega
      · rw [hl] at hn; cases hn
  | o :: rest, last, idx, m, os', m', h, hm => by
    simp only [forwardPass, Option.bind_eq_some, Option.some.injEq, Prod.mk.injEq,
      Prod.exists] at h
    obtain ⟨o', m1, hleg, rest', m2, hrest, rfl, rfl⟩ := h
    obtain ⟨hz, f, rfl, hsel⟩ := forwardLeg_eq hleg
    have hm1' : m1 = m ∨ m1 = idx := by
      rcases hsel with ⟨_, _, h⟩ | ⟨l, _, _, _, h⟩ | ⟨l, _, _, _, h⟩
      · exact Or.inl h
      · exact Or.inr h
      · exact Or.inl h
    have hm1 : m1 < idx + 1 ∨
        ((some (o.reduced rr f) : Option FilledOrder) = none ∧ m1 = idx + 1) := by
      left
      rcases hm1' with h | h
      · rcases hm with hm | ⟨_, hm⟩ <;> omega
      · omega
    obtain ⟨-, hrange, -, -, -, -⟩ :=
      forwardPass_spec rr rest (some (o.reduced rr f)) (idx + 1) m1 rest' m2 hrest hm1
    obtain ⟨hA, hH, hB, hBH⟩ :=
      forwardPass_minIdx rr rest (some (o.reduced rr f)) (idx + 1) m1 rest' m2 hrest hm1
    refine ⟨?_, ?_, ?_, ?_⟩
    · intro j a b ha hb hlt
      cases j with
      | zero =>
        simp only [List.getElem?_cons_zero, Option.some.injEq, zero_add,
          List.getElem?_cons_succ] at ha hb
        subst ha
        exact hH _ b rfl hb (by omega)
      | succ j =>
        simp only [List.getElem?_cons_succ] at ha hb
        exact hA j a b ha hb (by omega)
    · intro l b hl hb hlt
      simp only [List.getElem?_cons_zero, Option.some.injEq] at hb
      subst hb
      rcases hsel with ⟨hn, _, _⟩ | ⟨l', hl', hle, hf, rfl⟩ | ⟨l', hl', hlt', hf, _⟩
      · rw [hl] at hn; cases hn
      · rcases hrange with h' | ⟨h', _⟩ <;> omega
      · rw [hl] at hl'; cases hl'
        exact hlt'
    · intro j hj
      cases j with
      | zero =>
        obtain ⟨b, hb, hle⟩ := hBH _ rfl (by omega)
        exact ⟨_, b, by simp, by simpa using hb, hle⟩
      | succ j =>
        obtain ⟨a, b, ha, hb, hle⟩ := hB j (by omega)
        exact ⟨a, b, by simpa using ha, by simpa using hb, hle⟩
    · intro l hl hidx
      have hm2 : m2 = m1 := by
        rcases hrange with h | ⟨h, _⟩
        · exact h
        · omega
      rcases hsel with ⟨hn, _, _⟩ | ⟨l', hl', hle, hf, _⟩ | ⟨l', hl', _, _, hm1m⟩
      · rw [hl] at hn; cases hn
      · rw [hl] at hl'; cases hl'
        exact ⟨o.reduced rr f, by simp, hle⟩
      · rcases hm with hm | ⟨hn, _⟩
        · omega
        · rw [hl] at hn; cases hn

/-! ## Closing the ring across the wrap-around pair -/

theorem chained_tail {a : FilledOrder} {L : List FilledOrder} (h : Chained (a :: L)) :
    Chained L := by
  intro i x y hx hy
  exact h (i + 1) x y (by simpa using hx) (by simpa using hy)

/-- Along a chain of legs each filled at its price, the buy fill of the last leg
is the sell fill of the first over the product of the sell prices. -/
theorem chain_last_fill : ∀ (L : List FilledOrder) (a : FilledOrder),
    (∀ x ∈ a :: L, x.FillAmountB = x.FillAmountS * x.SPrice⁻¹) → Chained (a :: L) →
    ∃ z, (a :: L).getLast? = some z ∧
      z.FillAmountB = a.FillAmountS * (((a :: L).map fun x => x.SPrice).prod)⁻¹
  | [], a, hfill, _ => by
    refine ⟨a, rfl, ?_⟩
    simp [hfill a (List.mem_cons_self _ _)]
  | b :: L, a, hfill, hc => by
    obtain ⟨z, hz, hzf⟩ := chain_last_fill L b
      (fun x hx => hfill x (List.mem_cons_of_mem _ hx)) (chained_tail hc)
    refine ⟨z, by rw [List.getLast?_cons_cons]; exact hz, ?_⟩
    have hab : a.FillAmountB = b.FillAmountS := hc 0 a b (by simp) (by simp)
    rw [hzf, ← hab, hfill a (List.mem_cons_self _ _)]
    simp only [List.map_cons, List.prod_cons, mul_inv]
    ring

/-- The volume pass leg by leg: `SPrice` is the order's price times the reduced
rate and `FillAmountB` is `FillAmountS` over `SPrice`. -/
theorem volume_sPrice {env : Env} {ring r1 : Ring} (h1 : computeVolume env ring = some r1) :
    r1.Orders.map (fun a => a.SPrice) =
      ring.Orders.map (fun o => (o.OrderState.RawOrder.AmountS : ℚ) /
        (o.OrderState.RawOrder.AmountB : ℚ) * r1.ReducedRate) ∧
    ∀ a ∈ r1.Orders, a.FillAmountB = a.FillAmountS * a.SPrice⁻¹ := by
  obtain ⟨-, rate, os2, m, -, -, hrr, -, hlen, -, hS, -, -, -⟩ := computeVolume_spec h1
  constructor
  · apply List.ext_getElem?
    intro j
    simp only [List.getElem?_map]
    cases hj : ring.Orders[j]? with
    | none =>
      have hjn : ring.Orders.length ≤ j := List.getElem?_eq_none_iff.1 hj
      have : r1.Orders[j]? = none := List.getElem?_eq_none_iff.2 (by omega)
      simp [this]
    | some o =>
      obtain ⟨f, hf⟩ := hS j o hj
      simp [hf, hrr, FilledOrder.reduced, FilledOrder.priced]
  · intro a ha
    obtain ⟨o, -, f, rfl⟩ := computeVolume_mem h1 a ha
    rfl

/-- The float root of an exact reduction is not zero. -/
theorem rate_ne_zero_of_exact {env : Env} {os : List FilledOrder} {rate : ℚ}
    (hrate : env.rootOfRing (productPrice os) os.length = some rate)
    (hexact : rate⁻¹ ^ os.length * productPrice os = 1) : rate ≠ 0 := by
  intro h0
  subst h0
  cases hn : os.length with
  | zero =>
    have hnil : os = [] := List.length_eq_zero.1 hn
    subst hnil
    have := env.rootOfRing_one 0
    simp [productPrice] at hrate
    rw [this] at hrate
    simp at hrate
  | succ k =>
    rw [hn] at hexact
    simp at hexact

/-! ## The currency of a tag -/

/-- The stored price that a tag selects: the USD or BTC price when the
upper-cased tag is "USD" or "BTC", the CNY price for every other tag. -/
theorem GetMarketCapByCurrency_tag (toUpper : String → String) (currencyStr : String)
    (c : CurrencyMarketCap) :
    c.price (StringToLegalCurrency toUpper currencyStr) =
      if toUpper currencyStr = "USD" then c.PriceUsd
      else if toUpper currencyStr = "BTC" then c.PriceBtc
      else c.PriceCny := by
  by_cases h1 : toUpper currencyStr = "CNY"
  · simp [StringToLegalCurrency, CurrencyMarketCap.price, h1]
  · by_cases h2 : toUpper currencyStr = "USD"
    · simp [StringToLegalCurrency, CurrencyMarketCap.price, h2]
    · by_cases h3 : toUpper currencyStr = "BTC"
      · simp [StringToLegalCurrency, CurrencyMarketCap.price, h3]
      · simp [StringToLegalCurrency, CurrencyMarketCap.price, h1, h2, h3]

/-! ## `ComputeRing` reads only the inputs of the legs -/

theorem priceLoop_inputs (β : ℚ → ℚ) : ∀ (os : List FilledOrder) (pS pB : ℚ),
    priceLoop pS pB (os.map (FilledOrder.inputs β)) =
      (priceLoop pS pB os).map (fun res => (res.1.map (FilledOrder.afterPrices β), res.2))
  | [], pS, pB => rfl
  | o :: rest, pS, pB => by
    have ih := priceLoop_inputs β rest (pS * o.OrderState.RawOrder.AmountS)
      (pB * o.OrderState.RawOrder.AmountB)
    simp only [List.map_cons, priceLoop]
    have h1 : (FilledOrder.inputs β o).OrderState = o.OrderState := rfl
    rw [h1, ih]
    cases ratQuo (o.OrderState.RawOrder.AmountS : ℚ) (o.OrderState.RawOrder.AmountB : ℚ) with
    | none => rfl
    | some sPrice =>
      cases ratQuo (o.OrderState.RawOrder.AmountB : ℚ) (o.OrderState.RawOrder.AmountS : ℚ) with
      | none => rfl
      | some bPrice =>
        cases priceLoop (pS * o.OrderState.RawOrder.AmountS)
          (pB * o.OrderState.RawOrder.AmountB) rest with
        | none => rfl
        | some res => rfl

theorem forwardLeg_inputs (β : ℚ → ℚ) (rr : ℚ) (last : Option FilledOrder) (idx m : ℕ)
    (o : FilledOrder) :
    forwardLeg rr (last.map (FilledOrder.afterVolumes β)) idx m (FilledOrder.afterPrices β o) =
      (forwardLeg rr last idx m o).map (fun res => (FilledOrder.afterVolumes β res.1, res.2)) := by
  have h1 : (FilledOrder.afterPrices β o).SPrice = o.SPrice := rfl
  have h3 : (FilledOrder.afterPrices β o).AvailableAmountS = o.AvailableAmountS := rfl
  unfold forwardLeg ratInv
  rw [h1, h3]
  by_cases hz : o.SPrice * rr = 0
  · simp [hz]
  · cases last with
    | none =>
      simp only [hz, if_false, Option.some_bind, Option.map_none', Option.map_some']
      rfl
    | some l =>
      have h2 : (FilledOrder.afterVolumes β l).FillAmountB = l.FillAmountB := rfl
      simp only [hz, if_false, Option.some_bind, Option.map_some', h2]
      by_cases hc : o.AvailableAmountS ≤ l.FillAmountB
      · simp only [hc, if_true]; rfl
      · simp only [hc, if_false]; rfl

theorem forwardPass_inputs (β : ℚ → ℚ) (rr : ℚ) : ∀ (os : List FilledOrder)
    (last : Option FilledOrder) (idx m : ℕ),
    forwardPass rr (last.map (FilledOrder.afterVolumes β)) idx m
        (os.map (FilledOrder.afterPrices β)) =
      (forwardPass rr last idx m os).map
        (fun res => (res.1.map (FilledOrder.afterVolumes β), res.2))
  | [], last, idx, m => rfl
  | o :: rest, last, idx, m => by
    simp only [List.map_cons, forwardPass, forwardLeg_inputs]
    cases forwardLeg rr last idx m o with
    | none => rfl
    | some leg =>
      have ih := forwardPass_inputs β rr rest (some leg.1) (idx + 1) leg.2
      simp only [Option.map_some', Option.some_bind] at ih ⊢
      rw [ih]
      cases forwardPass rr (some leg.1) (idx + 1) leg.2 rest with
      | none => rfl
      | some res => rfl

theorem backwardStep_inputs (β : ℚ → ℚ) (os : List FilledOrder) (i : ℕ) :
    backwardStep (os.map (FilledOrder.afterVolumes β)) i =
      (backwardStep os i).map (List.map (FilledOrder.afterVolumes β)) := by
  unfold backwardStep
  simp only [List.getElem?_map]
  cases os[i]? with
  | none => rfl
  | some order =>
    cases os[i + 1]? with
    | none => rfl
    | some nextOrder =>
      simp only [Option.map_some', List.map_set]
      rfl

theorem backwardLoop_inputs (β : ℚ → ℚ) : ∀ (k : ℕ) (os : List FilledOrder),
    backwardLoop (os.map (FilledOrder.afterVolumes β)) k =
      (backwardLoop os k).map (List.map (FilledOrder.afterVolumes β))
  | 0, os => rfl
  | k + 1, os => by
    simp only [backwardLoop, backwardStep_inputs]
    cases backwardStep os k with
    | none => rfl
    | some os1 =>
      simp only [Option.map_some', Option.some_bind]
      exact backwardLoop_inputs β k os1

theorem completionStep_inputs (β : ℚ → ℚ) (os : List FilledOrder) (i : ℕ) :
    completionStep (os.map (FilledOrder.afterVolumes β)) i =
      (completionStep os i).map (List.map (FilledOrder.afterVolumes β)) := by
  unfold completionStep
  simp only [List.getElem?_map]
  cases os[i]? with
  | none => rfl
  | some order =>
    cases os[i - 1]? with
    | none => rfl
    | some lastOrder =>
      by_cases hi : i = 0
      · simp [hi]
      · simp only [Option.map_some', hi, if_false, List.map_set]
        rfl

theorem completionLoop_inputs (β : ℚ → ℚ) : ∀ (count i : ℕ) (os : List FilledOrder),
    completionLoop (os.map (FilledOrder.afterVolumes β)) i count =
      (completionLoop os i count).map (List.map (FilledOrder.afterVolumes β))
  | 0, i, os => rfl
  | count + 1, i, os => by
    simp only [completionLoop, completionStep_inputs]
    cases completionStep os i with
    | none => rfl
    | some os1 =>
      simp only [Option.map_some', Option.some_bind]
      exact completionLoop_inputs β count (i + 1) os1

theorem forwardOfRing_inputs (β : ℚ → ℚ) (env : Env) (os : List FilledOrder) (x y : ℚ) :
    forwardOfRing env { Orders := os.map (FilledOrder.inputs β), ReducedRate := x } =
      (forwardOfRing env { Orders := os, ReducedRate := y }).map
        (fun fwd => (fwd.1.map (FilledOrder.afterVolumes β), fwd.2)) := by
  simp only [forwardOfRing, priceLoop_inputs, List.length_map]
  cases priceLoop 1 1 os with
  | none => rfl
  | some priced =>
    simp only [Option.map_some', Option.some_bind]
    cases ratQuo priced.2.1 priced.2.2 with
    | none => rfl
    | some productPrice =>
      simp only [Option.some_bind]
      cases env.rootOfRing productPrice os.length with
      | none => rfl
      | some rate =>
        simp only [Option.some_bind]
        cases ratInv rate with
        | none => rfl
        | some reducedRate =>
          have h := forwardPass_inputs β reducedRate priced.1 none 0 0
          simp only [Option.map_none'] at h
          simp only [Option.some_bind, h]
          cases forwardPass reducedRate none 0 0 priced.1 with
          | none => rfl
          | some fwd => rfl

theorem computeVolume_inputs (β : ℚ → ℚ) (env : Env) (os : List FilledOrder) (x y : ℚ) :
    computeVolume env { Orders := os.map (FilledOrder.inputs β), ReducedRate := x } =
      (computeVolume env { Orders := os, ReducedRate := y }).map
        (fun r => { Orders := r.Orders.map (FilledOrder.afterVolumes β),
                    ReducedRate := r.ReducedRate }) := by
  simp only [computeVolume, forwardOfRing_inputs β env os x y]
  cases forwardOfRing env { Orders := os, ReducedRate := y } with
  | none => rfl
  | some fwd =>
    simp only [Option.map_some', Option.some_bind, backwardLoop_inputs]
    cases backwardLoop fwd.1 fwd.2.1 with
    | none => rfl
    | some orders3 =>
      simp only [Option.map_some', Option.some_bind, completionLoop_inputs, List.length_map]
      cases completionLoop orders3 (fwd.2.1 + 1) (orders3.length - (fwd.2.1 + 1)) with
      | none => rfl
      | some orders4 => rfl

theorem computeFeeOfOrder_inputs (β : ℚ → ℚ) (e : Evaluator) (env : Env) (rr : ℚ)
    (o : FilledOrder) :
    e.computeFeeOfOrder env rr (FilledOrder.afterVolumes β o) =
      (e.computeFeeOfOrder env rr o).map (FilledOrder.withAvailableAmountB β) := by
  have h1 : savingOfOrder rr (FilledOrder.afterVolumes β o) = savingOfOrder rr o := rfl
  have h2 : lrcFeeOfOrder (FilledOrder.afterVolumes β o) = lrcFeeOfOrder o := rfl
  have h3 : (FilledOrder.afterVolumes β o).OrderState = o.OrderState := rfl
  simp only [Evaluator.computeFeeOfOrder, h1, h2, h3]
  cases savingOfOrder rr o with
  | none => rfl
  | some saving =>
    simp only [Option.some_bind]
    cases e.getLegalCurrency saving.2 saving.1 with
    | none => rfl
    | some legalAmountOfSaving =>
      simp only [Option.some_bind]
      cases lrcFeeOfOrder o with
      | none => rfl
      | some lrcFee =>
        simp only [Option.some_bind]
        cases e.getLegalCurrency (env.lrcAddress o.OrderState.RawOrder.Protocol) lrcFee with
        | none => rfl
        | some legalAmountOfLrc =>
          simp only [Option.some_bind]
          cases legalAmountOfLrc with
          | none => rfl
          | some legalLrc =>
            cases legalAmountOfSaving with
            | none => rfl
            | some legalSaving => rfl

theorem feeLoop_inputs (β : ℚ → ℚ) (e : Evaluator) (env : Env) (rr : ℚ) :
    ∀ (os : List FilledOrder),
    e.feeLoop env rr (os.map (FilledOrder.afterVolumes β)) =
      (e.feeLoop env rr os).map (List.map (FilledOrder.withAvailableAmountB β))
  | [] => rfl
  | o :: rest => by
    simp only [List.map_cons, Evaluator.feeLoop, computeFeeOfOrder_inputs, feeLoop_inputs β e env rr rest]
    cases e.computeFeeOfOrder env rr o with
    | none => rfl
    | some order1 =>
      simp only [Option.map_some', Option.some_bind]
      cases e.feeLoop env rr rest with
      | none => rfl
      | some rest1 => rfl

theorem rateRatios_inputs (β : ℚ → ℚ) (scale : ℤ) : ∀ (os : List FilledOrder),
    rateRatios scale (os.map (FilledOrder.withAvailableAmountB β)) = rateRatios scale os
  | [] => rfl
  | o :: rest => by
    have h1 : (FilledOrder.withAvailableAmountB β o).RateAmountS = o.RateAmountS := rfl
    have h2 : (FilledOrder.withAvailableAmountB β o).OrderState = o.OrderState := rfl
    simp only [List.map_cons, rateRatios, h1, h2, rateRatios_inputs β scale rest]

/-- The whole of `ComputeRing` on the inputs of a ring: the result is that on
the ring itself, with `AvailableAmountB` passed through `β` on every leg. -/
theorem ComputeRing_inputs (β : ℚ → ℚ) (e : Evaluator) (env : Env) (os : List FilledOrder)
    (x y : ℚ) :
    e.ComputeRing env { Orders := os.map (FilledOrder.inputs β), ReducedRate := x } =
      (e.ComputeRing env { Orders := os, ReducedRate := y }).map
        (fun res => ({ Orders := res.1.Orders.map (FilledOrder.withAvailableAmountB β),
                       ReducedRate := res.1.ReducedRate }, res.2)) := by
  simp only [Evaluator.ComputeRing, computeVolume_inputs β env os x y]
  cases computeVolume env { Orders := os, ReducedRate := y } with
  | none => rfl
  | some ring1 =>
    simp only [Option.map_some', Option.some_bind, Evaluator.computeFeeOfRingAndOrder,
      feeLoop_inputs]
    cases e.feeLoop env ring1.ReducedRate ring1.Orders with
    | none => rfl
    | some orders =>
      simp only [Option.map_some', Option.some_bind, PriceRateCVSquare, rateRatios_inputs]
      cases rateRatios 10000 orders with
      | none => rfl
      | some res =>
        cases res with
        | error err => rfl
        | ok ratios =>
          simp only [Option.some_bind]
          cases CVSquare ratios 10000 with
          | none => rfl
          | some cvs =>
            simp only [Option.some_bind]
            split <;> rfl

theorem withAvailableAmountB_id (o : FilledOrder) :
    FilledOrder.withAvailableAmountB id o = o := by
  cases o
  rfl

theorem map_withAvailableAmountB_id (os : List FilledOrder) :
    os.map (FilledOrder.withAvailableAmountB id) = os := by
  induction os with
  | nil => rfl
  | cons o rest ih => simp only [List.map_cons, withAvailableAmountB_id, ih]

/-- `ComputeRing` on a ring is `ComputeRing` on its inputs. -/
theorem ComputeRing_normal (e : Evaluator) (env : Env) (ring : Ring) :
    e.ComputeRing env ring =
      e.ComputeRing env { Orders := ring.Orders.map (FilledOrder.inputs id), ReducedRate := 0 } := by
  rw [ComputeRing_inputs id e env ring.Orders 0 ring.ReducedRate]
  have heta : ({ Orders := ring.Orders, ReducedRate := ring.ReducedRate } : Ring) = ring := rfl
  rw [heta]
  cases e.ComputeRing env ring with
  | none => rfl
  | some res => simp only [Option.map_some', map_withAvailableAmountB_id]

/-- Changing `AvailableAmountB` on the legs changes nothing else in what
`ComputeRing` returns. -/
theorem ComputeRing_withAvailableAmountB (β : ℚ → ℚ) (e : Evaluator) (env : Env) (ring : Ring) :
    e.ComputeRing env
        { ring with Orders := ring.Orders.map (FilledOrder.withAvailableAmountB β) } =
      (e.ComputeRing env ring).map (fun res =>
        ({ res.1 with Orders := res.1.Orders.map (FilledOrder.withAvailableAmountB β) },
          res.2)) := by
  rw [ComputeRing_normal e env
    { ring with Orders := ring.Orders.map (FilledOrder.withAvailableAmountB β) }]
  have hm : (ring.Orders.map (FilledOrder.withAvailableAmountB β)).map (FilledOrder.inputs id) =
      ring.Orders.map (FilledOrder.inputs β) := by
    rw [List.map_map]
    rfl
  simp only [hm]
  exact ComputeRing_inputs β e env ring.Orders 0 ring.ReducedRate

/-- The fee pass leaves every function of a leg that does not read the four
fee fields. -/
theorem computeFee_map {α : Type} (f : FilledOrder → α)
    (hf : ∀ (a : FilledOrder) (x1 x2 x3 x4 : ℚ),
      f { a with FeeS := x1, LrcFee := x2, LegalLrcFee := x3, LegalFeeS := x4 } = f a)
    {e : Evaluator} {env : Env} {r1 r : Ring}
    (h : e.computeFeeOfRingAndOrder env r1 = some r) :
    r.Orders.map f = r1.Orders.map f := by
  obtain ⟨-, hlen, hfee, -⟩ := computeFee_frame h
  apply List.ext_getElem?
  intro j
  simp only [List.getElem?_map]
  cases hj : r1.Orders[j]? with
  | none =>
    have hjn : r1.Orders.length ≤ j := List.getElem?_eq_none_iff.1 hj
    have : r.Orders[j]? = none := List.getElem?_eq_none_iff.2 (by omega)
    simp [this]
  | some a1 =>
    obtain ⟨a, ha, -, x1, x2, x3, x4, rfl⟩ := hfee j a1 hj
    simp [ha, hf]

/-- The ring that `ComputeRing` returns has the inputs of the ring it got. -/
theorem ComputeRing_output_inputs {e : Evaluator} {env : Env} {ring r : Ring}
    {err : Option MinerError} (h : e.ComputeRing env ring = some (r, err)) :
    r.Orders.map (FilledOrder.inputs id) = ring.Orders.map (FilledOrder.inputs id) := by
  obtain ⟨r1, res, h1, h2, -, -⟩ := ComputeRing_spec h
  rw [computeFee_map (FilledOrder.inputs id) (fun _ _ _ _ _ => rfl) h2]
  obtain ⟨-, rate, os2, m, -, -, hrr, -, hlen, -, hS, -, -, -⟩ := computeVolume_spec h1
  apply List.ext_getElem?
  intro j
  simp only [List.getElem?_map]
  cases hj : ring.Orders[j]? with
  | none =>
    have hjn : ring.Orders.length ≤ j := List.getElem?_eq_none_iff.1 hj
    have : r1.Orders[j]? = none := List.getElem?_eq_none_iff.2 (by omega)
    simp [this]
  | some o =>
    obtain ⟨f, hf⟩ := hS j o hj
    simp only [hf, Option.map_some']
    rfl

/-! ## The constructor of the market-cap provider on the example registry -/

/-- `NewMarketCapProvider` on the example registry, with a first feed that
quotes only "eth", returns a provider and no error: the entry of WETH has the
prices of the quote, the entry of LRC, which the feed does not quote, is as the
token loop made it, without prices, and address 7 has no entry. -/
theorem NewMarketCapProvider_unquoted_token :
    ∃ p, NewMarketCapProvider exampleUpper ("url") ("CNY") 5 exampleTokens
        (Fetched.decoded [some exampleQuote]) = some (Except.ok p) ∧
      p.currency = "CNY" ∧
      p.tokenMarketCaps 1 = some ((freshCap 1 ("ETH") ("WETH") 1000).synced exampleQuote) ∧
      p.tokenMarketCaps 2 = some (freshCap 2 ("LRC") ("LRC") 1000) ∧
      p.tokenMarketCaps 7 = none := by
  exact ⟨_, rfl, rfl, rfl, rfl, rfl⟩

/-- C1. For a ring of any number of legs (so also of two or more) with positive
`AmountS` and `AmountB` and a positive reduced rate, lines 42-148 of `ComputeRing` complete and leave
the fills chained: for every `i` with `1 ≤ i < n` the `FillAmountB` of leg
`i - 1` equals the `FillAmountS` of leg `i`, as exact rationals; and the ring
that `ComputeRing` leaves when it returns (with or without error) is chained
in the same way. -/
theorem fills_chain_after_ComputeRing (e : Evaluator) (env : Env) (ring : Ring) (rate : ℚ)
    (hpos : ∀ o ∈ ring.Orders,
      0 < o.OrderState.RawOrder.AmountS ∧ 0 < o.OrderState.RawOrder.AmountB)
    (hrate : env.rootOfRing (productPrice ring.Orders) ring.Orders.length = some rate)
    (hrr : 0 < rate⁻¹) :
    (∃ r1, computeVolume env ring = some r1 ∧ r1.ReducedRate = rate⁻¹ ∧
      r1.Orders.length = ring.Orders.length ∧
      ∀ i, 1 ≤ i → i < r1.Orders.length →
        ∃ a b, r1.Orders[i - 1]? = some a ∧ r1.Orders[i]? = some b ∧
          a.FillAmountB = b.FillAmountS) ∧
    (∀ r err, e.ComputeRing env ring = some (r, err) →
      r.Orders.length = ring.Orders.length ∧
      ∀ i, 1 ≤ i → i < r.Orders.length →
        ∃ a b, r.Orders[i - 1]? = some a ∧ r.Orders[i]? = some b ∧
          a.FillAmountB = b.FillAmountS) := by
  have hr0 : rate ≠ 0 := by
    intro h0; simp [h0] at hrr
  obtain ⟨r1, hr1⟩ := computeVolume_isSome (amounts_ne_zero hpos) hrate hr0
  constructor
  · obtain ⟨-, rate', os2, m, hrate', -, hrr', -, hlen, -, -, hChain, -, -⟩ :=
      computeVolume_spec hr1
    rw [hrate] at hrate'
    cases hrate'
    exact ⟨r1, hr1, hrr', hlen, chained_index hChain⟩
  · intro r err h
    obtain ⟨r1', res, h1, h2, -, -⟩ := ComputeRing_spec h
    obtain ⟨-, rate', os2, m, -, -, -, -, hlen, -, -, hChain, -, -⟩ :=
      computeVolume_spec h1
    obtain ⟨-, hlen', -, -⟩ := computeFee_frame h2
    exact ⟨by omega, chained_index (chained_of_fee h2 hChain)⟩

/-- Witness of C1 on the ring A: 1000/500, B: 500/10. -/
theorem fills_chain_after_ComputeRing_witness :
    (∃ r1, computeVolume exampleEnv skewedRing = some r1 ∧ r1.ReducedRate = (10 : ℚ)⁻¹ ∧
      r1.Orders.length = skewedRing.Orders.length ∧
      ∀ i, 1 ≤ i → i < r1.Orders.length →
        ∃ a b, r1.Orders[i - 1]? = some a ∧ r1.Orders[i]? = some b ∧
          a.FillAmountB = b.FillAmountS) ∧
    (∀ r err, exampleEvaluator.ComputeRing exampleEnv skewedRing = some (r, err) →
      r.Orders.length = skewedRing.Orders.length ∧
      ∀ i, 1 ≤ i → i < r.Orders.length →
        ∃ a b, r.Orders[i - 1]? = some a ∧ r.Orders[i]? = some b ∧
          a.FillAmountB = b.FillAmountS) :=
  fills_chain_after_ComputeRing exampleEvaluator exampleEnv skewedRing 10
    skewedRing_pos skewedRing_rate (by norm_num)

/-- C2. For a ring with positive amounts and a positive reduced rate, lines
42-148 of `ComputeRing` complete and every leg is asked to sell at most what it
has available: `FillAmountS ≤ AvailableAmountS` at every index, the availability
being the one the leg came in with; the same holds of the ring `ComputeRing`
leaves when it returns.  No case is made on which leg is the minimum-volume
leg. -/
theorem fillAmountS_le_available (e : Evaluator) (env : Env) (ring : Ring) (rate : ℚ)
    (hpos : ∀ o ∈ ring.Orders,
      0 < o.OrderState.RawOrder.AmountS ∧ 0 < o.OrderState.RawOrder.AmountB)
    (hrate : env.rootOfRing (productPrice ring.Orders) ring.Orders.length = some rate)
    (hrr : 0 < rate⁻¹) :
    (∃ r1, computeVolume env ring = some r1 ∧
      ∀ (i : ℕ) (o : FilledOrder), ring.Orders[i]? = some o →
        ∃ a, r1.Orders[i]? = some a ∧ a.AvailableAmountS = o.AvailableAmountS ∧
          a.FillAmountS ≤ o.AvailableAmountS) ∧
    (∀ r err, e.ComputeRing env ring = some (r, err) →
      ∀ (i : ℕ) (o : FilledOrder), ring.Orders[i]? = some o →
        ∃ a, r.Orders[i]? = some a ∧ a.AvailableAmountS = o.AvailableAmountS ∧
          a.FillAmountS ≤ o.AvailableAmountS) := by
  have hr0 : rate ≠ 0 := by
    intro h0; simp [h0] at hrr
  have key : ∀ r1, computeVolume env ring = some r1 →
      ∀ (i : ℕ) (o : FilledOrder), ring.Orders[i]? = some o →
        ∃ a, r1.Orders[i]? = some a ∧ a.AvailableAmountS = o.AvailableAmountS ∧
          a.FillAmountS ≤ o.AvailableAmountS := by
    intro r1 hr1 i o ho
    obtain ⟨-, rate', os2, m, hrate', -, -, -, -, -, hS, -, -, hLe⟩ := computeVolume_spec hr1
    rw [hrate] at hrate'
    cases hrate'
    obtain ⟨f, hf⟩ := hS i o ho
    have := hLe (fun o' ho' => priced_reduced_pos (hpos o' ho') hrr) i _ hf
    exact ⟨_, hf, rfl, this⟩
  obtain ⟨r1, hr1⟩ := computeVolume_isSome (amounts_ne_zero hpos) hrate hr0
  refine ⟨⟨r1, hr1, key r1 hr1⟩, ?_⟩
  intro r err h i o ho
  obtain ⟨r1', res, h1, h2, -, -⟩ := ComputeRing_spec h
  obtain ⟨a1, ha1, hav, hle⟩ := key r1' h1 i o ho
  obtain ⟨-, -, hfwd, -⟩ := computeFee_frame h2
  obtain ⟨a, ha, -, _, _, _, _, rfl⟩ := hfwd i a1 ha1
  exact ⟨_, ha, hav, hle⟩

/-- Witness of C2 on the ring A: 1000/500, B: 500/10. -/
theorem fillAmountS_le_available_witness :
    (∃ r1, computeVolume exampleEnv skewedRing = some r1 ∧
      ∀ (i : ℕ) (o : FilledOrder), skewedRing.Orders[i]? = some o →
        ∃ a, r1.Orders[i]? = some a ∧ a.AvailableAmountS = o.AvailableAmountS ∧
          a.FillAmountS ≤ o.AvailableAmountS) ∧
    (∀ r err, exampleEvaluator.ComputeRing exampleEnv skewedRing = some (r, err) →
      ∀ (i : ℕ) (o : FilledOrder), skewedRing.Orders[i]? = some o →
        ∃ a, r.Orders[i]? = some a ∧ a.AvailableAmountS = o.AvailableAmountS ∧
          a.FillAmountS ≤ o.AvailableAmountS) :=
  fillAmountS_le_available exampleEvaluator exampleEnv skewedRing 10
    skewedRing_pos skewedRing_rate (by norm_num)

/-- C3 (counterexample). Two rings of price product below 1 on which
`ComputeRing` returns success.  The ring A: 10^18 for 10^18 + 1, B: 10^18 for
10^18 has a product that rounds to the float 1, and is admitted with reduced
rate 1.  The ring A: 1 for 1, B: 1 for 2 has product 1/2 and is admitted with
reduced rate about 1.414, above 1. -/
theorem product_below_one_admitted :
    (productPrice nearUnitRing.Orders < 1 ∧
      ∃ r, exampleEvaluator.ComputeRing exampleEnv nearUnitRing = some (r, none) ∧
        r.ReducedRate = 1) ∧
    (productPrice underUnitRing.Orders < 1 ∧
      ∃ r, exampleEvaluator.ComputeRing exampleEnv underUnitRing = some (r, none) ∧
        r.ReducedRate = 9007199254740992 / 6369051672525773 ∧ 1 < r.ReducedRate) :=
  ⟨nearUnitRing_admitted, underUnitRing_admitted⟩

/-- C3 (amended). For every ring with positive amounts, the reduced rate stored
on a ring that `ComputeRing` returns (with success or with an error) is
strictly positive, and it is at most 1 whenever the float root of the price
product is at least 1.  `ComputeRing` makes no test on the price product:
whatever the product is, a ring of two or more legs whose float root is 1, with
known tokens and a non-negative threshold, is admitted with reduced rate 1. -/
theorem reducedRate_pos_of_ComputeRing (e : Evaluator) (env : Env) (ring : Ring)
    (hpos : ∀ o ∈ ring.Orders,
      0 < o.OrderState.RawOrder.AmountS ∧ 0 < o.OrderState.RawOrder.AmountB) :
    (∀ r err, e.ComputeRing env ring = some (r, err) → 0 < r.ReducedRate) ∧
    (∀ r err rate, e.ComputeRing env ring = some (r, err) →
      env.rootOfRing (productPrice ring.Orders) ring.Orders.length = some rate →
      1 ≤ rate → r.ReducedRate ≤ 1) ∧
    (2 ≤ ring.Orders.length →
      env.rootOfRing (productPrice ring.Orders) ring.Orders.length = some 1 →
      e.KnownTokens env ring.Orders → 0 ≤ e.rateRatioCVSThreshold →
      ∃ r, e.ComputeRing env ring = some (r, none) ∧ r.ReducedRate = 1) := by
  refine ⟨?_, ?_, ?_⟩
  · intro r err h
    obtain ⟨r1, res, h1, h2, -, -⟩ := ComputeRing_spec h
    obtain ⟨-, rate, _, _, hrate, hr0, hrr, -⟩ := computeVolume_spec h1
    obtain ⟨hrr2, -⟩ := phases_frame h1 h2
    have h0 : 0 ≤ rate := env.rootOfRing_nonneg _ _ _ (productPrice_pos hpos) hrate
    rw [hrr2, hrr]
    exact inv_pos.2 (lt_of_le_of_ne h0 (Ne.symm hr0))
  · intro r err rate h hrate hge
    obtain ⟨r1, res, h1, h2, -, -⟩ := ComputeRing_spec h
    obtain ⟨-, rate1, _, _, hrate1, -, hrr, -⟩ := computeVolume_spec h1
    obtain ⟨hrr2, -⟩ := phases_frame h1 h2
    rw [hrate] at hrate1
    cases hrate1
    rw [hrr2, hrr]
    exact inv_le_one_of_one_le₀ hge
  · intro hn hrate hk hthr
    obtain ⟨r, hr, hrr, -⟩ := admitted_of_root_one e env ring hpos hrate hk hn hthr
    exact ⟨r, hr, hrr⟩

/-- Witness of C3 (amended) on the near-unit ring: it is admitted with reduced
rate 1, which is positive. -/
theorem reducedRate_pos_of_ComputeRing_witness :
    ∃ r, exampleEvaluator.ComputeRing exampleEnv nearUnitRing = some (r, none) ∧
      r.ReducedRate = 1 ∧ 0 < r.ReducedRate := by
  have h := reducedRate_pos_of_ComputeRing exampleEvaluator exampleEnv nearUnitRing
    (by simp [nearUnitRing, leg])
  obtain ⟨r, hr, hrr⟩ := h.2.2 (by simp [nearUnitRing]) nearUnitRing_rate
    (exampleEvaluator_knows _ _) (by simp [exampleEvaluator, NewEvaluator])
  exact ⟨r, hr, hrr, h.1 r none hr⟩

/-- C4. For a ring with positive amounts, a positive reduced rate and known
tokens, the volume and fee phases of `ComputeRing` complete with a ring `r2`,
and `ComputeRing` returns success exactly when `PriceRateCVSquare r2` returns
no error and the CVS it returns is at most `rateRatioCVSThreshold`.  Hence an
admitted ring has CVS at most the threshold, a CVS above the threshold is
rejected with the CVS error, and an error of `PriceRateCVSquare` is returned
as it is. -/
theorem ComputeRing_success_iff_cvs_le (e : Evaluator) (env : Env) (ring : Ring) (rate : ℚ)
    (hpos : ∀ o ∈ ring.Orders,
      0 < o.OrderState.RawOrder.AmountS ∧ 0 < o.OrderState.RawOrder.AmountB)
    (hrate : env.rootOfRing (productPrice ring.Orders) ring.Orders.length = some rate)
    (hrr : 0 < rate⁻¹) (hk : e.KnownTokens env ring.Orders) :
    ∃ r2, (computeVolume env ring).bind (e.computeFeeOfRingAndOrder env) = some r2 ∧
      ((∃ r, e.ComputeRing env ring = some (r, none)) ↔
        ∃ cvs, PriceRateCVSquare r2 = some (.ok cvs) ∧ cvs ≤ e.rateRatioCVSThreshold) ∧
      (∀ r err, e.ComputeRing env ring = some (r, err) → r = r2) ∧
      (∀ cvs, PriceRateCVSquare r2 = some (.ok cvs) → e.rateRatioCVSThreshold < cvs →
        e.ComputeRing env ring = some (r2, some MinerError.cvsExceedsThreshold)) ∧
      (∀ err, PriceRateCVSquare r2 = some (.error err) →
        e.ComputeRing env ring = some (r2, some err)) := by
  have hr0 : rate ≠ 0 := by
    intro h0; simp [h0] at hrr
  obtain ⟨r1, r2, h1, hrr1, h2⟩ := phases_isSome (amounts_ne_zero hpos) hrate hr0 hk
  have hnonneg : ∀ a ∈ r2.Orders, 0 ≤ a.RateAmountS := by
    intro a ha
    obtain ⟨o, ho, -, hra⟩ := phases_rateAmountS h1 h2 a ha
    rw [hra, hrr1]
    have : (0 : ℚ) < (o.OrderState.RawOrder.AmountS : ℚ) := by exact_mod_cast (hpos o ho).1
    exact le_of_lt (mul_pos this hrr)
  have hsame : ∀ r err, e.ComputeRing env ring = some (r, err) → r = r2 := by
    intro r err h
    obtain ⟨r1', res, h1', h2', -, -⟩ := ComputeRing_spec h
    rw [h1] at h1'
    cases h1'
    rw [h2] at h2'
    cases h2'
    rfl
  refine ⟨r2, by simp [h1, h2], ?_, hsame, ?_, ?_⟩
  · constructor
    · rintro ⟨r, h⟩
      obtain ⟨r1', res, h1', h2', h3, herr⟩ := ComputeRing_spec h
      rw [h1] at h1'
      cases h1'
      rw [h2] at h2'
      cases h2'
      cases res with
      | error er => simp at herr
      | ok cvs =>
        refine ⟨cvs, h3, ?_⟩
        have h64 := (PriceRateCVSquare_Int64 hnonneg h3).2
        simp only at herr
        split at herr
        · rename_i hle
          rwa [h64] at hle
        · cases herr
    · rintro ⟨cvs, h3, hle⟩
      have h64 := (PriceRateCVSquare_Int64 hnonneg h3).2
      refine ⟨r2, ?_⟩
      rw [ComputeRing_of_phases h1 h2 h3]
      simp [h64, hle]
  · intro cvs h3 hlt
    have h64 := (PriceRateCVSquare_Int64 hnonneg h3).2
    rw [ComputeRing_of_phases h1 h2 h3]
    simp [h64, not_le.2 hlt]
  · intro err h3
    rw [ComputeRing_of_phases h1 h2 h3]

/-- Witness of C4 on the ring A: 1000/500, B: 500/10 with the example
evaluator. -/
theorem ComputeRing_success_iff_cvs_le_witness :
    ∃ r2, (computeVolume exampleEnv skewedRing).bind
        (exampleEvaluator.computeFeeOfRingAndOrder exampleEnv) = some r2 ∧
      ((∃ r, exampleEvaluator.ComputeRing exampleEnv skewedRing = some (r, none)) ↔
        ∃ cvs, PriceRateCVSquare r2 = some (.ok cvs) ∧
          cvs ≤ exampleEvaluator.rateRatioCVSThreshold) ∧
      (∀ r err, exampleEvaluator.ComputeRing exampleEnv skewedRing = some (r, err) → r = r2) ∧
      (∀ cvs, PriceRateCVSquare r2 = some (.ok cvs) →
        exampleEvaluator.rateRatioCVSThreshold < cvs →
        exampleEvaluator.ComputeRing exampleEnv skewedRing =
          some (r2, some MinerError.cvsExceedsThreshold)) ∧
      (∀ err, PriceRateCVSquare r2 = some (.error err) →
        exampleEvaluator.ComputeRing exampleEnv skewedRing = some (r2, some err)) :=
  ComputeRing_success_iff_cvs_le exampleEvaluator exampleEnv skewedRing 10
    skewedRing_pos skewedRing_rate (by norm_num) (exampleEvaluator_knows _ _)

/-- C5. For a ring of exactly two orders with positive amounts whose price
product is 1 (`AmountS₀ * AmountS₁ = AmountB₀ * AmountB₁`), with known tokens
and a non-negative CVS threshold, `ComputeRing` returns success, the reduced
rate it stores is 1 and the CVS `PriceRateCVSquare` computes on the ring is
0. -/
theorem two_leg_unit_product_admitted (e : Evaluator) (env : Env) (ring : Ring)
    (a b : FilledOrder) (hring : ring.Orders = [a, b])
    (ha : 0 < a.OrderState.RawOrder.AmountS ∧ 0 < a.OrderState.RawOrder.AmountB)
    (hb : 0 < b.OrderState.RawOrder.AmountS ∧ 0 < b.OrderState.RawOrder.AmountB)
    (hprod : a.OrderState.RawOrder.AmountS * b.OrderState.RawOrder.AmountS =
      a.OrderState.RawOrder.AmountB * b.OrderState.RawOrder.AmountB)
    (hk : e.KnownTokens env ring.Orders) (hthr : 0 ≤ e.rateRatioCVSThreshold) :
    ∃ r, e.ComputeRing env ring = some (r, none) ∧ r.ReducedRate = 1 ∧
      PriceRateCVSquare r = some (.ok 0) := by
  have hpos : ∀ o ∈ ring.Orders,
      0 < o.OrderState.RawOrder.AmountS ∧ 0 < o.OrderState.RawOrder.AmountB := by
    intro o ho
    rw [hring] at ho
    simp only [List.mem_cons, List.mem_singleton, List.not_mem_nil, or_false] at ho
    rcases ho with rfl | rfl
    · exact ha
    · exact hb
  have hP : productPrice ring.Orders = 1 := by
    have hB : ((a.OrderState.RawOrder.AmountB : ℚ) * (b.OrderState.RawOrder.AmountB : ℚ)) ≠ 0 := by
      have h1 : (a.OrderState.RawOrder.AmountB : ℚ) ≠ 0 := by exact_mod_cast ne_of_gt ha.2
      have h2 : (b.OrderState.RawOrder.AmountB : ℚ) ≠ 0 := by exact_mod_cast ne_of_gt hb.2
      exact mul_ne_zero h1 h2
    have hq : (a.OrderState.RawOrder.AmountS : ℚ) * (b.OrderState.RawOrder.AmountS : ℚ) =
        (a.OrderState.RawOrder.AmountB : ℚ) * (b.OrderState.RawOrder.AmountB : ℚ) := by
      exact_mod_cast hprod
    simp only [productPrice, hring, List.map_cons, List.map_nil, List.prod_cons,
      List.prod_nil, mul_one]
    rw [hq, div_self hB]
  have hrate : env.rootOfRing (productPrice ring.Orders) ring.Orders.length = some 1 := by
    rw [hP]; exact env.rootOfRing_one _
  exact admitted_of_root_one e env ring hpos hrate hk (by simp [hring]) hthr

/-- Witness of C5: the self-closing ring of 10^18 against 10^17. -/
theorem two_leg_unit_product_admitted_witness :
    ∃ r, exampleEvaluator.ComputeRing exampleEnv selfClosingRing = some (r, none) ∧
      r.ReducedRate = 1 ∧ PriceRateCVSquare r = some (.ok 0) :=
  two_leg_unit_product_admitted exampleEvaluator exampleEnv selfClosingRing _ _ rfl
    (by simp [leg]) (by simp [leg]) (by simp [leg]) (exampleEvaluator_knows _ _)
    (by simp [exampleEvaluator, NewEvaluator])

/-! ## Claims on the fees -/

/-- C6. With non-zero amounts and known tokens `computeFeeOfRingAndOrder`
completes, and for every leg `LegalFeeS` is the legal-currency value of the
leg's saving `FeeS` (valued in the sell token when `BuyNoMoreThanAmountB`, in
the buy token otherwise) multiplied by `MarginSplitPercentage` as an integer,
with no division by 100: a percentage of 100 gives 100 times the value, and a
percentage of 0 gives `LegalFeeS = 0`. -/
theorem legalFeeS_is_value_times_percentage (e : Evaluator) (env : Env) (ring : Ring)
    (hne : ∀ o ∈ ring.Orders, o.OrderState.RawOrder.AmountS ≠ 0 ∧
      o.OrderState.RawOrder.AmountB ≠ 0)
    (hk : e.KnownTokens env ring.Orders) :
    ∃ r, e.computeFeeOfRingAndOrder env ring = some r ∧
      r.Orders.length = ring.Orders.length ∧
      ∀ (i : ℕ) (o : FilledOrder), ring.Orders[i]? = some o →
        ∃ a v, r.Orders[i]? = some a ∧
          e.getLegalCurrency o.savingToken a.FeeS = some (some v) ∧
          a.LegalFeeS = v * (o.OrderState.RawOrder.MarginSplitPercentage : ℚ) ∧
          (o.OrderState.RawOrder.MarginSplitPercentage = 100 → a.LegalFeeS = v * 100) ∧
          (o.OrderState.RawOrder.MarginSplitPercentage = 0 → a.LegalFeeS = 0) := by
  obtain ⟨r, hr, hlen, hlegs⟩ := computeFee_legs hne hk
  refine ⟨r, hr, hlen, ?_⟩
  intro i o ho
  obtain ⟨saving, legalSaving, lrcFee, legalLrc, -, h2, -, -, ha⟩ := hlegs i o ho
  refine ⟨_, legalSaving, ha, h2, rfl, ?_, ?_⟩
  · intro h; simp [h]
  · intro h; simp [h]

/-- Witness of C6 on the fee ring: leg 0 has percentage 0 and gets
`LegalFeeS = 0`; leg 1 has percentage 100 and gets 100 times the legal value of
its saving. -/
theorem legalFeeS_is_value_times_percentage_witness :
    ∃ r a b v, exampleEvaluator.computeFeeOfRingAndOrder exampleEnv feeRing = some r ∧
      r.Orders[0]? = some a ∧ a.LegalFeeS = 0 ∧
      r.Orders[1]? = some b ∧
      exampleEvaluator.getLegalCurrency 0 b.FeeS = some (some v) ∧ b.LegalFeeS = v * 100 := by
  obtain ⟨r, hr, -, hlegs⟩ := legalFeeS_is_value_times_percentage exampleEvaluator
    exampleEnv feeRing feeRing_ne_zero (exampleEvaluator_knows _ _)
  obtain ⟨a, -, ha, -, -, -, ha0⟩ := hlegs 0 feeLeg0 rfl
  obtain ⟨b, v, hb, hv, -, hb100, -⟩ := hlegs 1 feeLeg1 rfl
  exact ⟨r, a, b, v, hr, ha, ha0 rfl, hb, hv, hb100 rfl⟩

/-- C7. With non-zero amounts and known tokens `computeFeeOfRingAndOrder`
completes, and for every leg `LrcFee` is the minimum of the raw LRC fee scaled
by `FillAmountS / AmountS` and `AvailableLrcBalance`, so it never exceeds the
balance, and `LegalLrcFee` is the legal-currency value of that clamped fee in
the LRC token; a scaled fee of 20 against a balance of 5 gives `LrcFee = 5`. -/
theorem lrcFee_is_clamped (e : Evaluator) (env : Env) (ring : Ring)
    (hne : ∀ o ∈ ring.Orders, o.OrderState.RawOrder.AmountS ≠ 0 ∧
      o.OrderState.RawOrder.AmountB ≠ 0)
    (hk : e.KnownTokens env ring.Orders) :
    ∃ r, e.computeFeeOfRingAndOrder env ring = some r ∧
      r.Orders.length = ring.Orders.length ∧
      ∀ (i : ℕ) (o : FilledOrder), ring.Orders[i]? = some o →
        ∃ a, r.Orders[i]? = some a ∧
          a.LrcFee = min ((o.OrderState.RawOrder.LrcFee : ℚ) *
              (o.FillAmountS / (o.OrderState.RawOrder.AmountS : ℚ)))
            o.AvailableLrcBalance ∧
          a.LrcFee ≤ o.AvailableLrcBalance ∧
          e.getLegalCurrency (env.lrcAddress o.OrderState.RawOrder.Protocol) a.LrcFee =
            some (some a.LegalLrcFee) ∧
          ((o.OrderState.RawOrder.LrcFee : ℚ) *
              (o.FillAmountS / (o.OrderState.RawOrder.AmountS : ℚ)) = 20 →
            o.AvailableLrcBalance = 5 → a.LrcFee = 5) := by
  obtain ⟨r, hr, hlen, hlegs⟩ := computeFee_legs hne hk
  refine ⟨r, hr, hlen, ?_⟩
  intro i o ho
  obtain ⟨saving, legalSaving, lrcFee, legalLrc, -, -, h3, h4, ha⟩ := hlegs i o ho
  have hS : (o.OrderState.RawOrder.AmountS : ℚ) ≠ 0 := by
    exact_mod_cast (hne o (List.mem_iff_getElem?.2 ⟨i, ho⟩)).1
  have hfee : lrcFee = min ((o.OrderState.RawOrder.LrcFee : ℚ) *
      (o.FillAmountS / (o.OrderState.RawOrder.AmountS : ℚ))) o.AvailableLrcBalance := by
    simp only [lrcFeeOfOrder, ratQuo, hS, if_false, Option.some_bind, Option.some.injEq] at h3
    rw [← h3]
    by_cases hc : o.AvailableLrcBalance ≤
        (o.OrderState.RawOrder.LrcFee : ℚ) * (o.FillAmountS / (o.OrderState.RawOrder.AmountS : ℚ))
    · rw [if_pos hc, min_eq_right hc]
    · rw [if_neg hc, min_eq_left (le_of_lt (not_le.1 hc))]
  refine ⟨_, ha, hfee, ?_, h4, ?_⟩
  · show lrcFee ≤ o.AvailableLrcBalance
    rw [hfee]; exact min_le_right _ _
  · intro h20 h5
    show lrcFee = 5
    rw [hfee, h20, h5]
    norm_num

/-- Witness of C7 on the fee ring: the scaled fee of leg 0 is 20, its balance
5, and the fee pass sets `LrcFee = 5`. -/
theorem lrcFee_is_clamped_witness :
    ∃ r a, exampleEvaluator.computeFeeOfRingAndOrder exampleEnv feeRing = some r ∧
      r.Orders[0]? = some a ∧ a.LrcFee = 5 ∧
      exampleEvaluator.getLegalCurrency 1 5 = some (some a.LegalLrcFee) := by
  obtain ⟨r, hr, -, hlegs⟩ := lrcFee_is_clamped exampleEvaluator exampleEnv feeRing
    feeRing_ne_zero (exampleEvaluator_knows _ _)
  obtain ⟨a, ha, -, -, hlegal, h5⟩ := hlegs 0 feeLeg0 rfl
  have h : a.LrcFee = 5 := h5 (by norm_num [feeLeg0]) rfl
  rw [h] at hlegal
  exact ⟨r, a, hr, ha, h, hlegal⟩

/-- C8. With non-zero amounts and known tokens `computeFeeOfRingAndOrder`
completes, and for every leg the saving `FeeS` is
`FillAmountB * (AmountS / AmountB) - FillAmountS` when `BuyNoMoreThanAmountB`
is true and `FillAmountB * (1 - ReducedRate)` when it is false. -/
theorem feeS_is_saving (e : Evaluator) (env : Env) (ring : Ring)
    (hne : ∀ o ∈ ring.Orders, o.OrderState.RawOrder.AmountS ≠ 0 ∧
      o.OrderState.RawOrder.AmountB ≠ 0)
    (hk : e.KnownTokens env ring.Orders) :
    ∃ r, e.computeFeeOfRingAndOrder env ring = some r ∧
      r.Orders.length = ring.Orders.length ∧
      ∀ (i : ℕ) (o : FilledOrder), ring.Orders[i]? = some o →
        ∃ a, r.Orders[i]? = some a ∧
          (o.OrderState.RawOrder.BuyNoMoreThanAmountB = true →
            a.FeeS = o.FillAmountB * ((o.OrderState.RawOrder.AmountS : ℚ) /
              (o.OrderState.RawOrder.AmountB : ℚ)) - o.FillAmountS) ∧
          (o.OrderState.RawOrder.BuyNoMoreThanAmountB = false →
            a.FeeS = o.FillAmountB * (1 - ring.ReducedRate)) := by
  obtain ⟨r, hr, hlen, hlegs⟩ := computeFee_legs hne hk
  refine ⟨r, hr, hlen, ?_⟩
  intro i o ho
  obtain ⟨saving, legalSaving, lrcFee, legalLrc, h1, -, -, -, ha⟩ := hlegs i o ho
  have hB : (o.OrderState.RawOrder.AmountB : ℚ) ≠ 0 := by
    exact_mod_cast (hne o (List.mem_iff_getElem?.2 ⟨i, ho⟩)).2
  refine ⟨_, ha, ?_, ?_⟩
  · intro hb
    show saving = _
    simp only [savingOfOrder, hb, if_true, ratQuo, hB, if_false, Option.some_bind,
      Option.some.injEq, Prod.mk.injEq] at h1
    exact h1.1.symm
  · intro hb
    show saving = _
    simp only [savingOfOrder, hb, Bool.false_eq_true, if_false, Option.some.injEq,
      Prod.mk.injEq] at h1
    rw [← h1.1]
    ring

/-- Witness of C8 on the fee ring (reduced rate 1/2, fills 4 and 4, amounts 4
for 2): leg 0 buys no more than `AmountB` and saves `4 * (4 / 2) - 4`; leg 1 does
not and saves `4 * (1 - 1 / 2)`. -/
theorem feeS_is_saving_witness :
    ∃ r a b, exampleEvaluator.computeFeeOfRingAndOrder exampleEnv feeRing = some r ∧
      r.Orders[0]? = some a ∧ a.FeeS = 4 * (4 / 2) - 4 ∧
      r.Orders[1]? = some b ∧ b.FeeS = 4 * (1 - 1 / 2) := by
  obtain ⟨r, hr, -, hlegs⟩ := feeS_is_saving exampleEvaluator exampleEnv feeRing
    feeRing_ne_zero (exampleEvaluator_knows _ _)
  obtain ⟨a, ha, hat, -⟩ := hlegs 0 feeLeg0 rfl
  obtain ⟨b, hb, -, hbf⟩ := hlegs 1 feeLeg1 rfl
  refine ⟨r, a, b, hr, ha, ?_, hb, ?_⟩
  · rw [hat rfl]; norm_num [feeLeg0]
  · rw [hbf rfl]; norm_num [feeLeg1, feeRing]

/-! ## Claim on the received estimate -/

/-- The fee pass of the example evaluator on the ring of the two fee legs
leaves the ring state `paidRing`. -/
theorem feeRing_paid :
    exampleEvaluator.computeFeeOfRingAndOrder exampleEnv feeRing = some paidRing := by
  simp [Evaluator.computeFeeOfRingAndOrder, Evaluator.feeLoop, Evaluator.computeFeeOfOrder,
    feeRing, feeLeg0, feeLeg1, paidRing, savingOfOrder, lrcFeeOfOrder, exampleEvaluator,
    NewEvaluator, exampleProvider, Evaluator.getLegalCurrency, Env.lrcAddress, exampleEnv,
    ratQuo, ratInv]
  norm_num

/-- The `float64` of 0.1 is a `float64`: `3602879701896397 / 2^55`. -/
theorem isFloat64_tenth : IsFloat64 (3602879701896397 / 36028797018963968) :=
  ⟨3602879701896397, 55, by norm_num, Or.inr ⟨by norm_num, by norm_num⟩⟩

/-- The rational `1 - 3602879701896397 / 2^55 = 32425917317067571 / 2^55` is
not a `float64`: its numerator is odd and needs 55 bits. -/
theorem not_isFloat64_one_sub_tenth :
    ¬ IsFloat64 (1 - 3602879701896397 / 36028797018963968) := by
  have hval : (1 : ℚ) - 3602879701896397 / 36028797018963968 =
      32425917317067571 / 36028797018963968 := by norm_num
  rw [hval]
  have hodd : ¬ (2 : ℤ) ∣ 32425917317067571 := by decide
  rintro ⟨m, k, hm, ⟨-, h⟩ | ⟨-, h⟩⟩
  · have h1 : ((32425917317067571 : ℤ) : ℚ) =
        ((m * 2 ^ k * 36028797018963968 : ℤ) : ℚ) := by
      push_cast
      rw [← h]
      norm_num
    have h2 : (32425917317067571 : ℤ) = m * 2 ^ k * 36028797018963968 := by
      exact_mod_cast h1
    exact hodd ⟨m * 2 ^ k * 18014398509481984, by rw [h2]; ring⟩
  · have hk : ((2 : ℚ) ^ k) ≠ 0 := pow_ne_zero _ (by norm_num)
    have h1 : ((32425917317067571 * 2 ^ k : ℤ) : ℚ) =
        ((m * 36028797018963968 : ℤ) : ℚ) := by
      push_cast
      field_simp at h
      linarith
    have h2 : (32425917317067571 : ℤ) * 2 ^ k = m * 36028797018963968 := by
      exact_mod_cast h1
    rcases Nat.lt_or_ge k 55 with hlt | hge
    · obtain ⟨j, hj⟩ : ∃ j, 55 = k + (j + 1) := Nat.exists_eq_add_of_lt hlt
      have h55 : (36028797018963968 : ℤ) = 2 ^ k * (2 * 2 ^ j) := by
        have : (36028797018963968 : ℤ) = 2 ^ 55 := by norm_num
        rw [this, hj, pow_add, pow_succ]
        ring
      rw [h55] at h2
      have h3 : (32425917317067571 : ℤ) = m * (2 * 2 ^ j) := by
        have hk2 : (2 : ℤ) ^ k ≠ 0 := pow_ne_zero _ (by norm_num)
        apply mul_right_cancel₀ hk2
        rw [h2]; ring
      exact hodd ⟨m * 2 ^ j, by rw [h3]; ring⟩
    · obtain ⟨j, hj⟩ : ∃ j, k = 55 + j := Nat.exists_eq_add_of_le hge
      have h3 : m = 32425917317067571 * 2 ^ j := by
        have h55 : (36028797018963968 : ℤ) ≠ 0 := by norm_num
        apply mul_right_cancel₀ h55
        rw [← h2, hj, pow_add]
        norm_num
        ring
      have hj1 : (1 : ℤ) ≤ 2 ^ j := one_le_pow₀ (by norm_num)
      have hm0 : 0 ≤ m := by rw [h3]; positivity
      rw [abs_of_nonneg hm0, h3] at hm
      have hle : (32425917317067571 : ℤ) ≤ 32425917317067571 * 2 ^ j :=
        le_mul_of_one_le_right (by norm_num) hj1
      have hlt2 : (32425917317067571 : ℤ) < 2 ^ 53 := lt_of_le_of_lt hle hm
      norm_num at hlt2

/-- The subtraction of `exampleEnv` is exact, so it rounds to nearest. -/
theorem exampleEnv_subRoundsToNearest : exampleEnv.SubRoundsToNearest := by
  refine ⟨fun _ _ _ _ _ => rfl, ?_⟩
  intro x y _ _ _
  simp only [exampleEnv, sub_self, abs_zero]
  positivity

/-- The subtraction of `floatEnv` rounds to nearest: it is exact except at
`1.0 - 0.1`, where the exact difference is not a `float64` and the value is
off by `2^-55`, less than `2^-53` times the difference. -/
theorem floatEnv_subRoundsToNearest : floatEnv.SubRoundsToNearest := by
  constructor
  · intro x y _ _ hxy
    by_cases h : x = 1 ∧ y = 3602879701896397 / 36028797018963968
    · obtain ⟨rfl, rfl⟩ := h
      exact absurd hxy not_isFloat64_one_sub_tenth
    · simp only [floatEnv, h, if_false]
  · intro x y _ _ _
    by_cases h : x = 1 ∧ y = 3602879701896397 / 36028797018963968
    · obtain ⟨rfl, rfl⟩ := h
      have h1 : (8106479329266893 / 9007199254740992 : ℚ) -
          (1 - 3602879701896397 / 36028797018963968) = 1 / 36028797018963968 := by norm_num
      have h2 : (1 : ℚ) - 3602879701896397 / 36028797018963968 =
          32425917317067571 / 36028797018963968 := by norm_num
      simp only [floatEnv, and_self, if_true]
      rw [h1, h2, abs_of_nonneg (by norm_num), abs_of_nonneg (by norm_num)]
      norm_num
    · simp only [floatEnv, h, if_false, sub_self, abs_zero]
      positivity

/-- C9 (counterexample). With subsidy 0.1, the `float64`
`3602879701896397 / 2^55`, wallet split 1/2 and gas price 10^9, the evaluator
over the provider that values an amount at itself returns on the two-leg ring
with legal fees 5 and 200 the gas 400000 and
`costLegal = 4 * 10^14 * (8106479329266893 / 2^53)`: the factor is the
`float64` difference `1.0 - 0.1` (the subtraction of `floatEnv` rounds to
nearest, and the exact difference is not a `float64`), which is neither
`1 - subsidy` for the subsidy passed in nor 9/10, and `received` differs from
the claimed value in the same way. -/
theorem costLegal_factor_is_rounded :
    floatEnv.SubRoundsToNearest ∧
    IsFloat64 (3602879701896397 / 36028797018963968) ∧
    ¬ IsFloat64 (1 - 3602879701896397 / 36028797018963968) ∧
    paidRing.Orders.length = 2 ∧
    exampleProvider.LegalCurrencyValueOfEth 400000000000000 =
      some (some 400000000000000, none) ∧
    (NewEvaluator floatEnv exampleProvider 0 (3602879701896397 / 36028797018963968)
        (1 / 2)).EvaluateReceived floatEnv paidRing =
      some (400000, 1000000000,
        400000000000000 * (8106479329266893 / 9007199254740992),
        (205 - 400000000000000 * (8106479329266893 / 9007199254740992)) * (1 / 2)) ∧
    (400000000000000 * (8106479329266893 / 9007199254740992) : ℚ) ≠
      400000000000000 * (1 - 3602879701896397 / 36028797018963968) ∧
    (400000000000000 * (8106479329266893 / 9007199254740992) : ℚ) ≠
      400000000000000 * (1 - 1 / 10) ∧
    ((205 - 400000000000000 * (8106479329266893 / 9007199254740992)) * (1 / 2) : ℚ) ≠
      (205 - 400000000000000 * (1 - 3602879701896397 / 36028797018963968)) * (1 / 2) := by
  refine ⟨floatEnv_subRoundsToNearest, isFloat64_tenth, not_isFloat64_one_sub_tenth, rfl, rfl,
    ?_, by norm_num, by norm_num, by norm_num⟩
  simp only [Evaluator.EvaluateReceived, NewEvaluator, floatEnv, exampleProvider,
    legalFeeOfOrders_eq, paidRing, feeLeg0, feeLeg1]
  norm_num

/-- C9 (amended). In an environment whose `float64` subtraction rounds to
nearest, for an evaluator built by `NewEvaluator` from a `float64` subsidy
with `|1 - subsidy| ≤ 2` and a ring of 2, 3 or 4 legs whose gas cost the
provider values at `v`, `EvaluateReceived` returns `gas = 400000` (the
table entry of every such length), the estimated gas price,
`costLegal = v * realCostRate` and
`received = (Σ max(LegalLrcFee, LegalFeeS) - costLegal) * walletSplit`, where
`v` is the legal value of `gas * gasPrice` in ETH and `realCostRate`, the
`float64` difference `1.0 - subsidy` stored by `NewEvaluator`, is within the
relative error `2^-53` of `1 - subsidy` and equal to `1 - subsidy` when that
is a `float64`: then `costLegal = v * (1 - subsidy)`. -/
theorem EvaluateReceived_formula (env : Env) (marketCapProvider : MarketCapProvider)
    (rateRatioCVSThreshold : ℤ) (subsidy walletSplit : ℚ) (ring : Ring)
    (v : ℚ) (err : Option CapError)
    (hn : ring.Orders.length = 2 ∨ ring.Orders.length = 3 ∨ ring.Orders.length = 4)
    (hv : marketCapProvider.LegalCurrencyValueOfEth
      (((400000 * env.EstimateGasPrice : ℤ)) : ℚ) = some (some v, err))
    (henv : env.SubRoundsToNearest) (hs : IsFloat64 subsidy) (hr : |1 - subsidy| ≤ 2) :
    ∃ realCostRate : ℚ,
      (NewEvaluator env marketCapProvider rateRatioCVSThreshold subsidy
        walletSplit).realCostRate = realCostRate ∧
      |realCostRate - (1 - subsidy)| ≤ |1 - subsidy| / 2 ^ 53 ∧
      (IsFloat64 (1 - subsidy) → realCostRate = 1 - subsidy) ∧
      (NewEvaluator env marketCapProvider rateRatioCVSThreshold subsidy
        walletSplit).gasUsedWithLength ring.Orders.length = some 400000 ∧
      (NewEvaluator env marketCapProvider rateRatioCVSThreshold subsidy
        walletSplit).EvaluateReceived env ring =
        some (400000, env.EstimateGasPrice, v * realCostRate,
          ((ring.Orders.map fun o => max o.LegalLrcFee o.LegalFeeS).sum -
            v * realCostRate) * walletSplit) ∧
      (IsFloat64 (1 - subsidy) →
        (NewEvaluator env marketCapProvider rateRatioCVSThreshold subsidy
          walletSplit).EvaluateReceived env ring =
          some (400000, env.EstimateGasPrice, v * (1 - subsidy),
            ((ring.Orders.map fun o => max o.LegalLrcFee o.LegalFeeS).sum -
              v * (1 - subsidy)) * walletSplit)) := by
  have hone : IsFloat64 1 := ⟨1, 0, by norm_num, Or.inl ⟨by norm_num, by norm_num⟩⟩
  have hgas : (NewEvaluator env marketCapProvider rateRatioCVSThreshold subsidy
      walletSplit).gasUsedWithLength ring.Orders.length = some 400000 := by
    rcases hn with h | h | h <;> simp [NewEvaluator, h]
  have hmain : (NewEvaluator env marketCapProvider rateRatioCVSThreshold subsidy
      walletSplit).EvaluateReceived env ring =
      some (400000, env.EstimateGasPrice, v * env.subFloat64 1 subsidy,
        ((ring.Orders.map fun o => max o.LegalLrcFee o.LegalFeeS).sum -
          v * env.subFloat64 1 subsidy) * walletSplit) := by
    unfold Evaluator.EvaluateReceived
    rw [hgas]
    simp only [Option.some_bind]
    have hv1 : (NewEvaluator env marketCapProvider rateRatioCVSThreshold subsidy
        walletSplit).marketCapProvider.LegalCurrencyValueOfEth
        (((400000 * env.EstimateGasPrice : ℤ)) : ℚ) = some (some v, err) := hv
    rw [hv1]
    simp only [Option.some_bind, legalFeeOfOrders_eq]
    rfl
  refine ⟨env.subFloat64 1 subsidy, rfl, henv.2 1 subsidy hone hs hr,
    henv.1 1 subsidy hone hs, hgas, hmain, ?_⟩
  intro hex
  rw [hmain, henv.1 1 subsidy hone hs hex]

/-- Witness of C9: the example evaluator (subsidy 1/2, wallet split 1/2, gas
price 10^9) on the two fee legs as the fee pass leaves them, with legal fees 5
and 200: the subtraction of `exampleEnv` rounds to nearest, the subsidy 1/2
and `1 - 1/2` are `float64`, the gas is 400000,
`costLegal` is `4 * 10^14 * (1 - 1/2) = 2 * 10^14` and `received` is
`(205 - 2 * 10^14) * (1/2)`. -/
theorem EvaluateReceived_formula_witness :
    exampleEvaluator.computeFeeOfRingAndOrder exampleEnv feeRing = some paidRing ∧
    exampleEnv.SubRoundsToNearest ∧
    IsFloat64 (1 / 2) ∧ IsFloat64 (1 - 1 / 2) ∧
    exampleEvaluator.realCostRate = 1 - 1 / 2 ∧
    exampleEvaluator.gasUsedWithLength paidRing.Orders.length = some 400000 ∧
    exampleEvaluator.EvaluateReceived exampleEnv paidRing =
      some (400000, 1000000000, 200000000000000, (205 - 200000000000000) * (1 / 2)) := by
  have hhalf : IsFloat64 (1 / 2) := ⟨1, 1, by norm_num, Or.inr ⟨by norm_num, by norm_num⟩⟩
  have hdiff : IsFloat64 (1 - 1 / 2) := ⟨1, 1, by norm_num, Or.inr ⟨by norm_num, by norm_num⟩⟩
  obtain ⟨r, hr, -, hex, hgas, -, hres⟩ :=
    EvaluateReceived_formula exampleEnv exampleProvider 0 (1 / 2) (1 / 2) paidRing
      (((400000 * exampleEnv.EstimateGasPrice : ℤ)) : ℚ) none (Or.inl rfl) rfl
      exampleEnv_subRoundsToNearest hhalf (by norm_num [abs_le])
  refine ⟨feeRing_paid, exampleEnv_subRoundsToNearest, hhalf, hdiff,
    by rw [← hex hdiff]; exact hr, hgas, ?_⟩
  have h := hres hdiff
  have hsum : (paidRing.Orders.map fun o => max o.LegalLrcFee o.LegalFeeS).sum = 205 := by
    simp [paidRing, feeLeg0, feeLeg1]
    norm_num
  have hprice : (((400000 * exampleEnv.EstimateGasPrice : ℤ)) : ℚ) = 400000000000000 := by
    norm_num [exampleEnv]
  rw [hsum, hprice] at h
  rw [show exampleEvaluator = NewEvaluator exampleEnv exampleProvider 0 (1 / 2) (1 / 2) from rfl,
    h]
  norm_num [exampleEnv]

/-- C10 (counterexample). For the ring A: 1000 S for 500 B, B: 500 S for 10 B
the CVS that `PriceRateCVSquare` computes is 0, not strictly positive, and with
`rateRatioCVSThreshold = 0` `ComputeRing` returns success instead of the CVS
error. -/
theorem skewed_ring_not_rejected :
    exampleEvaluator.rateRatioCVSThreshold = 0 ∧
    ∃ r, exampleEvaluator.ComputeRing exampleEnv skewedRing = some (r, none) ∧
      PriceRateCVSquare r = some (.ok 0) ∧
      ¬ ∃ cvs, PriceRateCVSquare r = some (.ok cvs) ∧ 0 < cvs := by
  refine ⟨rfl, ?_⟩
  obtain ⟨r, hr, -, -, hcvs⟩ := skewed_admitted exampleEvaluator exampleEnv
    skewedRing rfl ⟨rfl, rfl⟩ ⟨rfl, rfl⟩
    (by simp [exampleEnv, exampleRoot]) (exampleEvaluator_knows _ _)
    (by simp [exampleEvaluator, NewEvaluator])
  refine ⟨r, hr, hcvs, ?_⟩
  rintro ⟨cvs, h, hpos⟩
  rw [hcvs] at h
  simp only [Option.some.injEq, Except.ok.injEq] at h
  omega

/-- C10 (amended). For the two-leg ring A: 1000 S for 500 B, B: 500 S for 10 B,
with the float root of the price product 100 equal to 10 and known tokens, the
reduced rate is 1/10, both legs have the rate ratio 1000, the CVS computed by
`PriceRateCVSquare` is 0, and with `rateRatioCVSThreshold = 0` `ComputeRing`
admits the ring. -/
theorem skewed_ring_cvs_zero_admitted (e : Evaluator) (env : Env) (ring : Ring)
    (a b : FilledOrder) (hring : ring.Orders = [a, b])
    (ha : a.OrderState.RawOrder.AmountS = 1000 ∧ a.OrderState.RawOrder.AmountB = 500)
    (hb : b.OrderState.RawOrder.AmountS = 500 ∧ b.OrderState.RawOrder.AmountB = 10)
    (hroot : env.rootOfRing 100 2 = some 10)
    (hk : e.KnownTokens env ring.Orders) (hthr : e.rateRatioCVSThreshold = 0) :
    ∃ r, e.ComputeRing env ring = some (r, none) ∧ r.ReducedRate = 1 / 10 ∧
      rateRatios 10000 r.Orders = some (.ok [1000, 1000]) ∧
      PriceRateCVSquare r = some (.ok 0) :=
  skewed_admitted e env ring hring ha hb hroot hk (le_of_eq hthr.symm)

/-- Witness of C10 (amended) with the example environment and evaluator. -/
theorem skewed_ring_cvs_zero_admitted_witness :
    ∃ r, exampleEvaluator.ComputeRing exampleEnv skewedRing = some (r, none) ∧
      r.ReducedRate = 1 / 10 ∧
      rateRatios 10000 r.Orders = some (.ok [1000, 1000]) ∧
      PriceRateCVSquare r = some (.ok 0) :=
  skewed_ring_cvs_zero_admitted exampleEvaluator exampleEnv skewedRing _ _ rfl
    ⟨rfl, rfl⟩ ⟨rfl, rfl⟩ (by simp [exampleEnv, exampleRoot]) (exampleEvaluator_knows _ _) rfl

/-! ## C11: exact roots close the price product -/

theorem amounts_ne_zero_of_productPrice {os : List FilledOrder} (h : productPrice os ≠ 0) :
    ∀ o ∈ os, o.OrderState.RawOrder.AmountS ≠ 0 ∧ o.OrderState.RawOrder.AmountB ≠ 0 := by
  intro o ho
  simp only [productPrice, ne_eq, div_eq_zero_iff, not_or, List.prod_eq_zero_iff,
    List.mem_map, not_exists, not_and] at h
  refine ⟨fun h0 => h.1 o ho (by simp [h0]), fun h0 => h.2 o ho (by simp [h0])⟩

/-- C11: when the float root `rate` of the price product `P` is exact, that is
`reducedRate ^ n * P = 1` for `reducedRate = 1 / rate`, and the tokens are
known, the volume and fee passes of `ComputeRing` complete and leave a ring (the
one every return of `ComputeRing` carries) whose reduced sell prices multiply to
exactly 1.  For two legs each selling 2 for 1 the reduced rate is 1/2, every
leg's `SPrice` is 1, the CVS is 0 and `ComputeRing` returns, with no error when
the threshold is not negative. -/
theorem sPrice_product_one_of_exact_root (e : Evaluator) (env : Env) (ring : Ring) (rate : ℚ)
    (hk : e.KnownTokens env ring.Orders)
    (hrate : env.rootOfRing (productPrice ring.Orders) ring.Orders.length = some rate)
    (hexact : rate⁻¹ ^ ring.Orders.length * productPrice ring.Orders = 1) :
    ∃ r2, (∃ r1, computeVolume env ring = some r1 ∧
        e.computeFeeOfRingAndOrder env r1 = some r2) ∧
      (∀ r err, e.ComputeRing env ring = some (r, err) → r = r2) ∧
      r2.ReducedRate = rate⁻¹ ∧
      (r2.Orders.map (fun a => a.SPrice)).prod = 1 ∧
      (ring.Orders.map (fun o => (o.OrderState.RawOrder.AmountS,
          o.OrderState.RawOrder.AmountB)) = [(2, 1), (2, 1)] →
        r2.ReducedRate = 1 / 2 ∧ (∀ a ∈ r2.Orders, a.SPrice = 1) ∧
        PriceRateCVSquare r2 = some (.ok 0) ∧
        e.ComputeRing env ring = some (r2,
          if 0 ≤ e.rateRatioCVSThreshold then none
          else some MinerError.cvsExceedsThreshold)) := by
  have hP : productPrice ring.Orders ≠ 0 := by
    intro h0
    rw [h0, mul_zero] at hexact
    exact zero_ne_one hexact
  have hne := amounts_ne_zero_of_productPrice hP
  have hr0 : rate ≠ 0 := by
    intro h0
    subst h0
    cases hn : ring.Orders.length with
    | zero =>
      have hnil : ring.Orders = [] := List.length_eq_zero.1 hn
      rw [hnil] at hrate
      have := env.rootOfRing_one 0
      simp [productPrice] at hrate
      rw [this] at hrate
      simp at hrate
    | succ k =>
      rw [hn] at hexact
      simp at hexact
  obtain ⟨r1, r2, h1, hrr1, h2⟩ := phases_isSome hne hrate hr0 hk
  obtain ⟨hrr2, hlen⟩ := phases_frame h1 h2
  have hprod := phases_sPrice_prod h1 h2
  rw [hrr1, hexact] at hprod
  refine ⟨r2, ⟨r1, h1, h2⟩, ?_, by rw [hrr2, hrr1], hprod, ?_⟩
  · intro r err h
    obtain ⟨r1', res, h1', h2', -, -⟩ := ComputeRing_spec h
    rw [h1] at h1'
    cases h1'
    rw [h2] at h2'
    cases h2'
    rfl
  · intro hshape
    have hlen2 : ring.Orders.length = 2 := by
      have := congrArg List.length hshape
      simpa using this
    have hamt : ∀ o ∈ ring.Orders, o.OrderState.RawOrder.AmountS = 2 ∧
        o.OrderState.RawOrder.AmountB = 1 := by
      intro o ho
      have : (o.OrderState.RawOrder.AmountS, o.OrderState.RawOrder.AmountB) ∈
          ring.Orders.map (fun o => (o.OrderState.RawOrder.AmountS,
            o.OrderState.RawOrder.AmountB)) := List.mem_map.2 ⟨o, ho, rfl⟩
      rw [hshape] at this
      simp only [List.mem_cons, Prod.mk.injEq, List.mem_singleton, or_self,
        List.not_mem_nil, or_false] at this
      exact this
    have hP4 : productPrice ring.Orders = 4 := by
      have hS : ring.Orders.map (fun o => (o.OrderState.RawOrder.AmountS : ℚ)) = [2, 2] := by
        have := congrArg (List.map fun p : ℤ × ℤ => (p.1 : ℚ)) hshape
        simpa [List.map_map, Function.comp] using this
      have hB : ring.Orders.map (fun o => (o.OrderState.RawOrder.AmountB : ℚ)) = [1, 1] := by
        have := congrArg (List.map fun p : ℤ × ℤ => (p.2 : ℚ)) hshape
        simpa [List.map_map, Function.comp] using this
      rw [productPrice, hS, hB]
      norm_num
    have hnn : 0 ≤ rate := env.rootOfRing_nonneg _ _ _ (by rw [hP4]; norm_num) hrate
    have hrr : rate⁻¹ = 1 / 2 := by
      rw [hlen2, hP4] at hexact
      have hpos : 0 ≤ rate⁻¹ := inv_nonneg.2 hnn
      nlinarith [sq_nonneg (rate⁻¹ - 1 / 2), sq_nonneg (rate⁻¹ + 1 / 2)]
    have hsp : ∀ a ∈ r2.Orders, a.SPrice = 1 := by
      intro a ha
      have hm : a.SPrice ∈ r2.Orders.map (fun a => a.SPrice) := List.mem_map.2 ⟨a, ha, rfl⟩
      rw [phases_sPrice h1 h2] at hm
      obtain ⟨o, ho, hoa⟩ := List.mem_map.1 hm
      obtain ⟨hS, hB⟩ := hamt o ho
      rw [← hoa, hS, hB, hrr1, hrr]
      norm_num
    have hlegs : ∀ a ∈ r2.Orders, a.OrderState.RawOrder.AmountS ≠ 0 ∧
        floatString0 a.RateAmountS ≤ ((a.OrderState.RawOrder.AmountS.natAbs : ℕ) : ℤ) ∧
        Int.ediv (10000 * floatString0 a.RateAmountS)
          ((a.OrderState.RawOrder.AmountS.natAbs : ℕ) : ℤ) = 5000 := by
      intro a ha
      obtain ⟨o, ho, hos, hra⟩ := phases_rateAmountS h1 h2 a ha
      obtain ⟨hS, -⟩ := hamt o ho
      have h1q : ((2 : ℤ) : ℚ) * (1 / 2) = ((1 : ℤ) : ℚ) := by norm_num
      rw [hra, hrr1, hrr, hos, hS, h1q, floatString0_intCast]
      decide
    have hcvs := PriceRateCVSquare_uniform 5000 (by omega) (by decide) hlegs
    refine ⟨by rw [hrr2, hrr1, hrr], hsp, hcvs, ?_⟩
    rw [ComputeRing_of_phases h1 h2 hcvs]
    have : Int64 0 = 0 := by decide
    simp [this]

/-- Witness of C11: the ring of two legs selling 2 for 1, whose float root 2 is
exact; `ComputeRing` returns success with reduced rate 1/2, price product 1,
every `SPrice` equal to 1 and CVS 0. -/
theorem sPrice_product_one_of_exact_root_witness :
    ∃ r, exampleEvaluator.ComputeRing exampleEnv twoForOneRing = some (r, none) ∧
      r.ReducedRate = 1 / 2 ∧ (r.Orders.map (fun a => a.SPrice)).prod = 1 ∧
      (∀ a ∈ r.Orders, a.SPrice = 1) ∧ PriceRateCVSquare r = some (.ok 0) := by
  have hP : productPrice twoForOneRing.Orders = 4 := by
    simp [productPrice, twoForOneRing, leg]
    norm_num
  obtain ⟨r, -, -, -, hprod, hex⟩ :=
    sPrice_product_one_of_exact_root exampleEvaluator exampleEnv twoForOneRing 2
      (exampleEvaluator_knows _ _)
      (by rw [hP]; simp [exampleEnv, exampleRoot, twoForOneRing])
      (by rw [hP]; simp [twoForOneRing]; norm_num)
  obtain ⟨hrr, hsp, hcvs, hret⟩ := hex (by simp [twoForOneRing, leg])
  refine ⟨r, ?_, hrr, hprod, hsp, hcvs⟩
  rw [hret]
  simp [exampleEvaluator, NewEvaluator]

/-! ## C12: the guard on `RateAmountS` compares a rounded value -/

/-- C12 (failing input). On the ring A: 1 S for 1 B, B: 1 S for 2 B, with the
binary64 square root of 1/2, every leg has `RateAmountS` about 1.414, above its
`AmountS = 1` as exact rationals, yet `PriceRateCVSquare` returns a CVS and no
error, and `ComputeRing` returns success: the guard of line 229 compares
`FloatString(0)` of `RateAmountS`, which is 1. -/
theorem rounded_guard_admits_excess :
    ∃ r, exampleEvaluator.ComputeRing exampleEnv underUnitRing = some (r, none) ∧
      r.Orders.length = 2 ∧
      (∀ a ∈ r.Orders, (a.OrderState.RawOrder.AmountS : ℚ) < a.RateAmountS ∧
        floatString0 a.RateAmountS = 1 ∧ a.OrderState.RawOrder.AmountS = 1) ∧
      ∃ cvs, PriceRateCVSquare r = some (.ok cvs) := by
  obtain ⟨-, r, hr, hrr, hlt⟩ := underUnitRing_admitted
  obtain ⟨r1, res, h1, h2, h3, herr⟩ := ComputeRing_spec hr
  obtain ⟨hrr2, hlen⟩ := phases_frame h1 h2
  refine ⟨r, hr, by simpa [underUnitRing] using hlen, ?_, ?_⟩
  · intro a ha
    obtain ⟨o, ho, hos, hra⟩ := phases_rateAmountS h1 h2 a ha
    have hS : o.OrderState.RawOrder.AmountS = 1 := by
      simp only [underUnitRing, leg, List.mem_cons, List.mem_singleton,
        List.not_mem_nil, or_false] at ho
      rcases ho with rfl | rfl <;> rfl
    rw [hra, hos, hS, ← hrr2, hrr]
    refine ⟨by norm_num, ?_, rfl⟩
    rw [floatString0_of_nonneg (by norm_num), Int.floor_eq_iff]
    constructor <;> norm_num
  · cases res with
    | error er => simp at herr
    | ok cvs => exact ⟨cvs, h3⟩

/-! ## C13: the CVS is computed in integers -/

/-- C13 (counterexample). `CVSquare` of the ratios 10000 and 9999 at scale
10000 is 1, where the formula of the specification gives
`200000000 / 399960001`, about 0.5: the mean is floored to 9999.  And on the
ring A: 3 S for 1 B, B: 4 S for 3 B, where `scale * rateAmountS / amountS` is
5000 on both legs (CVS 0 by the formula), the ratios of the code are 6666 and
5000, its CVS is 4078832 and the ring is rejected at threshold 0. -/
theorem CVSquare_differs_from_formula :
    (CVSquare [10000, 9999] 10000 = some 1 ∧
      CVSquareSpec [10000, 9999] 10000 = 200000000 / 399960001) ∧
    (∃ r, exampleEvaluator.ComputeRing exampleEnv roundingRing =
        some (r, some MinerError.cvsExceedsThreshold) ∧
      rateRatios 10000 r.Orders = some (.ok [6666, 5000]) ∧
      r.Orders.map (rateRatioSpec 10000) = [5000, 5000] ∧
      PriceRateCVSquare r = some (.ok 4078832)) ∧
    CVSquareSpec [5000, 5000] 10000 = 0 := by
  refine ⟨⟨by decide, ?_⟩, roundingRing_rejected, ?_⟩
  · norm_num [CVSquareSpec]
  · norm_num [CVSquareSpec]

/-- C13 (amended). For every list of `n ≥ 2` rate ratios whose floored mean
`avg = sum / n` (integer division) is not zero, `CVSquare` returns
`((Q * scale / avg) * scale / avg) / (n - 1)` with `Q` the sum of
`(ratio - avg)^2` and every `/` an integer division; this is the formula of the
specification when the mean is an integer and the three divisions are exact.
In `PriceRateCVSquare`, on a ring where no leg trips the guard, each ratio is
the integer quotient of `10000 * round(RateAmountS)` by `|AmountS|`, and the
result is `CVSquare` of these ratios at scale 10000. -/
theorem CVSquare_integer_formula (ratios : List ℤ) (scale : ℤ) (hn : 2 ≤ ratios.length)
    (havg : ratios.sum / (ratios.length : ℤ) ≠ 0) :
    ∃ avg Q c : ℤ, avg = ratios.sum / (ratios.length : ℤ) ∧
      Q = (ratios.map fun ratio => (ratio - avg) * (ratio - avg)).sum ∧
      c = Q * scale / avg * scale / avg / ((ratios.length : ℤ) - 1) ∧
      CVSquare ratios scale = some c ∧
      ((ratios.length : ℤ) ∣ ratios.sum → avg ∣ Q * scale → avg ∣ Q * scale / avg * scale →
        (ratios.length : ℤ) - 1 ∣ Q * scale / avg * scale / avg →
        (c : ℚ) = CVSquareSpec (ratios.map fun (ratio : ℤ) => (ratio : ℚ)) scale) ∧
      ∀ r : Ring,
        (∀ o ∈ r.Orders, o.OrderState.RawOrder.AmountS ≠ 0 ∧
          floatString0 o.RateAmountS ≤ ((o.OrderState.RawOrder.AmountS.natAbs : ℕ) : ℤ)) →
        rateRatios 10000 r.Orders = some (.ok (r.Orders.map (rateRatio 10000))) ∧
        (scale = 10000 → r.Orders.map (rateRatio 10000) = ratios →
          PriceRateCVSquare r = some (.ok c)) := by
  refine ⟨_, _, _, rfl, rfl, rfl, CVSquare_eq ratios scale hn havg, ?_, ?_⟩
  · intro hmean h1 h2 h3
    exact CVSquare_exact ratios scale hn havg hmean h1 h2 h3
  · intro r hguard
    have hrr := rateRatios_ok 10000 r.Orders hguard
    refine ⟨hrr, ?_⟩
    intro hs hr
    subst hs
    rw [hr] at hrr
    simp only [PriceRateCVSquare, hrr, Option.some_bind, CVSquare_eq ratios 10000 hn havg]

/-- Witness of C13: the ratios 9000 and 7000 of two legs with `AmountS = 10`
and `RateAmountS` 9 and 7; the mean 8000 is an integer, the divisions are exact
and the CVS is 3125000, as the formula of the specification gives. -/
theorem CVSquare_integer_formula_witness :
    CVSquare [9000, 7000] 10000 = some 3125000 ∧
    CVSquareSpec [9000, 7000] 10000 = 3125000 ∧
    rateRatios 10000 spreadRing.Orders = some (.ok [9000, 7000]) ∧
    PriceRateCVSquare spreadRing = some (.ok 3125000) := by
  obtain ⟨avg, Q, c, havg, hQ, hc, hcvs, hspec, hring⟩ :=
    CVSquare_integer_formula [9000, 7000] 10000 (by decide) (by decide)
  have havg8 : avg = 8000 := by rw [havg]; decide
  subst havg8
  have hQ2 : Q = 2000000 := by rw [hQ]; decide
  subst hQ2
  have hc2 : c = 3125000 := by rw [hc]; decide
  subst hc2
  have hf9 : floatString0 (9 : ℚ) = 9 := by
    rw [floatString0_of_nonneg (by norm_num), Int.floor_eq_iff]
    constructor <;> norm_num
  have hf7 : floatString0 (7 : ℚ) = 7 := by
    rw [floatString0_of_nonneg (by norm_num), Int.floor_eq_iff]
    constructor <;> norm_num
  have hmap : spreadRing.Orders.map (rateRatio 10000) = [9000, 7000] := by
    simp only [spreadRing, leg, List.map_cons, List.map_nil, rateRatio, hf9, hf7]
    decide
  obtain ⟨hrr, hprc⟩ := hring spreadRing (by
    intro o ho
    simp only [spreadRing, leg, List.mem_cons, List.mem_singleton, List.not_mem_nil,
      or_false] at ho
    rcases ho with rfl | rfl
    · simp only [hf9]; decide
    · simp only [hf7]; decide)
  rw [hmap] at hrr
  have hs := hspec (by decide) (by decide) (by decide) (by decide)
  have hlist : ([9000, 7000] : List ℤ).map (fun (ratio : ℤ) => (ratio : ℚ)) = [9000, 7000] := by
    simp
  rw [hlist] at hs
  refine ⟨hcvs, ?_, hrr, hprc rfl hmap⟩
  rw [← hs]
  norm_num

/-! ## C14-C17: the market-cap provider -/

/-- For a token address absent from the price table, whatever the currency
tag, `GetMarketCapByCurrency` returns the rational 1 together with the error
"not found tokenCap".  For a token of the table whose stored price in the
currency of the tag is set, it returns that price and no error; the currency
of a tag is USD or BTC when the upper-cased tag is "USD" or "BTC", CNY
otherwise.  For a token of the table whose price is still nil it aborts. -/
theorem GetMarketCapByCurrency_default_or_stored (p : CapProvider_CoinMarketCap)
    (toUpper : String → String) (tokenAddress : Address) (currencyStr : String) :
    (p.tokenMarketCaps tokenAddress = none →
      p.GetMarketCapByCurrency toUpper tokenAddress currencyStr =
        some (1, some (CapError.notFoundTokenCap tokenAddress))) ∧
    (∀ c v, p.tokenMarketCaps tokenAddress = some c →
      c.price (StringToLegalCurrency toUpper currencyStr) = some v →
      p.GetMarketCapByCurrency toUpper tokenAddress currencyStr = some (v, none)) ∧
    (∀ c, p.tokenMarketCaps tokenAddress = some c →
      c.price (StringToLegalCurrency toUpper currencyStr) = none →
      p.GetMarketCapByCurrency toUpper tokenAddress currencyStr = none) := by
  refine ⟨?_, ?_, ?_⟩
  · intro h
    simp [CapProvider_CoinMarketCap.GetMarketCapByCurrency, h]
  · intro c v hc hv
    simp [CapProvider_CoinMarketCap.GetMarketCapByCurrency, hc, hv]
  · intro c hc hv
    simp [CapProvider_CoinMarketCap.GetMarketCapByCurrency, hc, hv]

/-- C14 (failing input). `NewMarketCapProvider` on the registry of WETH
(address 1, feed id "ETH") and LRC (address 2, feed id "LRC"), with a first
feed that quotes only "eth", returns a provider and no error.  LRC is a known
token of its table, with the prices still nil that the token loop left: the
price query for it aborts in `Set` on the nil price (line 122) under the tags
"CNY", "USD" and "BTC", where the claim has the stored price and no error.
On the same provider WETH gets its stored price 2100 with no error and the
unknown address 7 the default 1 with the error. -/
theorem GetMarketCapByCurrency_aborts_on_unpriced_token :
    ∃ p, NewMarketCapProvider exampleUpper ("url") ("CNY") 5 exampleTokens
        (Fetched.decoded [some exampleQuote]) = some (Except.ok p) ∧
      p.tokenMarketCaps 2 = some (freshCap 2 ("LRC") ("LRC") 1000) ∧
      p.GetMarketCapByCurrency exampleUpper 2 ("CNY") = none ∧
      p.GetMarketCapByCurrency exampleUpper 2 ("USD") = none ∧
      p.GetMarketCapByCurrency exampleUpper 2 ("BTC") = none ∧
      p.GetMarketCapByCurrency exampleUpper 1 ("CNY") = some (2100, none) ∧
      p.GetMarketCapByCurrency exampleUpper 7 ("CNY") =
        some (1, some (CapError.notFoundTokenCap 7)) := by
  obtain ⟨p, hp, -, h1, h2, h7⟩ := NewMarketCapProvider_unquoted_token
  refine ⟨p, hp, h2, ?_, ?_, ?_, ?_, ?_⟩
  · simp [CapProvider_CoinMarketCap.GetMarketCapByCurrency, h2, freshCap,
      CurrencyMarketCap.price, StringToLegalCurrency, exampleUpper]
  · simp [CapProvider_CoinMarketCap.GetMarketCapByCurrency, h2, freshCap,
      CurrencyMarketCap.price, StringToLegalCurrency, exampleUpper]
  · simp [CapProvider_CoinMarketCap.GetMarketCapByCurrency, h2, freshCap,
      CurrencyMarketCap.price, StringToLegalCurrency, exampleUpper]
  · simp [CapProvider_CoinMarketCap.GetMarketCapByCurrency, h1, freshCap,
      CurrencyMarketCap.synced, exampleQuote, CurrencyMarketCap.price, StringToLegalCurrency,
      exampleUpper]
  · simp [CapProvider_CoinMarketCap.GetMarketCapByCurrency, h7]

/-- C15 (failing input). On the example provider the token of address 7 is not
in the price table.  `LegalCurrencyValueByCurrency` and `LegalCurrencyValue`
return for it a nil rational with the error, not 1, where the price query
`GetMarketCapByCurrency` returns 1 with the error; `getLegalCurrency` drops the
error and hands the nil on, and the fee pass on a leg that buys the token
aborts. -/
theorem legal_value_of_unknown_token_is_nil :
    exampleCapProvider.tokenMarketCaps 7 = none ∧
    exampleCapProvider.LegalCurrencyValueByCurrency exampleUpper 7 5 ("CNY") =
      some (none, some (CapError.notFoundTokenCap 7)) ∧
    exampleCapProvider.LegalCurrencyValue exampleUpper 7 5 =
      some (none, some (CapError.notFoundTokenCap 7)) ∧
    exampleCapProvider.GetMarketCapByCurrency exampleUpper 7 ("CNY") =
      some (1, some (CapError.notFoundTokenCap 7)) ∧
    capEvaluator.getLegalCurrency 7 5 = some none ∧
    capEvaluator.computeFeeOfRingAndOrder exampleEnv strangerRing = none := by
  have h7 : exampleCapProvider.tokenMarketCaps 7 = none := by decide
  have hv : ∀ amount : ℚ, exampleCapProvider.LegalCurrencyValue exampleUpper 7 amount =
      some (none, some (CapError.notFoundTokenCap 7)) := by
    intro amount
    simp [CapProvider_CoinMarketCap.LegalCurrencyValue,
      CapProvider_CoinMarketCap.LegalCurrencyValueByCurrency, h7]
  have hg : ∀ amount : ℚ, capEvaluator.getLegalCurrency 7 amount = some none := by
    intro amount
    simp [Evaluator.getLegalCurrency, capEvaluator, NewEvaluator,
      CapProvider_CoinMarketCap.asProvider, hv]
  refine ⟨h7, ?_, hv 5, ?_, hg 5, ?_⟩
  · simp [CapProvider_CoinMarketCap.LegalCurrencyValueByCurrency, h7]
  · simp [CapProvider_CoinMarketCap.GetMarketCapByCurrency, h7]
  · simp [Evaluator.computeFeeOfRingAndOrder, Evaluator.feeLoop, Evaluator.computeFeeOfOrder,
      strangerRing, strangerLeg, savingOfOrder, hg]

/-- A null element of the decoded list makes `syncMarketCap` abort at the read
of its id (line 177), after the quotes before it have been written to the
table. -/
theorem syncMarketCap_aborts_on_null_quote :
    pairCapProvider.syncMarketCap exampleUpper (Fetched.decoded [some exampleQuote, none]) =
      none := by
  simp [CapProvider_CoinMarketCap.syncMarketCap, syncLoop, syncStep, pairCapProvider,
    exampleQuote, exampleUpper]

/-- C17. When the HTTP fetch, the body read or the JSON decoding fails,
`syncMarketCap` returns that error and leaves the provider, its price table
included, exactly as it was. -/
theorem syncMarketCap_failure_keeps_table (p : CapProvider_CoinMarketCap)
    (toUpper : String → String) (err : String) :
    p.syncMarketCap toUpper (Fetched.getFailed err) = some (p, some err) ∧
    p.syncMarketCap toUpper (Fetched.readFailed err) = some (p, some err) ∧
    p.syncMarketCap toUpper (Fetched.unmarshalFailed err) = some (p, some err) :=
  ⟨rfl, rfl, rfl⟩

/-! ## C18-C19: the wallet service -/

/-- C18 (failing input). `SubmitOrder` returns the string "SUBMIT_SUCCESS" for
every order, together with whatever the handler returned: for an order the
handler rejects it returns "SUBMIT_SUCCESS" and the handler's error.  The
sibling `UnlockWallet` returns the empty string with the error of a failed
unlock. -/
theorem SubmitOrder_reports_success_on_rejection :
    (∀ (Request Order Err : Type) (ToOrder : Request → Order)
        (HandleOrder : Order → Option Err) (order : Request),
      SubmitOrder ToOrder HandleOrder order = ("SUBMIT_SUCCESS", HandleOrder (ToOrder order))) ∧
    SubmitOrder (fun r : ℕ => r) (fun o : ℕ => if o = 0 then some ("rejected") else none) 0 =
      ("SUBMIT_SUCCESS", some ("rejected")) ∧
    UnlockWallet false ("null owner") (some ("locked")) = ("", some ("locked")) :=
  ⟨fun _ _ _ _ _ _ => rfl, rfl, rfl⟩

/-- C19. For an order that `IsExpired` reports expired, `getStringStatus`
returns "ORDER_EXPIRE" whatever its stored status is, and so does the status of
`orderStateToJson`; the order is passed by value and only read.  For an order
that neither call of `IsExpired` reports expired the label is that of the
stored status, whatever the other fields are: NEW and PARTIAL give
"ORDER_OPENED", FINISHED "ORDER_FINISHED", CANCEL "ORDER_CANCELLED", CUTOFF
"ORDER_CUTOFF", EXPIRE "ORDER_EXPIRE", PENDING "ORDER_PENDING", any other value
"ORDER_UNKNOWN". -/
theorem getStringStatus_expired_or_stored (order : OrderState) (raw : RawOrder)
    (expiredAgain : Bool) :
    getStringStatus order true expiredAgain = "ORDER_EXPIRE" ∧
    orderStateToJson_Status order true expiredAgain = "ORDER_EXPIRE" ∧
    getStringStatus order false false =
      getStringStatus { RawOrder := raw, Status := order.Status } false false ∧
    orderStateToJson_Status order false false = getStringStatus order false false ∧
    getStringStatus { RawOrder := raw, Status := OrderStatus.ORDER_NEW } false false =
      "ORDER_OPENED" ∧
    getStringStatus { RawOrder := raw, Status := OrderStatus.ORDER_PARTIAL } false false =
      "ORDER_OPENED" ∧
    getStringStatus { RawOrder := raw, Status := OrderStatus.ORDER_FINISHED } false false =
      "ORDER_FINISHED" ∧
    getStringStatus { RawOrder := raw, Status := OrderStatus.ORDER_CANCEL } false false =
      "ORDER_CANCELLED" ∧
    getStringStatus { RawOrder := raw, Status := OrderStatus.ORDER_CUTOFF } false false =
      "ORDER_CUTOFF" ∧
    getStringStatus { RawOrder := raw, Status := OrderStatus.ORDER_EXPIRE } false false =
      "ORDER_EXPIRE" ∧
    getStringStatus { RawOrder := raw, Status := OrderStatus.ORDER_PENDING } false false =
      "ORDER_PENDING" ∧
    ∀ code, getStringStatus { RawOrder := raw, Status := OrderStatus.other code } false false =
      "ORDER_UNKNOWN" :=
  ⟨rfl, rfl, rfl, rfl, rfl, rfl, rfl, rfl, rfl, rfl, rfl, fun _ => rfl⟩

/-! ## C20: a zero mean rate ratio -/

/-- C20 (failing input). The ring A: 10^10 S for 1 B, B: 1 S for 1 B has two
legs, positive amounts, price product 10^10, populated balances and known
tokens.  With the float root 10^5 the volume and fee passes complete, the
reduced rate is 10^-5, the rate ratios are 0 and 0, their mean is 0, and
`CVSquare` divides by it: `PriceRateCVSquare` and `ComputeRing` abort. -/
theorem ComputeRing_aborts_on_zero_mean :
    deepRing.Orders.length = 2 ∧
    (∀ o ∈ deepRing.Orders, 0 < o.OrderState.RawOrder.AmountS ∧
      0 < o.OrderState.RawOrder.AmountB ∧ 0 < o.AvailableAmountS ∧
      0 < o.AvailableAmountB ∧ 0 < o.AvailableLrcBalance) ∧
    1 ≤ productPrice deepRing.Orders ∧
    exampleEvaluator.KnownTokens exampleEnv deepRing.Orders ∧
    (∃ r1 r2, computeVolume exampleEnv deepRing = some r1 ∧
      exampleEvaluator.computeFeeOfRingAndOrder exampleEnv r1 = some r2 ∧
      rateRatios 10000 r2.Orders = some (.ok [0, 0]) ∧
      PriceRateCVSquare r2 = none) ∧
    CVSquare [0, 0] 10000 = none ∧
    exampleEvaluator.ComputeRing exampleEnv deepRing = none := by
  have hP : productPrice deepRing.Orders = 10000000000 := by
    simp [productPrice, deepRing, leg]
  have hrate : exampleEnv.rootOfRing (productPrice deepRing.Orders)
      deepRing.Orders.length = some 100000 := by
    rw [hP]; simp [exampleEnv, exampleRoot, deepRing]
    norm_num
  obtain ⟨r1, r2, h1, hrr1, h2⟩ := phases_isSome (e := exampleEvaluator)
    (by simp [deepRing, leg]) hrate (by norm_num) (exampleEvaluator_knows _ _)
  have hlegs := phases_legs h1 h2
  rw [hrr1] at hlegs
  have hpairs : r2.Orders.map (fun a => (a.OrderState.RawOrder.AmountS, a.RateAmountS)) =
      [((10000000000 : ℤ), (100000 : ℚ)), ((1 : ℤ), (1 / 100000 : ℚ))] := by
    rw [hlegs]
    simp [deepRing, leg]
    norm_num
  have hf1 : floatString0 (100000 : ℚ) = 100000 := by
    rw [floatString0_of_nonneg (by norm_num), Int.floor_eq_iff]
    constructor <;> norm_num
  have hf2 : floatString0 (1 / 100000 : ℚ) = 0 := by
    rw [floatString0_of_nonneg (by norm_num), Int.floor_eq_iff]
    constructor <;> norm_num
  have hguard : ∀ a ∈ r2.Orders, a.OrderState.RawOrder.AmountS ≠ 0 ∧
      floatString0 a.RateAmountS ≤ ((a.OrderState.RawOrder.AmountS.natAbs : ℕ) : ℤ) := by
    intro a ha
    have hm : (a.OrderState.RawOrder.AmountS, a.RateAmountS) ∈
        r2.Orders.map (fun a => (a.OrderState.RawOrder.AmountS, a.RateAmountS)) :=
      List.mem_map.2 ⟨a, ha, rfl⟩
    rw [hpairs] at hm
    simp only [List.mem_cons, Prod.mk.injEq, List.mem_singleton, List.not_mem_nil,
      or_false] at hm
    rcases hm with ⟨hS, hR⟩ | ⟨hS, hR⟩
    · rw [hS, hR, hf1]; decide
    · rw [hS, hR, hf2]; decide
  have hratios : r2.Orders.map (rateRatio 10000) = [0, 0] := by
    rw [map_rateRatio, hpairs]
    simp only [List.map_cons, List.map_nil, hf1, hf2]
    decide
  have hrr := rateRatios_ok 10000 r2.Orders hguard
  rw [hratios] at hrr
  have hc : CVSquare [0, 0] 10000 = none := by decide
  have hcvs : PriceRateCVSquare r2 = none := by
    simp only [PriceRateCVSquare, hrr, Option.some_bind, hc, Option.none_bind]
  refine ⟨rfl, ?_, by rw [hP]; norm_num, exampleEvaluator_knows _ _,
    ⟨r1, r2, h1, h2, hrr, hcvs⟩, hc, ?_⟩
  · simp [deepRing, leg]
  · simp only [Evaluator.ComputeRing, h1, h2, hcvs, Option.some_bind, Option.none_bind]

/-! ## C21: `ComputeRing` keeps no state between calls -/

/-- C21. What `ComputeRing` returns, the ring with every field it writes and the
error, depends only on the inputs of the legs (raw orders, available amounts
and LRC balances), the evaluator and the environment: two rings whose legs have
the same inputs get the same return, aborts included, whatever their other
fields held.  The ring that a call returns has the inputs of the ring it got,
so a second call on that ring returns the same ring and the same error. -/
theorem ComputeRing_stateless (e : Evaluator) (env : Env) (ring ring' : Ring)
    (hin : ring'.Orders.map (FilledOrder.inputs id) = ring.Orders.map (FilledOrder.inputs id)) :
    e.ComputeRing env ring' = e.ComputeRing env ring ∧
    ∀ r err, e.ComputeRing env ring = some (r, err) →
      r.Orders.map (FilledOrder.inputs id) = ring.Orders.map (FilledOrder.inputs id) ∧
      e.ComputeRing env r = some (r, err) := by
  constructor
  · rw [ComputeRing_normal e env ring', ComputeRing_normal e env ring, hin]
  · intro r err h
    have hout := ComputeRing_output_inputs h
    refine ⟨hout, ?_⟩
    rw [ComputeRing_normal e env r, hout, ← ComputeRing_normal e env ring]
    exact h

/-- Witness of C21: the ring A: 1000/500, B: 500/10 with values left in the
written fields gets the return of the fresh ring, success, and a second call on
the returned ring returns it again. -/
theorem ComputeRing_stateless_witness :
    exampleEvaluator.ComputeRing exampleEnv usedRing =
      exampleEvaluator.ComputeRing exampleEnv skewedRing ∧
    ∃ r, exampleEvaluator.ComputeRing exampleEnv skewedRing = some (r, none) ∧
      exampleEvaluator.ComputeRing exampleEnv r = some (r, none) := by
  obtain ⟨h1, h2⟩ := ComputeRing_stateless exampleEvaluator exampleEnv skewedRing usedRing rfl
  obtain ⟨r, hr, -⟩ := skewed_admitted exampleEvaluator exampleEnv skewedRing rfl
    ⟨rfl, rfl⟩ ⟨rfl, rfl⟩ (by simp [exampleEnv, exampleRoot]) (exampleEvaluator_knows _ _)
    (by simp [exampleEvaluator, NewEvaluator])
  exact ⟨h1, r, hr, (h2 r none hr).2⟩

/-! ## C22-C23: the price test and the guard on `RateAmountS` -/

/-- C22. For two orders with positive amounts `PriceValid` is true exactly when
the price product `(AmountS_a / AmountB_a) * (AmountS_b / AmountB_b)` of the
ring of the two is at least 1, and it does not depend on the order of its
arguments. -/
theorem PriceValid_iff_product_ge_one (a b : FilledOrder)
    (ha : 0 < a.OrderState.RawOrder.AmountS ∧ 0 < a.OrderState.RawOrder.AmountB)
    (hb : 0 < b.OrderState.RawOrder.AmountS ∧ 0 < b.OrderState.RawOrder.AmountB) :
    (PriceValid a.OrderState b.OrderState = true ↔ 1 ≤ productPrice [a, b]) ∧
    productPrice [a, b] =
      ((a.OrderState.RawOrder.AmountS : ℚ) / (a.OrderState.RawOrder.AmountB : ℚ)) *
        ((b.OrderState.RawOrder.AmountS : ℚ) / (b.OrderState.RawOrder.AmountB : ℚ)) ∧
    PriceValid a.OrderState b.OrderState = PriceValid b.OrderState a.OrderState := by
  have haB : (0 : ℚ) < (a.OrderState.RawOrder.AmountB : ℚ) := by exact_mod_cast ha.2
  have hbB : (0 : ℚ) < (b.OrderState.RawOrder.AmountB : ℚ) := by exact_mod_cast hb.2
  have hP : productPrice [a, b] =
      ((a.OrderState.RawOrder.AmountS : ℚ) * (b.OrderState.RawOrder.AmountS : ℚ)) /
        ((a.OrderState.RawOrder.AmountB : ℚ) * (b.OrderState.RawOrder.AmountB : ℚ)) := by
    simp [productPrice]
  refine ⟨?_, ?_, ?_⟩
  · rw [hP, le_div_iff₀ (mul_pos haB hbB), one_mul]
    simp only [PriceValid, decide_eq_true_eq]
    constructor
    · intro h; exact_mod_cast h
    · intro h; exact_mod_cast h
  · rw [hP, mul_div_mul_comm]
  · simp only [PriceValid]
    rw [mul_comm a.OrderState.RawOrder.AmountB, mul_comm a.OrderState.RawOrder.AmountS]

/-- Witness of C22: A sells 1000 for 500 and B sells 500 for 10; the product
is 100 and the test is true in both orders. -/
theorem PriceValid_iff_product_ge_one_witness :
    PriceValid (leg 1000 500 1000).OrderState (leg 500 10 500).OrderState = true ∧
    1 ≤ productPrice [leg 1000 500 1000, leg 500 10 500] ∧
    PriceValid (leg 500 10 500).OrderState (leg 1000 500 1000).OrderState = true := by
  obtain ⟨h1, -, h3⟩ := PriceValid_iff_product_ge_one (leg 1000 500 1000) (leg 500 10 500)
    (by simp [leg]) (by simp [leg])
  have hv : PriceValid (leg 1000 500 1000).OrderState (leg 500 10 500).OrderState = true := by
    decide
  exact ⟨hv, h1.1 hv, by rw [← h3]; exact hv⟩

/-- The rounded `RateAmountS` of a leg with positive `AmountS` under a reduced
rate between 0 and 1 is at most `AmountS`. -/
theorem floatString0_rate_le {S : ℤ} {rr : ℚ} (hS : 0 < S) (h0 : 0 < rr) (h1 : rr ≤ 1) :
    floatString0 ((S : ℚ) * rr) ≤ S := by
  have hSq : (0 : ℚ) < (S : ℚ) := by exact_mod_cast hS
  rw [floatString0_of_nonneg (le_of_lt (mul_pos hSq h0))]
  have hle : (S : ℚ) * rr ≤ (S : ℚ) := by nlinarith
  have hlt : ⌊(S : ℚ) * rr + 1 / 2⌋ < S + 1 := by
    rw [Int.floor_lt]
    push_cast
    linarith
  omega

/-- C23. On a ring state whose legs have positive `AmountS` and
`RateAmountS = AmountS * reducedRate` with `0 < reducedRate ≤ 1`, no leg trips
the guard of `PriceRateCVSquare`: the loop returns the rate ratio of every leg
and `PriceRateCVSquare` returns no error.  So a return of `ComputeRing` that
leaves such a ring never carries the error "rateAmountS must less than
amountS". -/
theorem rate_guard_unreachable (r : Ring)
    (hpos : ∀ o ∈ r.Orders, 0 < o.OrderState.RawOrder.AmountS)
    (hrr : 0 < r.ReducedRate ∧ r.ReducedRate ≤ 1)
    (hra : ∀ o ∈ r.Orders,
      o.RateAmountS = (o.OrderState.RawOrder.AmountS : ℚ) * r.ReducedRate) :
    (∀ o ∈ r.Orders, floatString0 o.RateAmountS ≤ o.OrderState.RawOrder.AmountS) ∧
    rateRatios 10000 r.Orders = some (.ok (r.Orders.map (rateRatio 10000))) ∧
    PriceRateCVSquare r =
      (CVSquare (r.Orders.map (rateRatio 10000)) 10000).map (fun cvs => .ok cvs) ∧
    (∀ err, PriceRateCVSquare r ≠ some (.error err)) ∧
    (∀ (e : Evaluator) (env : Env) (ring : Ring) (err : Option MinerError),
      e.ComputeRing env ring = some (r, err) →
      err = none ∨ err = some MinerError.cvsExceedsThreshold) := by
  have hg : ∀ o ∈ r.Orders, floatString0 o.RateAmountS ≤ o.OrderState.RawOrder.AmountS := by
    intro o ho
    rw [hra o ho]
    exact floatString0_rate_le (hpos o ho) hrr.1 hrr.2
  have hok := rateRatios_ok 10000 r.Orders (by
    intro o ho
    have hS := hpos o ho
    have habs : ((o.OrderState.RawOrder.AmountS.natAbs : ℕ) : ℤ) =
        o.OrderState.RawOrder.AmountS := Int.natAbs_of_nonneg (le_of_lt hS)
    rw [habs]
    exact ⟨ne_of_gt hS, hg o ho⟩)
  have hprc : PriceRateCVSquare r =
      (CVSquare (r.Orders.map (rateRatio 10000)) 10000).map (fun cvs => .ok cvs) := by
    simp only [PriceRateCVSquare, hok, Option.some_bind]
    cases CVSquare (r.Orders.map (rateRatio 10000)) 10000 <;> rfl
  have hne : ∀ err, PriceRateCVSquare r ≠ some (.error err) := by
    intro err h
    rw [hprc] at h
    cases hc : CVSquare (r.Orders.map (rateRatio 10000)) 10000 with
    | none => rw [hc] at h; cases h
    | some c => rw [hc] at h; cases h
  refine ⟨hg, hok, hprc, hne, ?_⟩
  intro e env ring err h
  obtain ⟨r1, res, -, -, h3, herr⟩ := ComputeRing_spec h
  cases res with
  | error er => exact absurd h3 (hne er)
  | ok cvs =>
    simp only at herr
    split at herr
    · exact Or.inl herr
    · exact Or.inr herr

/-- Witness of C23: the ring state that the ring of two legs selling 2 for 1
gets, with reduced rate 1/2 and `RateAmountS = 1` on both legs of
`AmountS = 2`. -/
theorem rate_guard_unreachable_witness :
    rateRatios 10000
        [{ leg 2 1 2 with RateAmountS := 1 }, { leg 2 1 2 with RateAmountS := 1 }] =
      some (.ok [5000, 5000]) ∧
    PriceRateCVSquare
        { Orders := [{ leg 2 1 2 with RateAmountS := 1 }, { leg 2 1 2 with RateAmountS := 1 }]
          ReducedRate := 1 / 2 } = some (.ok 0) := by
  obtain ⟨-, h2, h3, -, -⟩ := rate_guard_unreachable
    { Orders := [{ leg 2 1 2 with RateAmountS := 1 }, { leg 2 1 2 with RateAmountS := 1 }]
      ReducedRate := 1 / 2 }
    (by simp [leg]) (by norm_num) (by simp [leg])
  have hf : floatString0 (1 : ℚ) = 1 := by
    rw [floatString0_of_nonneg (by norm_num), Int.floor_eq_iff]
    constructor <;> norm_num
  have hm : ([{ leg 2 1 2 with RateAmountS := 1 }, { leg 2 1 2 with RateAmountS := 1 }] :
      List FilledOrder).map (rateRatio 10000) = [5000, 5000] := by
    simp only [List.map_cons, List.map_nil, rateRatio, leg, hf]
    decide
  simp only [hm] at h2 h3
  refine ⟨h2, ?_⟩
  have hc : CVSquare [5000, 5000] 10000 = some 0 := by decide
  rw [h3, hc]
  rfl

/-! ## C24: the buy-side availability is not read -/

theorem cappedRing_root :
    exampleEnv.rootOfRing (productPrice cappedRing.Orders) cappedRing.Orders.length = some 1 := by
  have hP : productPrice cappedRing.Orders = 1 := by
    simp [productPrice, cappedRing, leg]
  rw [hP]
  exact exampleEnv.rootOfRing_one _

/-- C24 (counterexample). In the ring at price 1 where A and B each have 1000 of
their sell token available and B can absorb only 100 on its buy side, the
volume allocation fills both legs at 1000: the `FillAmountB` of B is 1000, above
its `AvailableAmountB` of 100, and `ComputeRing` returns success with these
fills. -/
theorem fillAmountB_exceeds_availableAmountB :
    (computeVolume exampleEnv cappedRing).map
        (fun r => r.Orders.map fun o => (o.FillAmountS, o.FillAmountB, o.AvailableAmountB)) =
      some [(1000, 1000, 1000), (1000, 1000, 100)] ∧
    ∃ r, exampleEvaluator.ComputeRing exampleEnv cappedRing = some (r, none) ∧
      r.Orders.map (fun o => (o.FillAmountS, o.FillAmountB, o.AvailableAmountB)) =
        [(1000, 1000, 1000), (1000, 1000, 100)] := by
  have hvol : (computeVolume exampleEnv cappedRing).map
      (fun r => r.Orders.map fun o => (o.FillAmountS, o.FillAmountB, o.AvailableAmountB)) =
      some [(1000, 1000, 1000), (1000, 1000, 100)] := by
    norm_num [computeVolume, forwardOfRing, priceLoop, ratQuo, ratInv, forwardPass,
      forwardLeg, backwardLoop, backwardStep, completionLoop, completionStep, cappedRing, leg,
      exampleEnv, exampleRoot]
  refine ⟨hvol, ?_⟩
  obtain ⟨r, hr, -, -⟩ := admitted_of_root_one exampleEvaluator exampleEnv cappedRing
    (by simp [cappedRing, leg]) cappedRing_root (exampleEvaluator_knows _ _)
    (by simp [cappedRing]) (by simp [exampleEvaluator, NewEvaluator])
  refine ⟨r, hr, ?_⟩
  obtain ⟨r1, res, h1, h2, -, -⟩ := ComputeRing_spec hr
  rw [computeFee_map (fun o => (o.FillAmountS, o.FillAmountB, o.AvailableAmountB))
    (fun _ _ _ _ _ => rfl) h2]
  rw [h1] at hvol
  simpa using hvol

/-- C24 (amended). For a ring with positive amounts and a positive reduced
rate, lines 42-148 of `ComputeRing` complete and every leg sells at most the
`AvailableAmountS` it came in with; `AvailableAmountB` is not read: replacing
it on every leg changes nothing else in what `ComputeRing` returns, neither
the ring nor the error. -/
theorem fills_bounded_by_availableAmountS_only (e : Evaluator) (env : Env) (ring : Ring)
    (rate : ℚ) (β : ℚ → ℚ)
    (hpos : ∀ o ∈ ring.Orders,
      0 < o.OrderState.RawOrder.AmountS ∧ 0 < o.OrderState.RawOrder.AmountB)
    (hrate : env.rootOfRing (productPrice ring.Orders) ring.Orders.length = some rate)
    (hrr : 0 < rate⁻¹) :
    (∃ r1, computeVolume env ring = some r1 ∧
      ∀ (i : ℕ) (o : FilledOrder), ring.Orders[i]? = some o →
        ∃ a, r1.Orders[i]? = some a ∧ a.FillAmountS ≤ o.AvailableAmountS ∧
          a.AvailableAmountB = o.AvailableAmountB) ∧
    e.ComputeRing env
        { ring with Orders := ring.Orders.map (FilledOrder.withAvailableAmountB β) } =
      (e.ComputeRing env ring).map (fun res =>
        ({ res.1 with Orders := res.1.Orders.map (FilledOrder.withAvailableAmountB β) },
          res.2)) := by
  have hr0 : rate ≠ 0 := by
    intro h0; simp [h0] at hrr
  obtain ⟨r1, hr1⟩ := computeVolume_isSome (amounts_ne_zero hpos) hrate hr0
  refine ⟨⟨r1, hr1, ?_⟩, ComputeRing_withAvailableAmountB β e env ring⟩
  intro i o ho
  obtain ⟨-, rate', os2, m, hrate', -, -, -, -, -, hS, -, -, hLe⟩ := computeVolume_spec hr1
  rw [hrate] at hrate'
  cases hrate'
  obtain ⟨f, hf⟩ := hS i o ho
  have := hLe (fun o' ho' => priced_reduced_pos (hpos o' ho') hrr) i _ hf
  exact ⟨_, hf, this, rfl⟩

/-- Witness of C24: in the ring at price 1 where A has 1000 of its sell token
available and B only 100, B sells its 100 and A is cut back to sell 100; and
the ring of the counterexample, which differs only by `AvailableAmountB`,
gets the return of the same ring with no `AvailableAmountB` at all. -/
theorem fills_bounded_by_availableAmountS_only_witness :
    (computeVolume exampleEnv shortRing).map
        (fun r => r.Orders.map fun o => (o.FillAmountS, o.FillAmountB)) =
      some [(100, 100), (100, 100)] ∧
    (∃ r1, computeVolume exampleEnv shortRing = some r1 ∧
      ∀ (i : ℕ) (o : FilledOrder), shortRing.Orders[i]? = some o →
        ∃ a, r1.Orders[i]? = some a ∧ a.FillAmountS ≤ o.AvailableAmountS ∧
          a.AvailableAmountB = o.AvailableAmountB) ∧
    exampleEvaluator.ComputeRing exampleEnv
        { cappedRing with
          Orders := cappedRing.Orders.map (FilledOrder.withAvailableAmountB fun _ => 0) } =
      (exampleEvaluator.ComputeRing exampleEnv cappedRing).map (fun res =>
        ({ res.1 with
            Orders := res.1.Orders.map (FilledOrder.withAvailableAmountB fun _ => 0) },
          res.2)) := by
  have hP : productPrice shortRing.Orders = 1 := by
    simp [productPrice, shortRing, leg]
  have hroot : exampleEnv.rootOfRing (productPrice shortRing.Orders)
      shortRing.Orders.length = some 1 := by
    rw [hP]
    exact exampleEnv.rootOfRing_one _
  refine ⟨?_, (fills_bounded_by_availableAmountS_only exampleEvaluator exampleEnv shortRing 1
      (fun _ => 0) (by simp [shortRing, leg]) hroot (by norm_num)).1,
    (fills_bounded_by_availableAmountS_only exampleEvaluator exampleEnv cappedRing 1
      (fun _ => 0) (by simp [cappedRing, leg]) cappedRing_root (by norm_num)).2⟩
  norm_num [computeVolume, forwardOfRing, priceLoop, ratQuo, ratInv, forwardPass,
    forwardLeg, backwardLoop, backwardStep, completionLoop, completionStep, shortRing, leg,
    exampleEnv, exampleRoot]

/-! ## C25-C27: the fills at the reduced prices -/

/-- A leg in reduced form with a non-zero reduced price is filled at that
price, in both directions. -/
theorem reduced_filled_at_price (o : FilledOrder) (rr f : ℚ)
    (h : o.priced.SPrice * rr ≠ 0) :
    (o.priced.reduced rr f).SPrice =
      rr * ((o.OrderState.RawOrder.AmountS : ℚ) / (o.OrderState.RawOrder.AmountB : ℚ)) ∧
    (o.priced.reduced rr f).BPrice = 1 / (o.priced.reduced rr f).SPrice ∧
    (o.priced.reduced rr f).FillAmountB =
      (o.priced.reduced rr f).FillAmountS * (o.priced.reduced rr f).BPrice ∧
    (o.priced.reduced rr f).FillAmountS =
      (o.priced.reduced rr f).FillAmountB * (o.priced.reduced rr f).SPrice := by
  refine ⟨?_, ?_, rfl, ?_⟩
  · simp only [FilledOrder.reduced, FilledOrder.priced]
    ring
  · simp only [FilledOrder.reduced, one_div]
  · simp only [FilledOrder.reduced]
    field_simp

/-- C25. For a ring with positive amounts and a positive reduced rate, lines
42-148 of `ComputeRing` complete and every leg, whatever its place relative to
the minimum-volume leg, is filled at its reduced price:
`SPrice = reducedRate * AmountS / AmountB`, `BPrice = 1 / SPrice`,
`FillAmountB = FillAmountS * BPrice` and `FillAmountS = FillAmountB * SPrice`;
the same holds of the ring `ComputeRing` leaves when it returns. -/
theorem legs_filled_at_reduced_price (e : Evaluator) (env : Env) (ring : Ring) (rate : ℚ)
    (hpos : ∀ o ∈ ring.Orders,
      0 < o.OrderState.RawOrder.AmountS ∧ 0 < o.OrderState.RawOrder.AmountB)
    (hrate : env.rootOfRing (productPrice ring.Orders) ring.Orders.length = some rate)
    (hrr : 0 < rate⁻¹) :
    (∃ r1, computeVolume env ring = some r1 ∧ r1.ReducedRate = rate⁻¹ ∧
      ∀ (i : ℕ) (o : FilledOrder), ring.Orders[i]? = some o →
        ∃ a, r1.Orders[i]? = some a ∧
          a.SPrice = r1.ReducedRate * ((o.OrderState.RawOrder.AmountS : ℚ) /
            (o.OrderState.RawOrder.AmountB : ℚ)) ∧
          a.BPrice = 1 / a.SPrice ∧
          a.FillAmountB = a.FillAmountS * a.BPrice ∧
          a.FillAmountS = a.FillAmountB * a.SPrice) ∧
    (∀ r err, e.ComputeRing env ring = some (r, err) → r.ReducedRate = rate⁻¹ ∧
      ∀ (i : ℕ) (o : FilledOrder), ring.Orders[i]? = some o →
        ∃ a, r.Orders[i]? = some a ∧
          a.SPrice = r.ReducedRate * ((o.OrderState.RawOrder.AmountS : ℚ) /
            (o.OrderState.RawOrder.AmountB : ℚ)) ∧
          a.BPrice = 1 / a.SPrice ∧
          a.FillAmountB = a.FillAmountS * a.BPrice ∧
          a.FillAmountS = a.FillAmountB * a.SPrice) := by
  have hr0 : rate ≠ 0 := by
    intro h0; simp [h0] at hrr
  have key : ∀ r1, computeVolume env ring = some r1 → r1.ReducedRate = rate⁻¹ ∧
      ∀ (i : ℕ) (o : FilledOrder), ring.Orders[i]? = some o →
        ∃ f, r1.Orders[i]? = some (o.priced.reduced rate⁻¹ f) ∧
          o.priced.SPrice * rate⁻¹ ≠ 0 := by
    intro r1 hr1
    obtain ⟨-, rate', os2, m, hrate', -, hrr', -, -, -, hS, -, -, -⟩ := computeVolume_spec hr1
    rw [hrate] at hrate'
    cases hrate'
    refine ⟨hrr', ?_⟩
    intro i o ho
    obtain ⟨f, hf⟩ := hS i o ho
    exact ⟨f, hf, ne_of_gt (priced_reduced_pos (hpos o (List.mem_iff_getElem?.2 ⟨i, ho⟩)) hrr)⟩
  obtain ⟨r1, hr1⟩ := computeVolume_isSome (amounts_ne_zero hpos) hrate hr0
  constructor
  · obtain ⟨hrr1, hk⟩ := key r1 hr1
    refine ⟨r1, hr1, hrr1, ?_⟩
    intro i o ho
    obtain ⟨f, hf, hne⟩ := hk i o ho
    rw [hrr1]
    exact ⟨_, hf, reduced_filled_at_price o rate⁻¹ f hne⟩
  · intro r err h
    obtain ⟨r1', res, h1, h2, -, -⟩ := ComputeRing_spec h
    obtain ⟨hrr1, hk⟩ := key r1' h1
    obtain ⟨hrr2, -, hfwd, -⟩ := computeFee_frame h2
    refine ⟨by rw [hrr2, hrr1], ?_⟩
    intro i o ho
    obtain ⟨f, hf, hne⟩ := hk i o ho
    obtain ⟨a, ha, -, _, _, _, _, rfl⟩ := hfwd i _ hf
    rw [hrr2, hrr1]
    exact ⟨_, ha, reduced_filled_at_price o rate⁻¹ f hne⟩

/-- Witness of C25 on the ring A: 1000/500, B: 500/10. -/
theorem legs_filled_at_reduced_price_witness :
    (∃ r1, computeVolume exampleEnv skewedRing = some r1 ∧ r1.ReducedRate = (10 : ℚ)⁻¹ ∧
      ∀ (i : ℕ) (o : FilledOrder), skewedRing.Orders[i]? = some o →
        ∃ a, r1.Orders[i]? = some a ∧
          a.SPrice = r1.ReducedRate * ((o.OrderState.RawOrder.AmountS : ℚ) /
            (o.OrderState.RawOrder.AmountB : ℚ)) ∧
          a.BPrice = 1 / a.SPrice ∧
          a.FillAmountB = a.FillAmountS * a.BPrice ∧
          a.FillAmountS = a.FillAmountB * a.SPrice) ∧
    (∀ r err, exampleEvaluator.ComputeRing exampleEnv skewedRing = some (r, err) →
      r.ReducedRate = (10 : ℚ)⁻¹ ∧
      ∀ (i : ℕ) (o : FilledOrder), skewedRing.Orders[i]? = some o →
        ∃ a, r.Orders[i]? = some a ∧
          a.SPrice = r.ReducedRate * ((o.OrderState.RawOrder.AmountS : ℚ) /
            (o.OrderState.RawOrder.AmountB : ℚ)) ∧
          a.BPrice = 1 / a.SPrice ∧
          a.FillAmountB = a.FillAmountS * a.BPrice ∧
          a.FillAmountS = a.FillAmountB * a.SPrice) :=
  legs_filled_at_reduced_price exampleEvaluator exampleEnv skewedRing 10
    skewedRing_pos skewedRing_rate (by norm_num)

/-- C26. For a non-empty ring with positive amounts and a positive reduced
rate, the forward pass of `ComputeRing` completes with tentative fills and an
index `m` of a leg: no leg after `m` has its `AvailableAmountS` reached by the
tentative `FillAmountB` of the leg before it, and if `m ≥ 1` leg `m` has, so `m`
is the last such leg, or 0 when there is none.  Lines 42-148 then complete and
fill leg `m` completely, `FillAmountS = AvailableAmountS` (the availability it
came in with), and so does the ring `ComputeRing` leaves when it returns. -/
theorem minVolume_leg_filled (e : Evaluator) (env : Env) (ring : Ring) (rate : ℚ)
    (hne : ring.Orders ≠ [])
    (hpos : ∀ o ∈ ring.Orders,
      0 < o.OrderState.RawOrder.AmountS ∧ 0 < o.OrderState.RawOrder.AmountB)
    (hrate : env.rootOfRing (productPrice ring.Orders) ring.Orders.length = some rate)
    (hrr : 0 < rate⁻¹) :
    ∃ os2 m r1, forwardOfRing env ring = some (os2, m, rate⁻¹) ∧
      computeVolume env ring = some r1 ∧ m < ring.Orders.length ∧
      (∀ (j : ℕ) (o : FilledOrder), ring.Orders[j]? = some o →
        ∃ b, os2[j]? = some b ∧ b.AvailableAmountS = o.AvailableAmountS) ∧
      (∀ (i : ℕ) (p b : FilledOrder), m < i → os2[i - 1]? = some p → os2[i]? = some b →
        p.FillAmountB < b.AvailableAmountS) ∧
      (1 ≤ m → ∃ p b, os2[m - 1]? = some p ∧ os2[m]? = some b ∧
        b.AvailableAmountS ≤ p.FillAmountB) ∧
      (∃ o a, ring.Orders[m]? = some o ∧ r1.Orders[m]? = some a ∧
        a.AvailableAmountS = o.AvailableAmountS ∧ a.FillAmountS = o.AvailableAmountS) ∧
      ∀ r err, e.ComputeRing env ring = some (r, err) →
        ∃ o a, ring.Orders[m]? = some o ∧ r.Orders[m]? = some a ∧
          a.AvailableAmountS = o.AvailableAmountS ∧ a.FillAmountS = o.AvailableAmountS := by
  have hr0 : rate ≠ 0 := by
    intro h0; simp [h0] at hrr
  obtain ⟨r1, hr1⟩ := computeVolume_isSome (amounts_ne_zero hpos) hrate hr0
  obtain ⟨-, rate', os2, m, hrate', -, -, hfwd, -, hmn, hS, -, hmin, -⟩ :=
    computeVolume_spec hr1
  rw [hrate] at hrate'
  cases hrate'
  obtain ⟨-, rate', hrate', -, hrr', hpass⟩ := forwardOfRing_spec hfwd
  obtain ⟨-, -, hshape, -, -, -⟩ :=
    forwardPass_spec rate⁻¹ _ none 0 0 os2 m hpass (Or.inr ⟨rfl, rfl⟩)
  obtain ⟨hA, -, hB, -⟩ :=
    forwardPass_minIdx rate⁻¹ _ none 0 0 os2 m hpass (Or.inr ⟨rfl, rfl⟩)
  have hm := hmn hne
  have hleg : ∀ r1', computeVolume env ring = some r1' →
      ∃ o a, ring.Orders[m]? = some o ∧ r1'.Orders[m]? = some a ∧
        a.AvailableAmountS = o.AvailableAmountS ∧ a.FillAmountS = o.AvailableAmountS := by
    intro r1' h1
    rw [hr1] at h1
    cases h1
    obtain ⟨a, ha, hfa⟩ := hmin hne
    obtain ⟨f, hf⟩ := hS m _ (List.getElem?_eq_getElem hm)
    rw [ha] at hf
    cases hf
    exact ⟨_, _, List.getElem?_eq_getElem hm, ha, rfl, hfa⟩
  refine ⟨os2, m, r1, hfwd, hr1, hm, ?_, ?_, ?_, hleg r1 hr1, ?_⟩
  · intro j o ho
    obtain ⟨-, f, hf, -⟩ := hshape j o.priced (by simp [ho])
    exact ⟨_, hf, rfl⟩
  · intro i p b hi hp hb
    have hi1 : i - 1 + 1 = i := by omega
    rw [← hi1] at hb
    exact hA (i - 1) p b hp hb (by omega)
  · intro h1
    obtain ⟨a, b, ha, hb, hle⟩ := hB (m - 1) (by omega)
    have hm1 : m - 1 + 1 = m := by omega
    rw [hm1] at hb
    exact ⟨a, b, ha, hb, hle⟩
  · intro r err h
    obtain ⟨r1', res, h1, h2, -, -⟩ := ComputeRing_spec h
    obtain ⟨o, a1, ho, ha1, hav, hfa⟩ := hleg r1' h1
    obtain ⟨-, -, hfee, -⟩ := computeFee_frame h2
    obtain ⟨a, ha, -, _, _, _, _, rfl⟩ := hfee m a1 ha1
    exact ⟨o, _, ho, ha, hav, hfa⟩

/-- Witness of C26 on the ring A: 1000/500, B: 500/10. -/
theorem minVolume_leg_filled_witness :
    ∃ os2 m r1, forwardOfRing exampleEnv skewedRing = some (os2, m, (10 : ℚ)⁻¹) ∧
      computeVolume exampleEnv skewedRing = some r1 ∧ m < skewedRing.Orders.length ∧
      (∀ (j : ℕ) (o : FilledOrder), skewedRing.Orders[j]? = some o →
        ∃ b, os2[j]? = some b ∧ b.AvailableAmountS = o.AvailableAmountS) ∧
      (∀ (i : ℕ) (p b : FilledOrder), m < i → os2[i - 1]? = some p → os2[i]? = some b →
        p.FillAmountB < b.AvailableAmountS) ∧
      (1 ≤ m → ∃ p b, os2[m - 1]? = some p ∧ os2[m]? = some b ∧
        b.AvailableAmountS ≤ p.FillAmountB) ∧
      (∃ o a, skewedRing.Orders[m]? = some o ∧ r1.Orders[m]? = some a ∧
        a.AvailableAmountS = o.AvailableAmountS ∧ a.FillAmountS = o.AvailableAmountS) ∧
      ∀ r err, exampleEvaluator.ComputeRing exampleEnv skewedRing = some (r, err) →
        ∃ o a, skewedRing.Orders[m]? = some o ∧ r.Orders[m]? = some a ∧
          a.AvailableAmountS = o.AvailableAmountS ∧ a.FillAmountS = o.AvailableAmountS :=
  minVolume_leg_filled exampleEvaluator exampleEnv skewedRing 10
    (by simp [skewedRing]) skewedRing_pos skewedRing_rate (by norm_num)

/-- C27. For a ring of `n ≥ 2` legs whose float root `rate` is exact,
`reducedRate ^ n * P = 1` for `reducedRate = 1 / rate`, lines 42-148 of
`ComputeRing` complete and the ring closes across the wrap-around pair: the
`FillAmountB` of the last leg equals the `FillAmountS` of leg 0; the same holds
of the ring `ComputeRing` leaves when it returns. -/
theorem wrap_around_closes_of_exact_root (e : Evaluator) (env : Env) (ring : Ring) (rate : ℚ)
    (hn : 2 ≤ ring.Orders.length)
    (hrate : env.rootOfRing (productPrice ring.Orders) ring.Orders.length = some rate)
    (hexact : rate⁻¹ ^ ring.Orders.length * productPrice ring.Orders = 1) :
    (∃ r1, computeVolume env ring = some r1 ∧ r1.ReducedRate = rate⁻¹ ∧
      ∃ first last, r1.Orders[0]? = some first ∧
        r1.Orders[ring.Orders.length - 1]? = some last ∧
        last.FillAmountB = first.FillAmountS) ∧
    (∀ r err, e.ComputeRing env ring = some (r, err) →
      ∃ first last, r.Orders[0]? = some first ∧
        r.Orders[ring.Orders.length - 1]? = some last ∧
        last.FillAmountB = first.FillAmountS) := by
  have hP : productPrice ring.Orders ≠ 0 := by
    intro h0
    rw [h0, mul_zero] at hexact
    exact zero_ne_one hexact
  have hne := amounts_ne_zero_of_productPrice hP
  have hr0 := rate_ne_zero_of_exact hrate hexact
  have key : ∀ (L : List FilledOrder), L.length = ring.Orders.length →
      (L.map fun a => a.SPrice) = ring.Orders.map (fun o =>
        (o.OrderState.RawOrder.AmountS : ℚ) / (o.OrderState.RawOrder.AmountB : ℚ) * rate⁻¹) →
      (∀ a ∈ L, a.FillAmountB = a.FillAmountS * a.SPrice⁻¹) → Chained L →
      ∃ first last, L[0]? = some first ∧ L[ring.Orders.length - 1]? = some last ∧
        last.FillAmountB = first.FillAmountS := by
    intro L hlen hsp hfill hc
    cases L with
    | nil => simp at hlen; omega
    | cons a L =>
      obtain ⟨z, hz, hzf⟩ := chain_last_fill L a hfill hc
      refine ⟨a, z, by simp, ?_, ?_⟩
      · rw [← hlen, ← List.getLast?_eq_getElem?]
        exact hz
      · rw [hzf, hsp, prod_price_mul, hexact]
        simp
  obtain ⟨r1, hr1⟩ := computeVolume_isSome hne hrate hr0
  have hvol : ∀ r1', computeVolume env ring = some r1' → r1'.ReducedRate = rate⁻¹ ∧
      r1'.Orders.length = ring.Orders.length ∧ Chained r1'.Orders := by
    intro r1' h1
    obtain ⟨-, rate', _, _, hrate', -, hrr, -, hlen, -, -, hc, -, -⟩ := computeVolume_spec h1
    rw [hrate] at hrate'
    cases hrate'
    exact ⟨hrr, hlen, hc⟩
  constructor
  · obtain ⟨hrr, hlen, hc⟩ := hvol r1 hr1
    obtain ⟨hsp, hfill⟩ := volume_sPrice hr1
    rw [hrr] at hsp
    exact ⟨r1, hr1, hrr, key r1.Orders hlen hsp hfill hc⟩
  · intro r err h
    obtain ⟨r1', res, h1, h2, -, -⟩ := ComputeRing_spec h
    obtain ⟨hrr, hlen, hc⟩ := hvol r1' h1
    obtain ⟨-, hfill⟩ := volume_sPrice h1
    have hsp := phases_sPrice h1 h2
    rw [hrr] at hsp
    obtain ⟨-, hlen2, -, -⟩ := computeFee_frame h2
    refine key r.Orders (by omega) hsp ?_ (chained_of_fee h2 hc)
    intro a ha
    obtain ⟨a1, ha1, _, _, _, _, rfl⟩ := computeFee_mem h2 a ha
    exact hfill a1 ha1

/-- Witness of C27: the ring of two legs selling 2 for 1, whose float root 2 is
exact. -/
theorem wrap_around_closes_of_exact_root_witness :
    (∃ r1, computeVolume exampleEnv twoForOneRing = some r1 ∧ r1.ReducedRate = (2 : ℚ)⁻¹ ∧
      ∃ first last, r1.Orders[0]? = some first ∧
        r1.Orders[twoForOneRing.Orders.length - 1]? = some last ∧
        last.FillAmountB = first.FillAmountS) ∧
    (∀ r err, exampleEvaluator.ComputeRing exampleEnv twoForOneRing = some (r, err) →
      ∃ first last, r.Orders[0]? = some first ∧
        r.Orders[twoForOneRing.Orders.length - 1]? = some last ∧
        last.FillAmountB = first.FillAmountS) := by
  have hP : productPrice twoForOneRing.Orders = 4 := by
    simp [productPrice, twoForOneRing, leg]
    norm_num
  exact wrap_around_closes_of_exact_root exampleEvaluator exampleEnv twoForOneRing 2
    (by simp [twoForOneRing])
    (by rw [hP]; simp [exampleEnv, exampleRoot, twoForOneRing])
    (by rw [hP]; simp [twoForOneRing]; norm_num)

/-! ## C28: the legal value of a known token -/

/-- For a token of the price table with non-zero decimals whose stored
price in the currency of the tag is set, `LegalCurrencyValueByCurrency` returns
`price * amount / decimals` and no error, for every amount.  So the value of a
sum is the sum of the values, the value of `k` times an amount is `k` times its
value, and the value of 0 is 0.  The currency of a tag is USD or BTC when the
upper-cased tag is "USD" or "BTC", and CNY for every other tag. -/
theorem LegalCurrencyValueByCurrency_linear (p : CapProvider_CoinMarketCap)
    (toUpper : String → String) (tokenAddress : Address) (currencyStr : String)
    (c : CurrencyMarketCap) (price : ℚ)
    (hc : p.tokenMarketCaps tokenAddress = some c) (hd : c.Decimals ≠ 0)
    (hp : c.price (StringToLegalCurrency toUpper currencyStr) = some price) :
    (∀ amount : ℚ, p.LegalCurrencyValueByCurrency toUpper tokenAddress amount currencyStr =
      some (some (price * amount / (c.Decimals : ℚ)), none)) ∧
    (∀ (a b va vb : ℚ),
      p.LegalCurrencyValueByCurrency toUpper tokenAddress a currencyStr =
        some (some va, none) →
      p.LegalCurrencyValueByCurrency toUpper tokenAddress b currencyStr =
        some (some vb, none) →
      p.LegalCurrencyValueByCurrency toUpper tokenAddress (a + b) currencyStr =
        some (some (va + vb), none)) ∧
    (∀ (k a va : ℚ),
      p.LegalCurrencyValueByCurrency toUpper tokenAddress a currencyStr =
        some (some va, none) →
      p.LegalCurrencyValueByCurrency toUpper tokenAddress (k * a) currencyStr =
        some (some (k * va), none)) ∧
    p.LegalCurrencyValueByCurrency toUpper tokenAddress 0 currencyStr =
      some (some 0, none) ∧
    some price = (if toUpper currencyStr = "USD" then c.PriceUsd
      else if toUpper currencyStr = "BTC" then c.PriceBtc
      else c.PriceCny) := by
  have hq : (c.Decimals : ℚ) ≠ 0 := by exact_mod_cast hd
  have hval : ∀ amount : ℚ,
      p.LegalCurrencyValueByCurrency toUpper tokenAddress amount currencyStr =
        some (some (price * amount / (c.Decimals : ℚ)), none) := by
    intro amount
    simp only [CapProvider_CoinMarketCap.LegalCurrencyValueByCurrency, hc, ratQuo, hq,
      if_false, Option.some_bind, CapProvider_CoinMarketCap.GetMarketCapByCurrency, hp,
      Option.some.injEq, Prod.mk.injEq, and_true]
    ring
  refine ⟨hval, ?_, ?_, ?_, ?_⟩
  · intro a b va vb ha hb
    rw [hval] at ha hb ⊢
    simp only [Option.some.injEq, Prod.mk.injEq, and_true] at ha hb ⊢
    rw [← ha, ← hb]
    ring
  · intro k a va ha
    rw [hval] at ha ⊢
    simp only [Option.some.injEq, Prod.mk.injEq, and_true] at ha ⊢
    rw [← ha]
    ring
  · rw [hval]
    simp
  · have h3 := (GetMarketCapByCurrency_tag toUpper currencyStr c)
    rw [hp] at h3
    exact h3

/-- C28 (failing input). `NewMarketCapProvider` on the registry of WETH
(address 1, feed id "ETH") and LRC (address 2, feed id "LRC"), with a first
feed that quotes only "eth", returns a provider and no error.  LRC is present
in its price table with decimals 1000 and prices still nil: the legal value of
5 units of it, and of 0 units, is not returned, under every tag and through
`LegalCurrencyValue`; the call aborts in the price query (`Set` on the nil
price, line 122), where the claim has `price * amount / decimals` and no error.
On the same provider 5 units of WETH are worth `2100 * 5 / 1000` with no
error. -/
theorem LegalCurrencyValueByCurrency_aborts_on_unpriced_token :
    ∃ p, NewMarketCapProvider exampleUpper ("url") ("CNY") 5 exampleTokens
        (Fetched.decoded [some exampleQuote]) = some (Except.ok p) ∧
      p.tokenMarketCaps 2 = some (freshCap 2 ("LRC") ("LRC") 1000) ∧
      p.LegalCurrencyValueByCurrency exampleUpper 2 5 ("CNY") = none ∧
      p.LegalCurrencyValueByCurrency exampleUpper 2 5 ("usd") = none ∧
      p.LegalCurrencyValueByCurrency exampleUpper 2 5 ("EUR") = none ∧
      p.LegalCurrencyValueByCurrency exampleUpper 2 0 ("CNY") = none ∧
      p.LegalCurrencyValue exampleUpper 2 5 = none ∧
      p.LegalCurrencyValueByCurrency exampleUpper 1 5 ("CNY") =
        some (some (2100 * 5 / 1000), none) := by
  obtain ⟨p, hp, hcur, h1, h2, -⟩ := NewMarketCapProvider_unquoted_token
  refine ⟨p, hp, h2, ?_, ?_, ?_, ?_, ?_, ?_⟩
  · simp [CapProvider_CoinMarketCap.LegalCurrencyValueByCurrency,
      CapProvider_CoinMarketCap.GetMarketCapByCurrency, h2, freshCap, ratQuo,
      CurrencyMarketCap.price, StringToLegalCurrency, exampleUpper]
  · simp [CapProvider_CoinMarketCap.LegalCurrencyValueByCurrency,
      CapProvider_CoinMarketCap.GetMarketCapByCurrency, h2, freshCap, ratQuo,
      CurrencyMarketCap.price, StringToLegalCurrency, exampleUpper]
  · simp [CapProvider_CoinMarketCap.LegalCurrencyValueByCurrency,
      CapProvider_CoinMarketCap.GetMarketCapByCurrency, h2, freshCap, ratQuo,
      CurrencyMarketCap.price, StringToLegalCurrency, exampleUpper]
  · simp [CapProvider_CoinMarketCap.LegalCurrencyValueByCurrency,
      CapProvider_CoinMarketCap.GetMarketCapByCurrency, h2, freshCap, ratQuo,
      CurrencyMarketCap.price, StringToLegalCurrency, exampleUpper]
  · simp [CapProvider_CoinMarketCap.LegalCurrencyValue, hcur,
      CapProvider_CoinMarketCap.LegalCurrencyValueByCurrency,
      CapProvider_CoinMarketCap.GetMarketCapByCurrency, h2, freshCap, ratQuo,
      CurrencyMarketCap.price, StringToLegalCurrency, exampleUpper]
  · simp [CapProvider_CoinMarketCap.LegalCurrencyValueByCurrency,
      CapProvider_CoinMarketCap.GetMarketCapByCurrency, h1, freshCap, ratQuo,
      CurrencyMarketCap.synced, exampleQuote, CurrencyMarketCap.price, StringToLegalCurrency,
      exampleUpper]
    norm_num

/-! ## C29-C30: status labels and ring details of the wallet service -/

/-- C29 (failing input). A non-expired order whose stored status is PENDING
gets the label "ORDER_PENDING", for which `convertStatus` has no case and
returns the empty list: the stored status is not a member of it.  For the six
other named statuses the stored status is a member of the list of the
label. -/
theorem pending_label_is_no_filter (raw : RawOrder) :
    getStringStatus { RawOrder := raw, Status := OrderStatus.ORDER_PENDING } false false =
      "ORDER_PENDING" ∧
    convertStatus ("ORDER_PENDING") = [] ∧
    OrderStatus.ORDER_PENDING ∉ convertStatus
      (getStringStatus { RawOrder := raw, Status := OrderStatus.ORDER_PENDING } false false) ∧
    (∀ s ∈ [OrderStatus.ORDER_NEW, OrderStatus.ORDER_PARTIAL, OrderStatus.ORDER_FINISHED,
        OrderStatus.ORDER_CANCEL, OrderStatus.ORDER_CUTOFF, OrderStatus.ORDER_EXPIRE],
      s ∈ convertStatus (getStringStatus { RawOrder := raw, Status := s } false false)) := by
  refine ⟨rfl, by decide, ?_, ?_⟩
  · have h : getStringStatus { RawOrder := raw, Status := OrderStatus.ORDER_PENDING }
        false false = "ORDER_PENDING" := rfl
    rw [h]
    decide
  · intro s hs
    simp only [List.mem_cons, List.mem_singleton, List.not_mem_nil, or_false] at hs
    rcases hs with rfl | rfl | rfl | rfl | rfl | rfl
    · have h : getStringStatus { RawOrder := raw, Status := OrderStatus.ORDER_NEW }
          false false = "ORDER_OPENED" := rfl
      rw [h]; decide
    · have h : getStringStatus { RawOrder := raw, Status := OrderStatus.ORDER_PARTIAL }
          false false = "ORDER_OPENED" := rfl
      rw [h]; decide
    · have h : getStringStatus { RawOrder := raw, Status := OrderStatus.ORDER_FINISHED }
          false false = "ORDER_FINISHED" := rfl
      rw [h]; decide
    · have h : getStringStatus { RawOrder := raw, Status := OrderStatus.ORDER_CANCEL }
          false false = "ORDER_CANCELLED" := rfl
      rw [h]; decide
    · have h : getStringStatus { RawOrder := raw, Status := OrderStatus.ORDER_CUTOFF }
          false false = "ORDER_CUTOFF" := rfl
      rw [h]; decide
    · have h : getStringStatus { RawOrder := raw, Status := OrderStatus.ORDER_EXPIRE }
          false false = "ORDER_EXPIRE" := rfl
      rw [h]; decide

/-- C30 (failing input). When the ring-mined page query succeeds (no error) and
reports `Total = 2`, `GetRingMinedDetail` on a non-empty ring hash aborts:
line 568 calls `err.Error()` on the nil error.  With an error from the query it
returns "query ring error occurs", with no error and `Total = 0` it returns "no
ring found by hash", and on an empty ring hash it returns "ring hash can't be
null" whatever the query functions are. -/
theorem GetRingMinedDetail_aborts_on_many :
    (∀ (data : List ℕ) (find : String → List ℕ × Option String)
        (asEvent : ℕ → Option ℕ) (detail : ℕ → List ℕ → Option ℕ × Option String),
      GetRingMinedDetail (fun q : String => q)
        (fun _ => ({ Data := data, Total := 2 }, none)) find asEvent detail ("0x01") = none) ∧
    (∀ (page : PageResult ℕ) (find : String → List ℕ × Option String)
        (asEvent : ℕ → Option ℕ) (detail : ℕ → List ℕ → Option ℕ × Option String),
      GetRingMinedDetail (fun q : String => q)
        (fun _ => (page, some ("db down"))) find asEvent detail ("0x01") =
          some (none, some ("query ring error occurs"))) ∧
    (∀ (data : List ℕ) (find : String → List ℕ × Option String)
        (asEvent : ℕ → Option ℕ) (detail : ℕ → List ℕ → Option ℕ × Option String),
      GetRingMinedDetail (fun q : String => q)
        (fun _ => ({ Data := data, Total := 0 }, none)) find asEvent detail ("0x01") =
          some (none, some ("no ring found by hash"))) ∧
    (∀ (pageQuery : String → PageResult ℕ × Option String)
        (find : String → List ℕ × Option String)
        (asEvent : ℕ → Option ℕ) (detail : ℕ → List ℕ → Option ℕ × Option String),
      GetRingMinedDetail (fun q : String => q) pageQuery find asEvent detail ("") =
        some (none, some ("ring hash can't be null"))) := by
  have hl : ¬ (("0x01").length = 0) := by decide
  refine ⟨?_, ?_, ?_, ?_⟩
  · intro data find asEvent detail
    simp [GetRingMinedDetail, hl]
  · intro page find asEvent detail
    simp [GetRingMinedDetail, hl]
  · intro data find asEvent detail
    simp [GetRingMinedDetail, hl]
  · intro pageQuery find asEvent detail
    simp [GetRingMinedDetail]

end Relay
